import Mathlib

/-! CRepository: a category-partitioned object store.

A shallow embedding of `largenet2/base/repo/CRepository.h` and proofs about it.

The C++ class keeps five parallel `std::vector`s.  They are embedded as Lean
lists; `operator[]` reads become `rd` (for index vectors) or `List.getD`, and
`operator[]` writes become `List.set`.  All index types are unsigned integers of
one width; they are embedded as `Nat`, and the one place where wrap-around of a
product can occur (`enlarge`) reduces modulo `2 ^ bits` explicitly.
-/

namespace repo

/-- Parameters fixed outside `CRepository.h`: the bit width of the unsigned
index types (`id_size_t`, `address_t`, declared in `repo_types.h`) and
`sizeof(T)` of the stored record type. -/
structure Env where
  bits : Nat
  sizeofT : Nat
deriving DecidableEq, Repr

/-- The data members of `CRepository<T>` (lines 331-341), in declaration order. -/
structure CRepository (T : Type) where
  C_ : Nat
  N_ : Nat
  nStored_ : Nat
  count_ : List Nat
  offset_ : List Nat
  nums_ : List Nat
  ids_ : List Nat
  items_ : List T
  minID_ : Nat
  maxID_ : Nat
  enlargeFactor_ : Nat
deriving DecidableEq, Repr

/-- Read `v[i]` of an index vector.  An index past the end reads `0`. -/
def rd (v : List Nat) (i : Nat) : Nat := v.getD i 0

/-- The call `v.resize(n, x)` of `std::vector`: truncate to `n` entries or pad
with copies of `x` up to `n` entries. -/
def resize {α : Type} (v : List α) (n : Nat) (x : α) : List α :=
  v.take n ++ List.replicate (n - v.length) x

variable {T : Type}

/-- Embeds `count()`, line 70. -/
def count (s : CRepository T) : Nat := s.nStored_

/-- Embeds `count(category_t cat)`, line 87. -/
def countOf (s : CRepository T) (cat : Nat) : Nat := rd s.count_ cat

/-- Embeds `capacity()`, line 97. -/
def capacity (s : CRepository T) : Nat := s.N_

/-- Embeds `maxSize()`, line 102: `id_size_t(-1) / sizeof(T)`. -/
def maxSize (E : Env) : Nat := (2 ^ E.bits - 1) / E.sizeofT

/-- Embeds `setEnlargeFactor`, line 113. -/
def setEnlargeFactor (s : CRepository T) (val : Nat) : CRepository T :=
  if val > 1 then { s with enlargeFactor_ := val } else s

/-- Embeds `numberOfCategories()`, line 123. -/
def numberOfCategories (s : CRepository T) : Nat := s.C_

/-- Embeds `valid(id_t i)`, line 133. -/
def valid (s : CRepository T) (i : Nat) : Bool :=
  decide (s.nStored_ > 0) && decide (i < s.N_) && decide (rd s.nums_ i < s.nStored_)

/-- Embeds `maxID()`, line 137. -/
def maxID (s : CRepository T) : Nat := s.maxID_

/-- Embeds `minID()`, line 141. -/
def minID (s : CRepository T) : Nat := s.minID_

/-- The loop of `updateMinID` (line 350): `while (!valid(minID_) && (minID_ < N_)) ++minID_;`.
The first argument bounds the number of iterations; the loop increments a
counter that starts at `0` while it is below `N_`, so `N_` iterations suffice. -/
def minIDLoop (s : CRepository T) : Nat → Nat → Nat
  | 0, m => m
  | k + 1, m => if (!valid s m) && decide (m < s.N_) then minIDLoop s k (m + 1) else m

/-- Embeds `updateMinID()`, line 345. -/
def updateMinID (s : CRepository T) : CRepository T :=
  if s.nStored_ > 0 then { s with minID_ := minIDLoop s s.N_ 0 }
  else { s with minID_ := 0 }

/-- The loop of `updateMaxID` (line 363): `while (!valid(maxID_) && (maxID_ > 0)) --maxID_;`,
as a function of the starting value of `maxID_`. -/
def maxIDLoop (s : CRepository T) : Nat → Nat
  | 0 => 0
  | m + 1 => if !valid s (m + 1) then maxIDLoop s m else m + 1

/-- Embeds `updateMaxID()`, line 358. -/
def updateMaxID (s : CRepository T) : CRepository T :=
  if s.nStored_ > 0 then { s with maxID_ := maxIDLoop s (s.N_ - 1) }
  else { s with maxID_ := 0 }

/-- Embeds `updateMinMaxID(id_t id)`, line 378. -/
def updateMinMaxID (s : CRepository T) (id : Nat) : CRepository T :=
  if s.nStored_ > 0 then
    let s1 := if id < s.minID_ then { s with minID_ := id } else s
    if id > s1.maxID_ then { s1 with maxID_ := id } else s1
  else { s with minID_ := 0, maxID_ := 0 }

/-- The two `for` loops of `init()` write `f i` at every index `i < n`. -/
def fillIndices (v : List Nat) (n : Nat) (f : Nat → Nat) : List Nat :=
  (List.range n).foldl (fun l i => l.set i (f i)) v

/-- Embeds `init()`, line 436. -/
def init [Inhabited T] (s : CRepository T) : CRepository T :=
  let nums0 := resize s.nums_ s.N_ 0
  let ids0 := resize s.ids_ s.N_ 0
  let count0 := resize s.count_ (s.C_ + 1) 0
  let offset0 := resize s.offset_ (s.C_ + 1) 0
  let ids1 := fillIndices ids0 s.N_ (fun i => i)
  let nums1 := fillIndices nums0 s.N_ (fun i => i)
  let count1 := fillIndices count0 s.C_ (fun _ => 0)
  let offset1 := fillIndices offset0 s.C_ (fun _ => 0)
  let offset2 := offset1.set s.C_ 0
  let count2 := count1.set s.C_ s.N_
  { s with
    nStored_ := 0, nums_ := nums1, ids_ := ids1, count_ := count2, offset_ := offset2,
    minID_ := 0, maxID_ := 0, items_ := resize s.items_ s.N_ default }

/-- Embeds `CRepository()`, line 396. -/
def construct0 [Inhabited T] : CRepository T :=
  init { C_ := 1, N_ := 0, nStored_ := 0, count_ := [], offset_ := [], nums_ := [], ids_ := [],
         items_ := [], minID_ := 0, maxID_ := 0, enlargeFactor_ := 2 }

/-- Embeds `CRepository(category_t cat, id_size_t n)`, line 413. -/
def construct [Inhabited T] (cat n : Nat) : CRepository T :=
  init { C_ := cat, N_ := n, nStored_ := 0,
         count_ := List.replicate (cat + 1) 0, offset_ := List.replicate (cat + 1) 0,
         nums_ := List.replicate n 0, ids_ := List.replicate n 0,
         items_ := List.replicate n default, minID_ := 0, maxID_ := 0, enlargeFactor_ := 2 }

/-- Embeds `CRepository(category_t cat)`, line 403: capacity `100`. -/
def construct1 [Inhabited T] (cat : Nat) : CRepository T := construct cat 100

/-- The scan of `category(address_t n)` (line 621):
`while (na >= count_[c]) { na -= count_[c]; ++c; }`, reading `count_` from index
`c` on.  The list argument is `count_` from index `c`; when it is exhausted the
scan has run past `count_` and the index reached is returned. -/
def categoryLoop : List Nat → Nat → Nat → Nat
  | [], _, c => c
  | k :: ks, na, c => if na ≥ k then categoryLoop ks (na - k) (c + 1) else c

/-- Embeds `category(address_t n)`, line 616. -/
def categoryAt (s : CRepository T) (n : Nat) : Nat := categoryLoop s.count_ n 0

/-- Embeds `category(id_t id)`, line 609. -/
def category (s : CRepository T) (id : Nat) : Nat := categoryAt s (rd s.nums_ id)

/-- The swap inside the loops of `increaseCat` and `decreaseCat` (lines 564-568
and 594-598). -/
def swapEntries (s : CRepository T) (mynum tarnum myid : Nat) : CRepository T :=
  let idbuf := rd s.ids_ tarnum
  let ids1 := s.ids_.set tarnum (rd s.ids_ mynum)
  let ids2 := ids1.set mynum idbuf
  let nums1 := s.nums_.set myid tarnum
  let nums2 := nums1.set idbuf mynum
  { s with ids_ := ids2, nums_ := nums2 }

/-- One iteration of the loop of `increaseCat` (lines 560-574); returns the new
state and the new value of `mynum`. -/
def increaseStep (s : CRepository T) (mynum myid cls : Nat) : CRepository T × Nat :=
  let tarnum := rd s.offset_ cls + rd s.count_ cls - 1
  let s1 := if mynum ≠ tarnum then swapEntries s mynum tarnum myid else s
  let mynum1 := if mynum ≠ tarnum then tarnum else mynum
  let count1 := s1.count_.set cls (rd s1.count_ cls - 1)
  let count2 := count1.set (cls + 1) (rd count1 (cls + 1) + 1)
  let offset1 := s1.offset_.set (cls + 1) (rd s1.offset_ (cls + 1) - 1)
  ({ s1 with count_ := count2, offset_ := offset1 }, mynum1)

/-- The loop `while (cls < cat)` of `increaseCat`, by the number `cat - cls` of
iterations left. -/
def increaseLoop : Nat → CRepository T → Nat → Nat → Nat → CRepository T
  | 0, s, _, _, _ => s
  | k + 1, s, mynum, myid, cls =>
    increaseLoop k (increaseStep s mynum myid cls).1 (increaseStep s mynum myid cls).2 myid (cls + 1)

/-- Embeds `increaseCat(address_t n, category_t cat)`, line 549. -/
def increaseCat (s : CRepository T) (n cat : Nat) : CRepository T :=
  increaseLoop (cat - categoryAt s n) s n (rd s.ids_ n) (categoryAt s n)

/-- One iteration of the loop of `decreaseCat` (lines 590-604). -/
def decreaseStep (s : CRepository T) (mynum myid cls : Nat) : CRepository T × Nat :=
  let tarnum := rd s.offset_ cls
  let s1 := if mynum ≠ tarnum then swapEntries s mynum tarnum myid else s
  let mynum1 := if mynum ≠ tarnum then tarnum else mynum
  let count1 := s1.count_.set cls (rd s1.count_ cls - 1)
  let count2 := count1.set (cls - 1) (rd count1 (cls - 1) + 1)
  let offset1 := s1.offset_.set cls (rd s1.offset_ cls + 1)
  ({ s1 with count_ := count2, offset_ := offset1 }, mynum1)

/-- The loop `while (cls > cat)` of `decreaseCat`, by the number `cls - cat` of
iterations left. -/
def decreaseLoop : Nat → CRepository T → Nat → Nat → Nat → CRepository T
  | 0, s, _, _, _ => s
  | k + 1, s, mynum, myid, cls =>
    decreaseLoop k (decreaseStep s mynum myid cls).1 (decreaseStep s mynum myid cls).2 myid (cls - 1)

/-- Embeds `decreaseCat(address_t n, category_t cat)`, line 579. -/
def decreaseCat (s : CRepository T) (n cat : Nat) : CRepository T :=
  decreaseLoop (categoryAt s n - cat) s n (rd s.ids_ n) (categoryAt s n)

/-- Embeds `setCategory(address_t n, category_t cat)`, line 638. -/
def setCategoryAt (s : CRepository T) (n cat : Nat) : CRepository T :=
  if categoryAt s n < cat then increaseCat s n cat else decreaseCat s n cat

/-- Embeds `setCategory(id_t id, category_t cat)`, line 630. -/
def setCategory (s : CRepository T) (id cat : Nat) : CRepository T :=
  setCategoryAt s (rd s.nums_ id) cat

/-- Embeds `item(id_t id)`, line 662. -/
def item [Inhabited T] (s : CRepository T) (id : Nat) : T := s.items_.getD id default

/-- Embeds `id(address_t n)`, line 730. -/
def idAt (s : CRepository T) (n : Nat) : Nat := rd s.ids_ n

/-- Embeds `id(category_t cat, address_t n)`, line 737. -/
def idIn (s : CRepository T) (cat n : Nat) : Nat := rd s.ids_ (rd s.offset_ cat + n)

/-- The size computed at the start of `enlarge()` (lines 515-518): the capacity
times the enlarge factor (the factor itself for an empty store), the product
wrapping at the width of the index type, capped at `maxSize()`. -/
def enlargedSize (E : Env) (s : CRepository T) : Nat :=
  let new_size := if s.N_ > 0 then (s.N_ * s.enlargeFactor_) % 2 ^ E.bits else s.enlargeFactor_
  let max_size := maxSize E
  if new_size > max_size then max_size else new_size

/-- Embeds `enlarge()`, line 513.  `none` stands for the thrown `AllocException`. -/
def enlarge [Inhabited T] (E : Env) (s : CRepository T) : Option (CRepository T) :=
  if enlargedSize E s ≤ s.N_ then none
  else
    some { s with
      items_ := resize s.items_ (enlargedSize E s) default,
      ids_ := s.ids_ ++ List.range' s.N_ (enlargedSize E s - s.N_),
      nums_ := s.nums_ ++ List.range' s.N_ (enlargedSize E s - s.N_),
      count_ := s.count_.set s.C_ (rd s.count_ s.C_ + (enlargedSize E s - s.N_)),
      N_ := enlargedSize E s }

/-- Embeds `insert(param_type itm, category_t cat)`, line 747.  Returns the new state
and the identifier, or `none` when `enlarge` throws. -/
def insert [Inhabited T] (E : Env) (s : CRepository T) (itm : T) (cat : Nat) :
    Option (CRepository T × Nat) :=
  let curnum := rd s.offset_ s.C_
  match (if curnum ≥ s.N_ then enlarge E s else some s) with
  | none => none
  | some s1 =>
    let uid := rd s1.ids_ curnum
    let s2 := { s1 with items_ := s1.items_.set uid itm }
    let s3 := decreaseCat s2 curnum cat
    let s4 := { s3 with nStored_ := s3.nStored_ + 1 }
    some (updateMinMaxID s4 uid, uid)

/-- Embeds `erase(address_t n)`, line 776. -/
def eraseAt [Inhabited T] (s : CRepository T) (n : Nat) : CRepository T :=
  let uid := rd s.ids_ n
  let s1 := { s with items_ := s.items_.set (rd s.ids_ n) default }
  let s2 := increaseCat s1 n s1.C_
  let s3 := { s2 with nStored_ := s2.nStored_ - 1 }
  let s4 := if uid = s3.minID_ then updateMinID s3 else s3
  if uid = s4.maxID_ then updateMaxID s4 else s4

/-- Embeds `erase(id_t id)`, line 794. -/
def erase [Inhabited T] (s : CRepository T) (id : Nat) : CRepository T :=
  eraseAt s (rd s.nums_ id)

/-- Embeds `reorderToMaxCategory(category_t n)`, line 484. -/
def reorderToMaxCategory (s : CRepository T) (n : Nat) : CRepository T :=
  if n ≥ s.C_ - 1 then s
  else
    let num := rd s.offset_ s.C_ - rd s.offset_ (n + 1)
    let temp := (s.ids_.drop (rd s.offset_ (n + 1))).take num
    temp.foldl (fun r it => decreaseCat r (rd r.nums_ it) n) s

/-- Embeds `setNumberOfCategories(category_t n)`, line 466.  The store `count_[oldC] = 0`
is made after `count_` was resized to `n + 1` entries; when `n < oldC` its index
is past the end of the vector and, as a `List.set`, it changes nothing. -/
def setNumberOfCategories (s : CRepository T) (n : Nat) : CRepository T :=
  if n = 0 then s
  else
    let s1 := if s.nStored_ > 0 then reorderToMaxCategory s (n - 1) else s
    let oldCCount := rd s1.count_ s1.C_
    let oldCOffset := rd s1.offset_ s1.C_
    let oldC := s1.C_
    let count1 := resize s1.count_ (n + 1) 0
    let offset1 := resize s1.offset_ (n + 1) oldCOffset
    let count2 := count1.set oldC 0
    let count3 := count2.set n oldCCount
    let offset2 := offset1.set n oldCOffset
    { s1 with C_ := n, count_ := count3, offset_ := offset2 }

/-- Embeds `clear()`, line 505. -/
def clear [Inhabited T] (s : CRepository T) : CRepository T :=
  init { s with items_ := [] }

/-! ## Invariants -/

/-- The identifier and position tables have `N_` entries and are mutually
inverse permutations of `[0, N_)`. -/
structure Bij (s : CRepository T) : Prop where
  len_ids : s.ids_.length = s.N_
  len_nums : s.nums_.length = s.N_
  len_items : s.items_.length = s.N_
  ids_nums : ∀ p, p < s.N_ → rd s.ids_ p < s.N_ ∧ rd s.nums_ (rd s.ids_ p) = p
  nums_ids : ∀ i, i < s.N_ → rd s.nums_ i < s.N_ ∧ rd s.ids_ (rd s.nums_ i) = i

/-- The partition tables have `C_ + 1` entries and the ranges
`[offset_[c], offset_[c] + count_[c])` tile `[0, N_)` in category order. -/
structure Tiling (s : CRepository T) : Prop where
  len_count : s.count_.length = s.C_ + 1
  len_offset : s.offset_.length = s.C_ + 1
  off_zero : rd s.offset_ 0 = 0
  off_succ : ∀ c, c < s.C_ → rd s.offset_ (c + 1) = rd s.offset_ c + rd s.count_ c
  off_last : rd s.offset_ s.C_ + rd s.count_ s.C_ = s.N_

/-- Position `p` lies in the range of category `c` (the erased pool when `c = C_`). -/
def InCat (s : CRepository T) (p c : Nat) : Prop :=
  c ≤ s.C_ ∧ rd s.offset_ c ≤ p ∧ p < rd s.offset_ c + rd s.count_ c

/-- State `s'` arises from `s` by relocating identifier `myid` between category
ranges: capacity, category count, stored count, records and identifier bounds
are the same, and every other identifier stays in the range it was in. -/
structure Moved (s s' : CRepository T) (myid : Nat) : Prop where
  C_eq : s'.C_ = s.C_
  N_eq : s'.N_ = s.N_
  nStored_eq : s'.nStored_ = s.nStored_
  items_eq : s'.items_ = s.items_
  minID_eq : s'.minID_ = s.minID_
  maxID_eq : s'.maxID_ = s.maxID_
  ef_eq : s'.enlargeFactor_ = s.enlargeFactor_
  others : ∀ j, j < s.N_ → j ≠ myid → ∀ c, InCat s (rd s.nums_ j) c → InCat s' (rd s'.nums_ j) c

/-- The representation invariant of `CRepository`: the identifier tables are
mutually inverse, the category ranges tile the positions, the erased pool
starts at position `nStored_`, and there is at least one category. -/
structure Inv (s : CRepository T) : Prop where
  bij : Bij s
  tiling : Tiling s
  stored : s.nStored_ = rd s.offset_ s.C_
  cpos : 0 < s.C_

/-- Every identifier other than `myid` that existed in `s` lies in `s'` in the
category range it was in, and every identifier that `s'` adds lies in the
erased pool. -/
structure Kept (s s' : CRepository T) (myid : Nat) : Prop where
  C_eq : s'.C_ = s.C_
  N_le : s.N_ ≤ s'.N_
  others : ∀ j, j < s.N_ → j ≠ myid → ∀ c, InCat s (rd s.nums_ j) c → InCat s' (rd s'.nums_ j) c
  fresh : ∀ j, s.N_ ≤ j → j < s'.N_ → j ≠ myid → InCat s' (rd s'.nums_ j) s'.C_

/-! ## Reachable states -/

/-- The states of a `CRepository` that a client can reach: the results of the
constructors with at least one category, closed under the public operations
called within their preconditions (`insert` with a category below `C_`,
`erase` and `setCategory` on a valid identifier).  An `insert` whose `enlarge`
throws leaves no new state.  The copy constructor runs `init()` on a store of
capacity `r.count()` and then calls `insert` for every item of `r`, so its
states arise from `construct`, `setEnlargeFactor` and `insert`. -/
inductive Reachable [Inhabited T] (E : Env) : CRepository T → Prop
  | construct0 : Reachable E construct0
  | construct1 (cat : Nat) : 0 < cat → Reachable E (construct1 cat)
  | construct (cat n : Nat) : 0 < cat → Reachable E (construct cat n)
  | insert {s s' : CRepository T} (itm : T) (cat id : Nat) :
      Reachable E s → cat < s.C_ → insert E s itm cat = some (s', id) → Reachable E s'
  | erase {s : CRepository T} (id : Nat) :
      Reachable E s → valid s id = true → Reachable E (erase s id)
  | setCategory {s : CRepository T} (id cat : Nat) :
      Reachable E s → valid s id = true → cat < s.C_ → Reachable E (setCategory s id cat)
  | setNumberOfCategories {s : CRepository T} (n : Nat) :
      Reachable E s → Reachable E (setNumberOfCategories s n)
  | clear {s : CRepository T} : Reachable E s → Reachable E (clear s)
  | setEnlargeFactor {s : CRepository T} (val : Nat) :
      Reachable E s → Reachable E (setEnlargeFactor s val)

/-! ## Sample runs -/

/-- A 64-bit index type and records of eight bytes. -/
def env64 : Env := ⟨64, 8⟩

/-- The store `construct(3, 4)` after inserting `10, 11, 12, 13` into the
categories `0, 1, 2, 1`: it is full. -/
def full4 : CRepository Nat :=
  { C_ := 3, N_ := 4, nStored_ := 4, count_ := [1, 2, 1, 0], offset_ := [0, 1, 3, 4],
    nums_ := [0, 1, 3, 2], ids_ := [0, 1, 3, 2], items_ := [10, 11, 12, 13],
    minID_ := 0, maxID_ := 3, enlargeFactor_ := 2 }

/-- The store `full4` after a fifth insert, of `14` into category `2`: the
capacity has doubled and the new item has identifier `4`. -/
def grown8 : CRepository Nat :=
  { C_ := 3, N_ := 8, nStored_ := 5, count_ := [1, 2, 2, 3], offset_ := [0, 1, 3, 5],
    nums_ := [0, 1, 3, 2, 4, 5, 6, 7], ids_ := [0, 1, 3, 2, 4, 5, 6, 7],
    items_ := [10, 11, 12, 13, 14, 0, 0, 0], minID_ := 0, maxID_ := 4, enlargeFactor_ := 2 }

/-- The store `construct(4, 10)` after inserting `5` into category `3`. -/
def one10 : CRepository Nat :=
  { C_ := 4, N_ := 10, nStored_ := 1, count_ := [0, 0, 0, 1, 9], offset_ := [0, 0, 0, 0, 1],
    nums_ := [0, 1, 2, 3, 4, 5, 6, 7, 8, 9], ids_ := [0, 1, 2, 3, 4, 5, 6, 7, 8, 9],
    items_ := [5, 0, 0, 0, 0, 0, 0, 0, 0, 0], minID_ := 0, maxID_ := 0, enlargeFactor_ := 2 }

/-- The store `construct(1, 4)` after `insert(7)`, `insert(8)`, `erase(0)`,
`erase(1)` and `insert(9)`; the last insert returns identifier `1`. -/
def reinserted : CRepository Nat :=
  { C_ := 1, N_ := 4, nStored_ := 1, count_ := [1, 3], offset_ := [0, 1],
    nums_ := [1, 0, 2, 3], ids_ := [1, 0, 2, 3], items_ := [0, 9, 0, 0],
    minID_ := 0, maxID_ := 1, enlargeFactor_ := 2 }

/-- What the code maintains about the identifier bounds: `minID_` is `0` or the
smallest valid identifier, and `maxID_` is `0` in an empty store and the largest
valid identifier otherwise. -/
structure RangeInv (s : CRepository T) : Prop where
  min_ok : s.minID_ = 0 ∨ (valid s s.minID_ = true ∧ ∀ i, valid s i = true → s.minID_ ≤ i)
  max_empty : s.nStored_ = 0 → s.maxID_ = 0
  max_ok : 0 < s.nStored_ → valid s s.maxID_ = true ∧ ∀ i, valid s i = true → i ≤ s.maxID_

/-! ## Positional access, checked reads and thrown exceptions -/

/-- Embeds `item(category_t cat, address_t n)`, line 710: the record of the
`n`-th item of category `cat`. -/
def itemIn [Inhabited T] (s : CRepository T) (cat n : Nat) : T :=
  s.items_.getD (rd s.ids_ (rd s.offset_ cat + n)) default

/-- The scan of `category(address_t n)` (line 621) with every read `count_[c]`
checked against the length of `count_`: `none` when the scan reads `count_` at
an index past its end (or the bound on the number of iterations is used up),
otherwise the category returned.  The first argument is `count_`, the second
bounds the number of iterations. -/
def categoryChecked (cnt : List Nat) : Nat → Nat → Nat → Option Nat
  | 0, _, _ => none
  | fuel + 1, na, c =>
    match cnt[c]? with
    | none => none
    | some k => if na ≥ k then categoryChecked cnt fuel (na - k) (c + 1) else some c

/-- How a member function that can throw ends: it returns, leaving the
container in a state and giving a result, or an exception leaves it, with the
container in the state it had when the exception was thrown. -/
inductive Outcome (T : Type) (R : Type) where
  | returned (s : CRepository T) (r : R)
  | thrown (s : CRepository T)
deriving DecidableEq, Repr

/-- Embeds `enlarge()`, line 513, keeping the state of the container when
`AllocException` is thrown: the `throw` of line 520 comes before the first
statement that changes a member. -/
def enlargeOutcome [Inhabited T] (E : Env) (s : CRepository T) : Outcome T Unit :=
  if enlargedSize E s ≤ s.N_ then Outcome.thrown s
  else
    Outcome.returned { s with
      items_ := resize s.items_ (enlargedSize E s) default,
      ids_ := s.ids_ ++ List.range' s.N_ (enlargedSize E s - s.N_),
      nums_ := s.nums_ ++ List.range' s.N_ (enlargedSize E s - s.N_),
      count_ := s.count_.set s.C_ (rd s.count_ s.C_ + (enlargedSize E s - s.N_)),
      N_ := enlargedSize E s } ()

/-- Embeds `insert(param_type itm, category_t cat)`, line 747, keeping the state
of the container when the exception of `enlarge()` leaves it: `insert` has only
read `offset_[C_]` by then. -/
def insertOutcome [Inhabited T] (E : Env) (s : CRepository T) (itm : T) (cat : Nat) :
    Outcome T Nat :=
  let curnum := rd s.offset_ s.C_
  match (if curnum ≥ s.N_ then enlargeOutcome E s else Outcome.returned s ()) with
  | Outcome.thrown s0 => Outcome.thrown s0
  | Outcome.returned s1 _ =>
    let uid := rd s1.ids_ curnum
    let s2 := { s1 with items_ := s1.items_.set uid itm }
    let s3 := decreaseCat s2 curnum cat
    let s4 := { s3 with nStored_ := s3.nStored_ + 1 }
    Outcome.returned (updateMinMaxID s4 uid) uid

/-- The result of a call as used by `enlarge` and `insert`: `none` for a thrown
exception. -/
def Outcome.toOption {T R : Type} : Outcome T R → Option (CRepository T × R)
  | Outcome.returned s r => some (s, r)
  | Outcome.thrown _ => none

/-! ## Further sample runs -/

/-- The store `full4` after `enlarge()`: capacity `8`, four new pool positions. -/
def enlarged8 : CRepository Nat :=
  { C_ := 3, N_ := 8, nStored_ := 4, count_ := [1, 2, 1, 4], offset_ := [0, 1, 3, 4],
    nums_ := [0, 1, 3, 2, 4, 5, 6, 7], ids_ := [0, 1, 3, 2, 4, 5, 6, 7],
    items_ := [10, 11, 12, 13, 0, 0, 0, 0], minID_ := 0, maxID_ := 3, enlargeFactor_ := 2 }

/-- The store `full4` after `erase(id(1, 0))`, that is `erase(1)`, and a fifth
insert, of `14` into category `0`: the insert has reused identifier `1`. -/
def refilled4 : CRepository Nat :=
  { C_ := 3, N_ := 4, nStored_ := 4, count_ := [2, 1, 1, 0], offset_ := [0, 2, 3, 4],
    nums_ := [0, 1, 3, 2], ids_ := [0, 1, 3, 2], items_ := [10, 14, 12, 13],
    minID_ := 0, maxID_ := 3, enlargeFactor_ := 2 }

/-- The store `construct(1, 4)` after `insert(7)`, `insert(8)`, `erase(0)` and
`erase(1)`: it is empty and position `0` holds identifier `1`. -/
def emptied : CRepository Nat :=
  { C_ := 1, N_ := 4, nStored_ := 0, count_ := [0, 4], offset_ := [0, 0],
    nums_ := [1, 0, 2, 3], ids_ := [1, 0, 2, 3], items_ := [0, 0, 0, 0],
    minID_ := 0, maxID_ := 0, enlargeFactor_ := 2 }

/-- A 4-bit index type and records of four bytes: `maxSize()` is `3`. -/
def env4 : Env := ⟨4, 4⟩

/-- The store `construct(1, 2)` after three inserts under `env4`: the third
insert has grown it to the maximal size `3`, and it is full. -/
def full3 : CRepository Nat :=
  { C_ := 1, N_ := 3, nStored_ := 3, count_ := [3, 0], offset_ := [0, 3],
    nums_ := [0, 1, 2], ids_ := [0, 1, 2], items_ := [1, 2, 3],
    minID_ := 0, maxID_ := 2, enlargeFactor_ := 2 }

/-! ## Iteration bounds and checked table accesses -/

/-- Embeds `begin()`, line 801: the identifier the iterator returned by `begin()`
starts at. -/
def beginID (s : CRepository T) : Nat := s.minID_

/-- Embeds `end()`, line 813: the identifier of the past-the-end iterator. -/
def endID (s : CRepository T) : Nat :=
  if s.nStored_ > 0 then s.maxID_ + 1 else s.maxID_

/-- The write `v[i] = x` with the index checked against the length of `v` at the
moment of the write: `none` when `i` is not below the length. -/
def setChecked (v : List Nat) (i x : Nat) : Option (List Nat) :=
  if i < v.length then some (v.set i x) else none

/-- Embeds `reorderToMaxCategory(category_t n)`, line 484, with the reads of
`offset_` in its body checked: `none` when one of them is out of range. -/
def reorderToMaxCategoryChecked (s : CRepository T) (n : Nat) : Option (CRepository T) :=
  if n ≥ s.C_ - 1 then some s
  else
    match s.offset_[s.C_]?, s.offset_[n + 1]? with
    | some offC, some offN =>
      let num := offC - offN
      let temp := (s.ids_.drop offN).take num
      some (temp.foldl (fun r it => decreaseCat r (rd r.nums_ it) n) s)
    | _, _ => none

/-- Embeds `setNumberOfCategories(category_t n)`, line 466, with every read and
write of `count_` and `offset_` in its body (lines 472-480) and in the body of
`reorderToMaxCategory` checked against the length the vector has at that
moment: `none` when one of them is out of range. -/
def setNumberOfCategoriesChecked (s : CRepository T) (n : Nat) : Option (CRepository T) :=
  if n = 0 then some s
  else
    match (if s.nStored_ > 0 then reorderToMaxCategoryChecked s (n - 1) else some s) with
    | none => none
    | some s1 =>
      match s1.count_[s1.C_]?, s1.offset_[s1.C_]? with
      | some oldCCount, some oldCOffset =>
        let oldC := s1.C_
        let count1 := resize s1.count_ (n + 1) 0
        let offset1 := resize s1.offset_ (n + 1) oldCOffset
        match setChecked count1 oldC 0 with
        | none => none
        | some count2 =>
          match setChecked count2 n oldCCount, setChecked offset1 n oldCOffset with
          | some count3, some offset2 =>
            some { s1 with C_ := n, count_ := count3, offset_ := offset2 }
          | _, _ => none
      | _, _ => none

/-! # Theorems -/

/-! ## Reading and writing index vectors -/

theorem rd_set (v : List Nat) (i j x : Nat) :
    rd (v.set i x) j = if i = j ∧ i < v.length then x else rd v j := by
  unfold rd
  rw [List.getD_eq_getElem?_getD, List.getD_eq_getElem?_getD, List.getElem?_set]
  by_cases h : i = j
  · subst h
    by_cases h2 : i < v.length
    · simp [h2]
    · simp [h2, List.getElem?_eq_none (Nat.le_of_not_lt h2)]
  · simp [h]

theorem rd_set_eq (v : List Nat) (i x : Nat) (h : i < v.length) : rd (v.set i x) i = x := by
  rw [rd_set]; simp [h]

theorem rd_set_ne (v : List Nat) (i j x : Nat) (h : i ≠ j) : rd (v.set i x) j = rd v j := by
  rw [rd_set]; simp [h]

theorem rd_of_le (v : List Nat) (i : Nat) (h : v.length ≤ i) : rd v i = 0 := by
  unfold rd
  rw [List.getD_eq_getElem?_getD, List.getElem?_eq_none h]; rfl

theorem rd_eq_getElem (v : List Nat) (i : Nat) (h : i < v.length) : rd v i = v[i] := by
  unfold rd
  rw [List.getD_eq_getElem?_getD, List.getElem?_eq_getElem h]; rfl

theorem rd_append_left (v w : List Nat) (i : Nat) (h : i < v.length) : rd (v ++ w) i = rd v i := by
  unfold rd; exact List.getD_append v w 0 i h

theorem rd_append_right (v w : List Nat) (i : Nat) (h : v.length ≤ i) :
    rd (v ++ w) i = rd w (i - v.length) := by
  unfold rd; exact List.getD_append_right v w 0 i h

theorem rd_range' (a n i : Nat) (h : i < n) : rd (List.range' a n) i = a + i := by
  unfold rd
  rw [List.getD_eq_getElem?_getD, List.getElem?_range' a 1 h]; simp

theorem rd_take (v : List Nat) (n i : Nat) (h : i < n) : rd (v.take n) i = rd v i := by
  unfold rd
  rw [List.getD_eq_getElem?_getD, List.getD_eq_getElem?_getD, List.getElem?_take]; simp [h]

theorem rd_replicate (n x i : Nat) (h : i < n) : rd (List.replicate n x) i = x := by
  unfold rd
  rw [List.getD_eq_getElem?_getD, List.getElem?_replicate]; simp [h]

theorem length_resize {α : Type} (v : List α) (n : Nat) (x : α) : (resize v n x).length = n := by
  unfold resize
  simp only [List.length_append, List.length_take, List.length_replicate]
  omega

theorem rd_resize (v : List Nat) (n x i : Nat) (h : i < n) :
    rd (resize v n x) i = if i < v.length then rd v i else x := by
  unfold resize
  by_cases h1 : i < v.length
  · rw [rd_append_left _ _ _ (by simp; omega), rd_take _ _ _ h]; simp [h1]
  · rw [rd_append_right _ _ _ (by simp; omega), rd_replicate _ _ _ (by simp; omega)]; simp [h1]

theorem resize_self {α : Type} (v : List α) (x : α) : resize v v.length x = v := by
  unfold resize; simp

/-- After the loop of `init` every index below `n` holds `f i`. -/
theorem fillIndices_spec (f : Nat → Nat) (n : Nat) :
    ∀ v : List Nat, n ≤ v.length →
      (fillIndices v n f).length = v.length ∧
      ∀ i, rd (fillIndices v n f) i = if i < n then f i else rd v i := by
  induction n with
  | zero => intro v _; simp [fillIndices]
  | succ n ih =>
    intro v hv
    have h := ih v (by omega)
    unfold fillIndices at h ⊢
    rw [List.range_succ, List.foldl_append]
    simp only [List.foldl_cons, List.foldl_nil, List.length_set]
    refine ⟨h.1, fun i => ?_⟩
    rw [rd_set, h.2 i, h.1]
    by_cases h1 : n = i
    · subst h1
      have : n < v.length := by omega
      simp [this]
    · by_cases h2 : i < n
      · have : i < n + 1 := by omega
        simp [h1, h2, this]
      · have : ¬ i < n + 1 := by omega
        simp [h1, h2, this]

/-! ## The partition table -/

theorem Tiling.off_mono {s : CRepository T} (h : Tiling s) :
    ∀ d c, c ≤ d → d ≤ s.C_ → rd s.offset_ c ≤ rd s.offset_ d := by
  intro d
  induction d with
  | zero => intro c hc _; have : c = 0 := by omega
            subst this; exact Nat.le_refl _
  | succ d ih =>
    intro c hc hd
    by_cases h1 : c = d + 1
    · subst h1; exact Nat.le_refl _
    · have := ih c (by omega) (by omega)
      have := h.off_succ d (by omega)
      omega

theorem Tiling.off_le_N {s : CRepository T} (h : Tiling s) (c : Nat) (hc : c ≤ s.C_) :
    rd s.offset_ c ≤ s.N_ := by
  have := h.off_mono s.C_ c hc (Nat.le_refl _)
  have := h.off_last
  omega

theorem Tiling.end_le {s : CRepository T} (h : Tiling s) (c : Nat) (hc : c ≤ s.C_) :
    rd s.offset_ c + rd s.count_ c ≤ s.N_ := by
  by_cases h1 : c = s.C_
  · subst h1; exact Nat.le_of_eq h.off_last
  · have := h.off_succ c (by omega)
    have := h.off_le_N (c + 1) (by omega)
    omega

theorem InCat.lt_N {s : CRepository T} (h : Tiling s) {p c : Nat} (hp : InCat s p c) :
    p < s.N_ := by
  have := h.end_le c hp.1
  have := hp.2.2
  omega

/-- A position lies in at most one category range. -/
theorem InCat.unique {s : CRepository T} (h : Tiling s) {p c d : Nat}
    (hc : InCat s p c) (hd : InCat s p d) : c = d := by
  by_contra hne
  rcases Nat.lt_or_gt_of_ne hne with hlt | hgt
  · have h1 := h.off_succ c (by have := hd.1; omega)
    have h2 := h.off_mono d (c + 1) (by omega) hd.1
    have := hc.2.2; have := hd.2.1
    omega
  · have h1 := h.off_succ d (by have := hc.1; omega)
    have h2 := h.off_mono c (d + 1) (by omega) hc.1
    have := hd.2.2; have := hc.2.1
    omega

/-- Offsets are the prefix sums of the counts. -/
theorem Tiling.off_sum_take {s : CRepository T} (h : Tiling s) :
    ∀ c, c ≤ s.C_ → rd s.offset_ c = (s.count_.take c).sum := by
  intro c
  induction c with
  | zero => intro _; simpa using h.off_zero
  | succ c ih =>
    intro hc
    have hlen : c < s.count_.length := by have := h.len_count; omega
    rw [List.sum_take_succ _ _ hlen, ← ih (by omega), h.off_succ c (by omega),
      rd_eq_getElem _ _ hlen]

/-- The counts of all `C_ + 1` ranges add up to the capacity. -/
theorem Tiling.sum_count {s : CRepository T} (h : Tiling s) : s.count_.sum = s.N_ := by
  have hlen : s.C_ < s.count_.length := by have := h.len_count; omega
  have h1 := List.sum_take_succ s.count_ s.C_ hlen
  have h2 : s.count_.take (s.C_ + 1) = s.count_ := by
    apply List.take_of_length_le; have := h.len_count; omega
  rw [h2] at h1
  rw [h1, ← h.off_sum_take s.C_ (Nat.le_refl _), ← rd_eq_getElem _ _ hlen]
  exact h.off_last

/-- The scan of `category` stops inside the list at the range containing `na`. -/
theorem categoryLoop_spec :
    ∀ (cs : List Nat) (na c0 : Nat), na < cs.sum →
      c0 ≤ categoryLoop cs na c0 ∧ categoryLoop cs na c0 - c0 < cs.length ∧
      (cs.take (categoryLoop cs na c0 - c0)).sum ≤ na ∧
      na < (cs.take (categoryLoop cs na c0 - c0)).sum + rd cs (categoryLoop cs na c0 - c0) := by
  intro cs
  induction cs with
  | nil => intro na c0 h; simp at h
  | cons k ks ih =>
    intro na c0 h
    simp only [List.sum_cons] at h
    unfold categoryLoop
    by_cases hk : na ≥ k
    · simp only [hk, if_true]
      have := ih (na - k) (c0 + 1) (by omega)
      obtain ⟨h1, h2, h3, h4⟩ := this
      have he : categoryLoop ks (na - k) (c0 + 1) - c0 =
          (categoryLoop ks (na - k) (c0 + 1) - (c0 + 1)) + 1 := by omega
      rw [he]
      refine ⟨by omega, by simp; omega, ?_, ?_⟩
      · simp only [List.take_succ_cons, List.sum_cons]; omega
      · simp only [List.take_succ_cons, List.sum_cons]
        have : rd (k :: ks) (categoryLoop ks (na - k) (c0 + 1) - (c0 + 1) + 1) =
            rd ks (categoryLoop ks (na - k) (c0 + 1) - (c0 + 1)) := by
          simp [rd]
        rw [this]; omega
    · simp only [hk, if_false]
      refine ⟨Nat.le_refl _, by simp, by simp, ?_⟩
      simp [rd]; omega

/-- The position-to-category scan returns the category whose range holds the position. -/
theorem categoryAt_inCat {s : CRepository T} (h : Tiling s) {p : Nat} (hp : p < s.N_) :
    InCat s p (categoryAt s p) := by
  have hs := categoryLoop_spec s.count_ p 0 (by rw [h.sum_count]; exact hp)
  simp only [Nat.sub_zero] at hs
  obtain ⟨_, h2, h3, h4⟩ := hs
  have hc : categoryAt s p ≤ s.C_ := by
    unfold categoryAt; have := h.len_count; omega
  refine ⟨hc, ?_, ?_⟩
  · rw [h.off_sum_take _ hc]; exact h3
  · rw [h.off_sum_take _ hc]; exact h4

theorem categoryAt_eq_iff {s : CRepository T} (h : Tiling s) {p : Nat} (hp : p < s.N_) (c : Nat) :
    categoryAt s p = c ↔ InCat s p c := by
  constructor
  · intro hc; subst hc; exact categoryAt_inCat h hp
  · intro hc; exact InCat.unique h (categoryAt_inCat h hp) hc

/-! ## The swap of two positions -/

theorem swapEntries_ids (s : CRepository T) (a b myid p : Nat)
    (ha : a < s.ids_.length) (hb : b < s.ids_.length) :
    rd (swapEntries s a b myid).ids_ p =
      if p = a then rd s.ids_ b else if p = b then rd s.ids_ a else rd s.ids_ p := by
  simp only [swapEntries, rd_set, List.length_set]
  by_cases h1 : a = p
  · subst h1; simp [ha]
  · by_cases h2 : b = p
    · subst h2; simp [h1, hb, Ne.symm h1]
    · simp [h1, h2, Ne.symm h1, Ne.symm h2]

theorem swapEntries_nums (s : CRepository T) (a b myid i : Nat)
    (hm : myid < s.nums_.length) (hi : rd s.ids_ b < s.nums_.length) :
    rd (swapEntries s a b myid).nums_ i =
      if i = rd s.ids_ b then a else if i = myid then b else rd s.nums_ i := by
  simp only [swapEntries, rd_set, List.length_set]
  by_cases h1 : rd s.ids_ b = i
  · subst h1; simp [hi]
  · by_cases h2 : myid = i
    · subst h2; simp [h1, hm, Ne.symm h1]
    · simp [h1, h2, Ne.symm h1, Ne.symm h2]

/-- The conditional swap of `increaseCat`/`decreaseCat` keeps the two tables
mutually inverse, puts `myid` at `tarnum` and the identifier that was at
`tarnum` at `mynum`, and moves nothing else. -/
theorem swap_spec {s : CRepository T} (hb : Bij s) {a b myid : Nat}
    (ha : a < s.N_) (hbN : b < s.N_) (hid : rd s.ids_ a = myid) :
    Bij (if a ≠ b then swapEntries s a b myid else s) ∧
    rd (if a ≠ b then swapEntries s a b myid else s).ids_ b = myid ∧
    rd (if a ≠ b then swapEntries s a b myid else s).nums_ myid = b ∧
    (∀ j, j ≠ myid → rd (if a ≠ b then swapEntries s a b myid else s).nums_ j =
      if j = rd s.ids_ b then a else rd s.nums_ j) := by
  have hna := hb.ids_nums a ha
  have hnb := hb.ids_nums b hbN
  rw [hid] at hna
  by_cases hab : a = b
  · subst hab
    simp only [ne_eq, not_true_eq_false, if_false]
    refine ⟨hb, hid, hna.2, ?_⟩
    intro j hj
    rw [hid]; simp [hj]
  · simp only [ne_eq, hab, not_false_eq_true, if_true]
    have hne : myid ≠ rd s.ids_ b := by
      intro h; rw [← h] at hnb; omega
    have hli : a < s.ids_.length := by rw [hb.len_ids]; exact ha
    have hlb : b < s.ids_.length := by rw [hb.len_ids]; exact hbN
    have hlm : myid < s.nums_.length := by rw [hb.len_nums]; exact hna.1
    have hlq : rd s.ids_ b < s.nums_.length := by rw [hb.len_nums]; exact hnb.1
    refine ⟨?_, ?_, ?_, ?_⟩
    · constructor
      · simp [swapEntries, hb.len_ids]
      · simp [swapEntries, hb.len_nums]
      · simp [swapEntries, hb.len_items]
      · intro p hp
        have hp' : p < s.N_ := hp
        have hnp := hb.ids_nums p hp'
        rw [swapEntries_ids s a b myid p hli hlb]
        by_cases h1 : p = a
        · subst h1
          simp only [if_true]
          refine ⟨hnb.1, ?_⟩
          rw [swapEntries_nums s p b myid _ hlm hlq]; simp
        · by_cases h2 : p = b
          · subst h2
            simp only [h1, if_false, if_true, hid]
            refine ⟨hna.1, ?_⟩
            rw [swapEntries_nums s a p myid _ hlm hlq]; simp [hne]
          · simp only [h1, h2, if_false]
            refine ⟨hnp.1, ?_⟩
            rw [swapEntries_nums s a b myid _ hlm hlq]
            have e1 : rd s.ids_ p ≠ rd s.ids_ b := by
              intro h; rw [h] at hnp; omega
            have e2 : rd s.ids_ p ≠ myid := by
              intro h; rw [h] at hnp; omega
            simp [e1, e2, hnp.2]
      · intro i hi
        have hi' : i < s.N_ := hi
        have hni := hb.nums_ids i hi'
        rw [swapEntries_nums s a b myid i hlm hlq]
        by_cases h1 : i = rd s.ids_ b
        · subst h1
          simp only [if_true]
          refine ⟨ha, ?_⟩
          rw [swapEntries_ids s a b myid _ hli hlb]; simp
        · by_cases h2 : i = myid
          · subst h2
            simp only [h1, if_false, if_true]
            refine ⟨hbN, ?_⟩
            rw [swapEntries_ids s a b i _ hli hlb]; simp [Ne.symm hab, hid]
          · simp only [h1, h2, if_false]
            refine ⟨hni.1, ?_⟩
            rw [swapEntries_ids s a b myid _ hli hlb]
            have e1 : rd s.nums_ i ≠ a := by
              intro h; rw [h, hid] at hni; omega
            have e2 : rd s.nums_ i ≠ b := by
              intro h; rw [h] at hni; omega
            simp [e1, e2, hni.2]
    · rw [swapEntries_ids s a b myid _ hli hlb]; simp [Ne.symm hab, hid]
    · rw [swapEntries_nums s a b myid _ hlm hlq]; simp [hne]
    · intro j hj
      rw [swapEntries_nums s a b myid _ hlm hlq]; simp [hj]

/-! ## One boundary crossing -/

theorem Moved.refl (s : CRepository T) (myid : Nat) : Moved s s myid :=
  ⟨rfl, rfl, rfl, rfl, rfl, rfl, rfl, fun _ _ _ _ h => h⟩

theorem Moved.trans_moved {s s1 s2 : CRepository T} {myid : Nat}
    (h1 : Moved s s1 myid) (h2 : Moved s1 s2 myid) : Moved s s2 myid :=
  ⟨h2.C_eq.trans h1.C_eq, h2.N_eq.trans h1.N_eq, h2.nStored_eq.trans h1.nStored_eq,
   h2.items_eq.trans h1.items_eq, h2.minID_eq.trans h1.minID_eq, h2.maxID_eq.trans h1.maxID_eq,
   h2.ef_eq.trans h1.ef_eq,
   fun j hj hne c hc => h2.others j (by rw [h1.N_eq]; exact hj) hne c (h1.others j hj hne c hc)⟩

theorem swapIf_fields (s : CRepository T) (a b myid : Nat) :
    (if a ≠ b then swapEntries s a b myid else s).C_ = s.C_ ∧
    (if a ≠ b then swapEntries s a b myid else s).N_ = s.N_ ∧
    (if a ≠ b then swapEntries s a b myid else s).nStored_ = s.nStored_ ∧
    (if a ≠ b then swapEntries s a b myid else s).count_ = s.count_ ∧
    (if a ≠ b then swapEntries s a b myid else s).offset_ = s.offset_ ∧
    (if a ≠ b then swapEntries s a b myid else s).items_ = s.items_ ∧
    (if a ≠ b then swapEntries s a b myid else s).minID_ = s.minID_ ∧
    (if a ≠ b then swapEntries s a b myid else s).maxID_ = s.maxID_ ∧
    (if a ≠ b then swapEntries s a b myid else s).enlargeFactor_ = s.enlargeFactor_ := by
  by_cases h : a = b <;> simp [h, swapEntries]

/-- After the conditional swap every identifier other than `myid` sits at a
position of the category range it was in, and not at `tarnum`. -/
theorem others_after_swap {s : CRepository T} (hb : Bij s) (ht : Tiling s) {a b myid cls : Nat}
    (hid : rd s.ids_ a = myid) (hina : InCat s a cls) (hinb : InCat s b cls) :
    ∀ j, j < s.N_ → j ≠ myid → ∀ c, InCat s (rd s.nums_ j) c →
      InCat s (rd (if a ≠ b then swapEntries s a b myid else s).nums_ j) c ∧
      rd (if a ≠ b then swapEntries s a b myid else s).nums_ j ≠ b := by
  intro j hj hne c hc
  have ha := hina.lt_N ht
  have hbN := hinb.lt_N ht
  obtain ⟨_, _, _, hnums⟩ := swap_spec hb ha hbN hid
  rw [hnums j hne]
  have hnj := hb.nums_ids j hj
  have hnb := hb.ids_nums b hbN
  by_cases h1 : j = rd s.ids_ b
  · simp only [h1, if_true]
    have e : rd s.nums_ j = b := by rw [h1]; exact hnb.2
    rw [e] at hc
    have := InCat.unique ht hc hinb
    subst this
    refine ⟨hina, ?_⟩
    intro hab; apply hne; rw [h1, ← hab]; exact hid
  · simp only [h1, if_false]
    refine ⟨hc, ?_⟩
    intro h; apply h1; rw [← h]; exact hnj.2.symm

theorem increaseStep_snd (s : CRepository T) (mynum myid cls : Nat) :
    (increaseStep s mynum myid cls).2 = rd s.offset_ cls + rd s.count_ cls - 1 := by
  unfold increaseStep
  by_cases h : mynum = rd s.offset_ cls + rd s.count_ cls - 1 <;> simp [h]

/-- Moving the boundary between `cls` and `cls + 1` one position to the left
keeps the tiling. -/
theorem shiftUp_tiling {s s' : CRepository T} (ht : Tiling s) {cls : Nat} (hcls : cls < s.C_)
    (hcnt1 : 1 ≤ rd s.count_ cls)
    (hC : s'.C_ = s.C_) (hN : s'.N_ = s.N_)
    (hlc : s'.count_.length = s.count_.length) (hlo : s'.offset_.length = s.offset_.length)
    (hcount : ∀ c, rd s'.count_ c =
      if c = cls then rd s.count_ c - 1 else if c = cls + 1 then rd s.count_ c + 1
      else rd s.count_ c)
    (hoffset : ∀ c, rd s'.offset_ c =
      if c = cls + 1 then rd s.offset_ c - 1 else rd s.offset_ c) : Tiling s' := by
  have hsucc := ht.off_succ cls hcls
  constructor
  · rw [hlc, hC]; exact ht.len_count
  · rw [hlo, hC]; exact ht.len_offset
  · rw [hoffset]; simp [ht.off_zero]
  · intro c hc
    rw [hC] at hc
    have h0 := ht.off_succ c hc
    rw [hoffset, hoffset, hcount]
    by_cases h1 : c = cls
    · subst h1; simp; omega
    · by_cases h2 : c = cls + 1
      · subst h2; simp; omega
      · simp [h1, h2]; omega
  · rw [hC, hN, hoffset, hcount]
    have h0 := ht.off_last
    by_cases h1 : s.C_ = cls + 1
    · have h3 : s.C_ ≠ cls := by omega
      rw [if_pos h1, if_neg h3, if_pos h1]; rw [h1] at h0; rw [h1]; omega
    · have h3 : s.C_ ≠ cls := by omega
      rw [if_neg h1, if_neg h3, if_neg h1]; exact h0

/-- A position other than the last one of `cls` stays in its category range
when the boundary between `cls` and `cls + 1` moves one position to the left. -/
theorem shiftUp_inCat {s s' : CRepository T} (ht : Tiling s) {cls : Nat} (hcls : cls < s.C_)
    (hcnt1 : 1 ≤ rd s.count_ cls) (hC : s'.C_ = s.C_)
    (hcount : ∀ c, rd s'.count_ c =
      if c = cls then rd s.count_ c - 1 else if c = cls + 1 then rd s.count_ c + 1
      else rd s.count_ c)
    (hoffset : ∀ c, rd s'.offset_ c =
      if c = cls + 1 then rd s.offset_ c - 1 else rd s.offset_ c)
    {p c : Nat} (hp : InCat s p c) (hne : p ≠ rd s.offset_ cls + rd s.count_ cls - 1) :
    InCat s' p c := by
  have hsucc := ht.off_succ cls hcls
  obtain ⟨h1, h2, h3⟩ := hp
  refine ⟨by rw [hC]; exact h1, ?_, ?_⟩
  · rw [hoffset]
    by_cases e : c = cls + 1
    · subst e; rw [if_pos rfl]; omega
    · rw [if_neg e]; exact h2
  · rw [hoffset, hcount]
    by_cases e1 : c = cls
    · subst e1
      have : ¬ c = c + 1 := by omega
      rw [if_neg this, if_pos rfl]; omega
    · by_cases e : c = cls + 1
      · subst e; rw [if_pos rfl, if_neg e1, if_pos rfl]; omega
      · rw [if_neg e, if_neg e1, if_neg e]; exact h3

/-- One iteration of the loop of `increaseCat` moves `myid` from the range of
`cls` to the first position of the range of `cls + 1`. -/
theorem increaseStep_spec {s : CRepository T} (hb : Bij s) (ht : Tiling s)
    {mynum myid cls : Nat} (hcls : cls < s.C_) (hin : InCat s mynum cls)
    (hid : rd s.ids_ mynum = myid) :
    Bij (increaseStep s mynum myid cls).1 ∧ Tiling (increaseStep s mynum myid cls).1 ∧
    InCat (increaseStep s mynum myid cls).1 (increaseStep s mynum myid cls).2 (cls + 1) ∧
    rd (increaseStep s mynum myid cls).1.ids_ (increaseStep s mynum myid cls).2 = myid ∧
    Moved s (increaseStep s mynum myid cls).1 myid ∧
    (∀ c, rd (increaseStep s mynum myid cls).1.count_ c =
      if c = cls then rd s.count_ c - 1 else if c = cls + 1 then rd s.count_ c + 1
      else rd s.count_ c) ∧
    (∀ c, rd (increaseStep s mynum myid cls).1.offset_ c =
      if c = cls + 1 then rd s.offset_ c - 1 else rd s.offset_ c) := by
  have hcnt1 : 1 ≤ rd s.count_ cls := by have := hin.2.1; have := hin.2.2; omega
  have hsucc := ht.off_succ cls hcls
  have hinb : InCat s (rd s.offset_ cls + rd s.count_ cls - 1) cls :=
    ⟨hin.1, by omega, by omega⟩
  have ha := hin.lt_N ht
  have hbN := hinb.lt_N ht
  rw [increaseStep_snd]
  obtain ⟨hB, hidb, _, _⟩ := swap_spec hb ha hbN hid
  have hoth := others_after_swap hb ht hid hin hinb
  obtain ⟨fC, fN, fS, fcnt, foff, fit, fmin, fmax, fef⟩ :=
    swapIf_fields s mynum (rd s.offset_ cls + rd s.count_ cls - 1) myid
  have hcount : ∀ c, rd (increaseStep s mynum myid cls).1.count_ c =
      if c = cls then rd s.count_ c - 1 else if c = cls + 1 then rd s.count_ c + 1
      else rd s.count_ c := by
    intro c
    show rd ((((if mynum ≠ rd s.offset_ cls + rd s.count_ cls - 1 then
        swapEntries s mynum (rd s.offset_ cls + rd s.count_ cls - 1) myid else s).count_.set cls
          _).set (cls + 1) _)) c = _
    rw [fcnt]
    simp only [rd_set, List.length_set, ht.len_count]
    by_cases h1 : c = cls
    · subst h1; simp; omega
    · by_cases h2 : c = cls + 1
      · subst h2; simp; omega
      · simp [h1, h2, Ne.symm h1, Ne.symm h2]
  have hoffset : ∀ c, rd (increaseStep s mynum myid cls).1.offset_ c =
      if c = cls + 1 then rd s.offset_ c - 1 else rd s.offset_ c := by
    intro c
    show rd ((if mynum ≠ rd s.offset_ cls + rd s.count_ cls - 1 then
        swapEntries s mynum (rd s.offset_ cls + rd s.count_ cls - 1) myid else s).offset_.set
          (cls + 1) _) c = _
    rw [foff]
    simp only [rd_set, ht.len_offset]
    by_cases h2 : c = cls + 1
    · subst h2; simp; omega
    · simp [h2, Ne.symm h2]
  have hC : (increaseStep s mynum myid cls).1.C_ = s.C_ := fC
  have hN : (increaseStep s mynum myid cls).1.N_ = s.N_ := fN
  have hitems : (increaseStep s mynum myid cls).1.items_ = s.items_ := fit
  have hlc : (increaseStep s mynum myid cls).1.count_.length = s.count_.length := by
    show ((((if mynum ≠ rd s.offset_ cls + rd s.count_ cls - 1 then
        swapEntries s mynum (rd s.offset_ cls + rd s.count_ cls - 1) myid else s).count_.set cls
          _).set (cls + 1) _)).length = _
    rw [fcnt]; simp
  have hlo : (increaseStep s mynum myid cls).1.offset_.length = s.offset_.length := by
    show ((if mynum ≠ rd s.offset_ cls + rd s.count_ cls - 1 then
        swapEntries s mynum (rd s.offset_ cls + rd s.count_ cls - 1) myid else s).offset_.set
          (cls + 1) _).length = _
    rw [foff]; simp
  have hTile : Tiling (increaseStep s mynum myid cls).1 :=
    shiftUp_tiling ht hcls hcnt1 hC hN hlc hlo hcount hoffset
  refine ⟨?_, hTile, ?_, hidb, ?_, hcount, hoffset⟩
  · exact ⟨by rw [hN, ← fN]; exact hB.len_ids, by rw [hN, ← fN]; exact hB.len_nums,
      by rw [hitems, hN]; exact hb.len_items,
      by rw [hN, ← fN]; exact hB.ids_nums,
      by rw [hN, ← fN]; exact hB.nums_ids⟩
  · refine ⟨by rw [hC]; omega, ?_, ?_⟩
    · rw [hoffset, if_pos rfl]; omega
    · rw [hoffset, hcount, if_pos rfl]
      have : ¬ cls + 1 = cls := by omega
      rw [if_neg this, if_pos rfl]; omega
  · refine ⟨hC, hN, fS, hitems, fmin, fmax, fef, ?_⟩
    intro j hj hne c hc
    obtain ⟨h1, h2⟩ := hoth j hj hne c hc
    exact shiftUp_inCat ht hcls hcnt1 hC hcount hoffset h1 h2

theorem increaseLoop_succ (k : Nat) (s : CRepository T) (mynum myid cls : Nat) :
    increaseLoop (k + 1) s mynum myid cls =
      increaseLoop k (increaseStep s mynum myid cls).1 (increaseStep s mynum myid cls).2 myid
        (cls + 1) := rfl

/-- The loop of `increaseCat` run for `k` iterations moves `myid` from the range
of `cls` into the range of `cls + k`; one item leaves `cls`, one arrives in
`cls + k`, and the boundaries in between move one position to the left. -/
theorem increaseLoop_spec (myid : Nat) :
    ∀ (k : Nat) (s : CRepository T) (mynum cls : Nat), Bij s → Tiling s → cls + k ≤ s.C_ →
      InCat s mynum cls → rd s.ids_ mynum = myid →
      Bij (increaseLoop k s mynum myid cls) ∧ Tiling (increaseLoop k s mynum myid cls) ∧
      InCat (increaseLoop k s mynum myid cls)
        (rd (increaseLoop k s mynum myid cls).nums_ myid) (cls + k) ∧
      Moved s (increaseLoop k s mynum myid cls) myid ∧
      (∀ c, rd (increaseLoop k s mynum myid cls).count_ c + (if c = cls then 1 else 0) =
        rd s.count_ c + (if c = cls + k then 1 else 0)) ∧
      (∀ c, rd (increaseLoop k s mynum myid cls).offset_ c +
        (if cls < c ∧ c ≤ cls + k then 1 else 0) = rd s.offset_ c) := by
  intro k
  induction k with
  | zero =>
    intro s mynum cls hb ht _ hin hid
    have hn := hb.ids_nums mynum (hin.lt_N ht)
    rw [hid] at hn
    refine ⟨hb, ht, ?_, Moved.refl s myid, ?_, ?_⟩
    · show InCat s (rd s.nums_ myid) (cls + 0)
      rw [hn.2]; exact hin
    · intro c; rfl
    · intro c
      have : ¬ (cls < c ∧ c ≤ cls + 0) := by omega
      rw [if_neg this]; rfl
  | succ k ih =>
    intro s mynum cls hb ht hk hin hid
    obtain ⟨hb1, ht1, hin1, hid1, hm1, hc1, ho1⟩ :=
      increaseStep_spec hb ht (by omega : cls < s.C_) hin hid
    have hcnt1 : 1 ≤ rd s.count_ cls := by have := hin.2.1; have := hin.2.2; omega
    have hsucc := ht.off_succ cls (by omega)
    obtain ⟨hb2, ht2, hin2, hm2, hc2, ho2⟩ :=
      ih (increaseStep s mynum myid cls).1 (increaseStep s mynum myid cls).2 (cls + 1) hb1 ht1
        (by rw [hm1.C_eq]; omega) hin1 hid1
    rw [increaseLoop_succ]
    refine ⟨hb2, ht2, ?_, hm1.trans_moved hm2, ?_, ?_⟩
    · have : cls + (k + 1) = cls + 1 + k := by omega
      rw [this]; exact hin2
    · intro c
      have a1 := hc1 c
      have a2 := hc2 c
      by_cases e1 : c = cls
      · subst e1
        have n1 : ¬ c = c + 1 := by omega
        have n2 : ¬ c = c + 1 + k := by omega
        have n3 : ¬ c = c + (k + 1) := by omega
        rw [if_pos rfl] at a1
        rw [if_neg n1, if_neg n2] at a2
        rw [if_pos rfl, if_neg n3]; omega
      · by_cases e2 : c = cls + 1
        · subst e2
          rw [if_neg e1, if_pos rfl] at a1
          rw [if_pos rfl] at a2
          rw [if_neg e1]
          by_cases e3 : cls + 1 = cls + 1 + k
          · have e4 : cls + 1 = cls + (k + 1) := by omega
            rw [if_pos e3] at a2; rw [if_pos e4]; omega
          · have e4 : ¬ cls + 1 = cls + (k + 1) := by omega
            rw [if_neg e3] at a2; rw [if_neg e4]; omega
        · rw [if_neg e1, if_neg e2] at a1
          rw [if_neg e2] at a2
          rw [if_neg e1]
          by_cases e3 : c = cls + 1 + k
          · have e4 : c = cls + (k + 1) := by omega
            rw [if_pos e3] at a2; rw [if_pos e4]; omega
          · have e4 : ¬ c = cls + (k + 1) := by omega
            rw [if_neg e3] at a2; rw [if_neg e4]; omega
    · intro c
      have a1 := ho1 c
      have a2 := ho2 c
      by_cases e2 : c = cls + 1
      · subst e2
        have n1 : ¬ (cls + 1 < cls + 1 ∧ cls + 1 ≤ cls + 1 + k) := by omega
        have n2 : cls < cls + 1 ∧ cls + 1 ≤ cls + (k + 1) := by omega
        rw [if_pos rfl] at a1
        rw [if_neg n1] at a2
        rw [if_pos n2]; omega
      · rw [if_neg e2] at a1
        by_cases e3 : cls + 1 < c ∧ c ≤ cls + 1 + k
        · have e4 : cls < c ∧ c ≤ cls + (k + 1) := by omega
          rw [if_pos e3] at a2; rw [if_pos e4]; omega
        · have e4 : ¬ (cls < c ∧ c ≤ cls + (k + 1)) := by omega
          rw [if_neg e3] at a2; rw [if_neg e4]; omega

/-! ## One boundary crossing downward -/

theorem decreaseStep_snd (s : CRepository T) (mynum myid cls : Nat) :
    (decreaseStep s mynum myid cls).2 = rd s.offset_ cls := by
  unfold decreaseStep
  by_cases h : mynum = rd s.offset_ cls <;> simp [h]

/-- Moving the boundary between `cls - 1` and `cls` one position to the right
keeps the tiling. -/
theorem shiftDown_tiling {s s' : CRepository T} (ht : Tiling s) {cls : Nat} (h0 : 0 < cls)
    (hcls : cls ≤ s.C_) (hcnt1 : 1 ≤ rd s.count_ cls)
    (hC : s'.C_ = s.C_) (hN : s'.N_ = s.N_)
    (hlc : s'.count_.length = s.count_.length) (hlo : s'.offset_.length = s.offset_.length)
    (hcount : ∀ c, rd s'.count_ c =
      if c = cls then rd s.count_ c - 1 else if c = cls - 1 then rd s.count_ c + 1
      else rd s.count_ c)
    (hoffset : ∀ c, rd s'.offset_ c =
      if c = cls then rd s.offset_ c + 1 else rd s.offset_ c) : Tiling s' := by
  constructor
  · rw [hlc, hC]; exact ht.len_count
  · rw [hlo, hC]; exact ht.len_offset
  · rw [hoffset]
    have : ¬ 0 = cls := by omega
    rw [if_neg this]; exact ht.off_zero
  · intro c hc
    rw [hC] at hc
    have h1 := ht.off_succ c hc
    rw [hoffset, hoffset, hcount]
    by_cases e1 : c = cls
    · subst e1
      have n1 : ¬ c + 1 = c := by omega
      rw [if_neg n1, if_pos rfl, if_pos rfl]; omega
    · by_cases e2 : c = cls - 1
      · have e3 : c + 1 = cls := by omega
        rw [if_pos e3, if_neg e1, if_neg e1, if_pos e2]; omega
      · have e3 : ¬ c + 1 = cls := by omega
        rw [if_neg e3, if_neg e1, if_neg e1, if_neg e2]; exact h1
  · rw [hC, hN, hoffset, hcount]
    have h1 := ht.off_last
    by_cases e1 : s.C_ = cls
    · rw [if_pos e1, if_pos e1]; rw [e1] at h1; rw [e1]; omega
    · have e2 : ¬ s.C_ = cls - 1 := by omega
      rw [if_neg e1, if_neg e1, if_neg e2]; exact h1

/-- A position other than the first one of `cls` stays in its category range
when the boundary between `cls - 1` and `cls` moves one position to the right. -/
theorem shiftDown_inCat {s s' : CRepository T} {cls : Nat} (h0 : 0 < cls)
    (hC : s'.C_ = s.C_)
    (hcount : ∀ c, rd s'.count_ c =
      if c = cls then rd s.count_ c - 1 else if c = cls - 1 then rd s.count_ c + 1
      else rd s.count_ c)
    (hoffset : ∀ c, rd s'.offset_ c =
      if c = cls then rd s.offset_ c + 1 else rd s.offset_ c)
    {p c : Nat} (hp : InCat s p c) (hne : p ≠ rd s.offset_ cls) :
    InCat s' p c := by
  obtain ⟨h1, h2, h3⟩ := hp
  refine ⟨by rw [hC]; exact h1, ?_, ?_⟩
  · rw [hoffset]
    by_cases e : c = cls
    · subst e; rw [if_pos rfl]; omega
    · rw [if_neg e]; exact h2
  · rw [hoffset, hcount]
    by_cases e1 : c = cls
    · subst e1
      rw [if_pos rfl, if_pos rfl]; omega
    · by_cases e : c = cls - 1
      · rw [if_neg e1, if_neg e1, if_pos e]; omega
      · rw [if_neg e1, if_neg e1, if_neg e]; exact h3

/-- One iteration of the loop of `decreaseCat` moves `myid` from the range of
`cls` to the last position of the range of `cls - 1`. -/
theorem decreaseStep_spec {s : CRepository T} (hb : Bij s) (ht : Tiling s)
    {mynum myid cls : Nat} (h0 : 0 < cls) (hin : InCat s mynum cls)
    (hid : rd s.ids_ mynum = myid) :
    Bij (decreaseStep s mynum myid cls).1 ∧ Tiling (decreaseStep s mynum myid cls).1 ∧
    InCat (decreaseStep s mynum myid cls).1 (decreaseStep s mynum myid cls).2 (cls - 1) ∧
    rd (decreaseStep s mynum myid cls).1.ids_ (decreaseStep s mynum myid cls).2 = myid ∧
    Moved s (decreaseStep s mynum myid cls).1 myid ∧
    (∀ c, rd (decreaseStep s mynum myid cls).1.count_ c =
      if c = cls then rd s.count_ c - 1 else if c = cls - 1 then rd s.count_ c + 1
      else rd s.count_ c) ∧
    (∀ c, rd (decreaseStep s mynum myid cls).1.offset_ c =
      if c = cls then rd s.offset_ c + 1 else rd s.offset_ c) := by
  have hcls : cls ≤ s.C_ := hin.1
  have hcnt1 : 1 ≤ rd s.count_ cls := by have := hin.2.1; have := hin.2.2; omega
  have hpred := ht.off_succ (cls - 1) (by omega)
  have hpc : cls - 1 + 1 = cls := by omega
  rw [hpc] at hpred
  have hinb : InCat s (rd s.offset_ cls) cls := ⟨hin.1, Nat.le_refl _, by omega⟩
  have ha := hin.lt_N ht
  have hbN := hinb.lt_N ht
  rw [decreaseStep_snd]
  obtain ⟨hB, hidb, _, _⟩ := swap_spec hb ha hbN hid
  have hoth := others_after_swap hb ht hid hin hinb
  obtain ⟨fC, fN, fS, fcnt, foff, fit, fmin, fmax, fef⟩ :=
    swapIf_fields s mynum (rd s.offset_ cls) myid
  have hcount : ∀ c, rd (decreaseStep s mynum myid cls).1.count_ c =
      if c = cls then rd s.count_ c - 1 else if c = cls - 1 then rd s.count_ c + 1
      else rd s.count_ c := by
    intro c
    show rd ((((if mynum ≠ rd s.offset_ cls then
        swapEntries s mynum (rd s.offset_ cls) myid else s).count_.set cls
          _).set (cls - 1) _)) c = _
    rw [fcnt]
    simp only [rd_set, List.length_set, ht.len_count]
    by_cases h1 : c = cls
    · subst h1
      have n1 : ¬ c - 1 = c := by omega
      simp [n1]; omega
    · by_cases h2 : c = cls - 1
      · subst h2
        have n1 : ¬ cls = cls - 1 := by omega
        have n2 : cls - 1 < s.C_ + 1 := by omega
        simp only [n1, false_and, if_false, true_and, n2, if_true, h1]
      · simp [h1, h2, Ne.symm h1, Ne.symm h2]
  have hoffset : ∀ c, rd (decreaseStep s mynum myid cls).1.offset_ c =
      if c = cls then rd s.offset_ c + 1 else rd s.offset_ c := by
    intro c
    show rd ((if mynum ≠ rd s.offset_ cls then
        swapEntries s mynum (rd s.offset_ cls) myid else s).offset_.set cls _) c = _
    rw [foff]
    simp only [rd_set, ht.len_offset]
    by_cases h2 : c = cls
    · subst h2; simp; omega
    · simp [h2, Ne.symm h2]
  have hC : (decreaseStep s mynum myid cls).1.C_ = s.C_ := fC
  have hN : (decreaseStep s mynum myid cls).1.N_ = s.N_ := fN
  have hitems : (decreaseStep s mynum myid cls).1.items_ = s.items_ := fit
  have hlc : (decreaseStep s mynum myid cls).1.count_.length = s.count_.length := by
    show ((((if mynum ≠ rd s.offset_ cls then
        swapEntries s mynum (rd s.offset_ cls) myid else s).count_.set cls
          _).set (cls - 1) _)).length = _
    rw [fcnt]; simp
  have hlo : (decreaseStep s mynum myid cls).1.offset_.length = s.offset_.length := by
    show ((if mynum ≠ rd s.offset_ cls then
        swapEntries s mynum (rd s.offset_ cls) myid else s).offset_.set cls _).length = _
    rw [foff]; simp
  have hTile : Tiling (decreaseStep s mynum myid cls).1 :=
    shiftDown_tiling ht h0 hcls hcnt1 hC hN hlc hlo hcount hoffset
  refine ⟨?_, hTile, ?_, hidb, ?_, hcount, hoffset⟩
  · exact ⟨by rw [hN, ← fN]; exact hB.len_ids, by rw [hN, ← fN]; exact hB.len_nums,
      by rw [hitems, hN]; exact hb.len_items,
      by rw [hN, ← fN]; exact hB.ids_nums,
      by rw [hN, ← fN]; exact hB.nums_ids⟩
  · have n1 : ¬ cls - 1 = cls := by omega
    refine ⟨by rw [hC]; omega, ?_, ?_⟩
    · rw [hoffset, if_neg n1]; omega
    · rw [hoffset, hcount, if_neg n1, if_neg n1, if_pos rfl]; omega
  · refine ⟨hC, hN, fS, hitems, fmin, fmax, fef, ?_⟩
    intro j hj hne c hc
    obtain ⟨h1, h2⟩ := hoth j hj hne c hc
    exact shiftDown_inCat h0 hC hcount hoffset h1 h2

theorem decreaseLoop_succ (k : Nat) (s : CRepository T) (mynum myid cls : Nat) :
    decreaseLoop (k + 1) s mynum myid cls =
      decreaseLoop k (decreaseStep s mynum myid cls).1 (decreaseStep s mynum myid cls).2 myid
        (cls - 1) := rfl

/-- The loop of `decreaseCat` run for `k` iterations moves `myid` from the range
of `cls` into the range of `cls - k`; one item leaves `cls`, one arrives in
`cls - k`, and the boundaries in between move one position to the right. -/
theorem decreaseLoop_spec (myid : Nat) :
    ∀ (k : Nat) (s : CRepository T) (mynum cls : Nat), Bij s → Tiling s → k ≤ cls →
      InCat s mynum cls → rd s.ids_ mynum = myid →
      Bij (decreaseLoop k s mynum myid cls) ∧ Tiling (decreaseLoop k s mynum myid cls) ∧
      InCat (decreaseLoop k s mynum myid cls)
        (rd (decreaseLoop k s mynum myid cls).nums_ myid) (cls - k) ∧
      Moved s (decreaseLoop k s mynum myid cls) myid ∧
      (∀ c, rd (decreaseLoop k s mynum myid cls).count_ c + (if c = cls then 1 else 0) =
        rd s.count_ c + (if c = cls - k then 1 else 0)) ∧
      (∀ c, rd (decreaseLoop k s mynum myid cls).offset_ c =
        rd s.offset_ c + (if cls - k < c ∧ c ≤ cls then 1 else 0)) := by
  intro k
  induction k with
  | zero =>
    intro s mynum cls hb ht _ hin hid
    have hn := hb.ids_nums mynum (hin.lt_N ht)
    rw [hid] at hn
    refine ⟨hb, ht, ?_, Moved.refl s myid, ?_, ?_⟩
    · show InCat s (rd s.nums_ myid) (cls - 0)
      rw [hn.2]; exact hin
    · intro c; rfl
    · intro c
      have : ¬ (cls - 0 < c ∧ c ≤ cls) := by omega
      rw [if_neg this]; rfl
  | succ k ih =>
    intro s mynum cls hb ht hk hin hid
    obtain ⟨hb1, ht1, hin1, hid1, hm1, hc1, ho1⟩ :=
      decreaseStep_spec hb ht (by omega : 0 < cls) hin hid
    have hcnt1 : 1 ≤ rd s.count_ cls := by have := hin.2.1; have := hin.2.2; omega
    obtain ⟨hb2, ht2, hin2, hm2, hc2, ho2⟩ :=
      ih (decreaseStep s mynum myid cls).1 (decreaseStep s mynum myid cls).2 (cls - 1) hb1 ht1
        (by omega) hin1 hid1
    rw [decreaseLoop_succ]
    refine ⟨hb2, ht2, ?_, hm1.trans_moved hm2, ?_, ?_⟩
    · have : cls - (k + 1) = cls - 1 - k := by omega
      rw [this]; exact hin2
    · intro c
      have a1 := hc1 c
      have a2 := hc2 c
      by_cases e1 : c = cls
      · subst e1
        have n1 : ¬ c = c - 1 := by omega
        have n2 : ¬ c = c - 1 - k := by omega
        have n3 : ¬ c = c - (k + 1) := by omega
        rw [if_pos rfl] at a1
        rw [if_neg n1, if_neg n2] at a2
        rw [if_pos rfl, if_neg n3]; omega
      · by_cases e2 : c = cls - 1
        · rw [if_neg e1, if_pos e2] at a1
          rw [if_pos e2] at a2
          rw [if_neg e1]
          by_cases e3 : c = cls - 1 - k
          · have e4 : c = cls - (k + 1) := by omega
            rw [if_pos e3] at a2; rw [if_pos e4]; omega
          · have e4 : ¬ c = cls - (k + 1) := by omega
            rw [if_neg e3] at a2; rw [if_neg e4]; omega
        · rw [if_neg e1, if_neg e2] at a1
          rw [if_neg e2] at a2
          rw [if_neg e1]
          by_cases e3 : c = cls - 1 - k
          · have e4 : c = cls - (k + 1) := by omega
            rw [if_pos e3] at a2; rw [if_pos e4]; omega
          · have e4 : ¬ c = cls - (k + 1) := by omega
            rw [if_neg e3] at a2; rw [if_neg e4]; omega
    · intro c
      have a1 := ho1 c
      have a2 := ho2 c
      by_cases e2 : c = cls
      · subst e2
        have n1 : ¬ (c - 1 - k < c ∧ c ≤ c - 1) := by omega
        have n2 : c - (k + 1) < c ∧ c ≤ c := by omega
        rw [if_pos rfl] at a1
        rw [if_neg n1] at a2
        rw [if_pos n2]; omega
      · rw [if_neg e2] at a1
        by_cases e3 : cls - 1 - k < c ∧ c ≤ cls - 1
        · have e4 : cls - (k + 1) < c ∧ c ≤ cls := by omega
          rw [if_pos e3] at a2; rw [if_pos e4]; omega
        · have e4 : ¬ (cls - (k + 1) < c ∧ c ≤ cls) := by omega
          rw [if_neg e3] at a2; rw [if_neg e4]; omega

/-! ## Relocating an item: `increaseCat` and `decreaseCat` -/

theorem increaseCat_spec {s : CRepository T} (hb : Bij s) (ht : Tiling s) {n cat : Nat}
    (hn : n < s.N_) (hcat : cat ≤ s.C_) (hle : categoryAt s n ≤ cat) :
    Bij (increaseCat s n cat) ∧ Tiling (increaseCat s n cat) ∧
    InCat (increaseCat s n cat) (rd (increaseCat s n cat).nums_ (rd s.ids_ n)) cat ∧
    Moved s (increaseCat s n cat) (rd s.ids_ n) ∧
    (∀ c, rd (increaseCat s n cat).count_ c + (if c = categoryAt s n then 1 else 0) =
      rd s.count_ c + (if c = cat then 1 else 0)) ∧
    (∀ c, rd (increaseCat s n cat).offset_ c +
      (if categoryAt s n < c ∧ c ≤ cat then 1 else 0) = rd s.offset_ c) := by
  have h := increaseLoop_spec (rd s.ids_ n) (cat - categoryAt s n) s n (categoryAt s n) hb ht
    (by omega) (categoryAt_inCat ht hn) rfl
  have e : categoryAt s n + (cat - categoryAt s n) = cat := by omega
  rw [e] at h
  exact h

theorem decreaseCat_spec {s : CRepository T} (hb : Bij s) (ht : Tiling s) {n cat : Nat}
    (hn : n < s.N_) (hle : cat ≤ categoryAt s n) :
    Bij (decreaseCat s n cat) ∧ Tiling (decreaseCat s n cat) ∧
    InCat (decreaseCat s n cat) (rd (decreaseCat s n cat).nums_ (rd s.ids_ n)) cat ∧
    Moved s (decreaseCat s n cat) (rd s.ids_ n) ∧
    (∀ c, rd (decreaseCat s n cat).count_ c + (if c = categoryAt s n then 1 else 0) =
      rd s.count_ c + (if c = cat then 1 else 0)) ∧
    (∀ c, rd (decreaseCat s n cat).offset_ c =
      rd s.offset_ c + (if cat < c ∧ c ≤ categoryAt s n then 1 else 0)) := by
  have h := decreaseLoop_spec (rd s.ids_ n) (categoryAt s n - cat) s n (categoryAt s n) hb ht
    (by omega) (categoryAt_inCat ht hn) rfl
  have e : categoryAt s n - (categoryAt s n - cat) = cat := by omega
  rw [e] at h
  exact h

/-- Relocating an item to the category it is in changes nothing. -/
theorem decreaseCat_same (s : CRepository T) (n : Nat) : decreaseCat s n (categoryAt s n) = s := by
  unfold decreaseCat
  rw [Nat.sub_self]; rfl

/-! ## Validity and categories -/

theorem valid_iff (s : CRepository T) (i : Nat) :
    valid s i = true ↔ i < s.N_ ∧ rd s.nums_ i < s.nStored_ := by
  unfold valid
  simp only [Bool.and_eq_true, decide_eq_true_eq]
  constructor
  · rintro ⟨⟨_, h2⟩, h3⟩; exact ⟨h2, h3⟩
  · rintro ⟨h2, h3⟩; exact ⟨⟨by omega, h2⟩, h3⟩

/-- A position lies left of the erased pool exactly when its category is live. -/
theorem InCat.lt_pool_iff {s : CRepository T} (ht : Tiling s) {p c : Nat} (h : InCat s p c) :
    p < rd s.offset_ s.C_ ↔ c < s.C_ := by
  obtain ⟨h1, h2, h3⟩ := h
  constructor
  · intro hp
    by_contra hc
    have : c = s.C_ := by omega
    subst this; omega
  · intro hc
    have := ht.off_succ c hc
    have := ht.off_mono s.C_ (c + 1) (by omega) (Nat.le_refl _)
    omega

theorem Inv.nStored_le {s : CRepository T} (h : Inv s) : s.nStored_ ≤ s.N_ := by
  rw [h.stored]; exact h.tiling.off_le_N _ (Nat.le_refl _)

/-- An identifier below the capacity is valid exactly when its category is live. -/
theorem Inv.valid_iff_category {s : CRepository T} (h : Inv s) {i : Nat} (hi : i < s.N_) :
    valid s i = true ↔ category s i < s.C_ := by
  rw [valid_iff, h.stored]
  have hp := (h.bij.nums_ids i hi).1
  have := (categoryAt_inCat h.tiling hp).lt_pool_iff h.tiling
  unfold category
  constructor
  · intro ⟨_, h2⟩; exact this.mp h2
  · intro h2; exact ⟨hi, this.mpr h2⟩

theorem Inv.valid_category_lt {s : CRepository T} (h : Inv s) {i : Nat}
    (hv : valid s i = true) : category s i < s.C_ :=
  (h.valid_iff_category ((valid_iff s i).mp hv).1).mp hv

/-- The category of an identifier is the one whose range holds its position. -/
theorem category_eq_iff {s : CRepository T} (hb : Bij s) (ht : Tiling s) {i : Nat}
    (hi : i < s.N_) (c : Nat) : category s i = c ↔ InCat s (rd s.nums_ i) c :=
  categoryAt_eq_iff ht (hb.nums_ids i hi).1 c

/-- Identifiers that a relocation does not touch keep their category. -/
theorem Moved.cat_eq {s s' : CRepository T} {myid : Nat} (hm : Moved s s' myid)
    (hb : Bij s) (ht : Tiling s) (hb' : Bij s') (ht' : Tiling s') {j : Nat} (hj : j < s.N_)
    (hne : j ≠ myid) : category s' j = category s j := by
  have h1 := (category_eq_iff hb ht hj (category s j)).mp rfl
  have h2 := hm.others j hj hne _ h1
  exact (category_eq_iff hb' ht' (by rw [hm.N_eq]; exact hj) _).mpr h2

theorem item_eq_of_items {s s' : CRepository T} [Inhabited T] (h : s'.items_ = s.items_)
    (j : Nat) : item s' j = item s j := by
  unfold item; rw [h]

/-! ## Frames -/

theorem Bij.congr_bij {s s' : CRepository T} (h : Bij s) (hN : s'.N_ = s.N_)
    (hids : s'.ids_ = s.ids_) (hnums : s'.nums_ = s.nums_)
    (hitems : s'.items_.length = s.items_.length) : Bij s' :=
  ⟨by rw [hids, hN]; exact h.len_ids, by rw [hnums, hN]; exact h.len_nums,
   by rw [hitems, hN]; exact h.len_items,
   by rw [hids, hnums, hN]; exact h.ids_nums, by rw [hids, hnums, hN]; exact h.nums_ids⟩

theorem Tiling.congr_tiling {s s' : CRepository T} (h : Tiling s) (hC : s'.C_ = s.C_)
    (hN : s'.N_ = s.N_) (hc : s'.count_ = s.count_) (ho : s'.offset_ = s.offset_) : Tiling s' :=
  ⟨by rw [hc, hC]; exact h.len_count, by rw [ho, hC]; exact h.len_offset,
   by rw [ho]; exact h.off_zero, by rw [ho, hc, hC]; exact h.off_succ,
   by rw [ho, hc, hC, hN]; exact h.off_last⟩

theorem InCat.congr_inCat {s s' : CRepository T} {p c : Nat} (h : InCat s p c) (hC : s'.C_ = s.C_)
    (hc : s'.count_ = s.count_) (ho : s'.offset_ = s.offset_) : InCat s' p c := by
  unfold InCat at h ⊢
  rw [hC, hc, ho]; exact h

theorem Kept.of_eq {s s' : CRepository T} (hC : s'.C_ = s.C_) (hN : s'.N_ = s.N_)
    (hc : s'.count_ = s.count_) (ho : s'.offset_ = s.offset_) (hn : s'.nums_ = s.nums_)
    (myid : Nat) : Kept s s' myid :=
  ⟨hC, Nat.le_of_eq hN.symm, fun j _ _ c h => by rw [hn]; exact h.congr_inCat hC hc ho,
   fun j h1 h2 _ => by omega⟩

theorem Moved.kept {s s' : CRepository T} {myid : Nat} (h : Moved s s' myid) : Kept s s' myid :=
  ⟨h.C_eq, Nat.le_of_eq h.N_eq.symm, h.others, fun j h1 h2 _ => by have := h.N_eq; omega⟩

theorem Kept.trans_kept {s s1 s2 : CRepository T} {myid : Nat}
    (h1 : Kept s s1 myid) (h2 : Kept s1 s2 myid) : Kept s s2 myid := by
  refine ⟨h2.C_eq.trans h1.C_eq, Nat.le_trans h1.N_le h2.N_le, ?_, ?_⟩
  · intro j hj hne c hc
    exact h2.others j (Nat.lt_of_lt_of_le hj h1.N_le) hne c (h1.others j hj hne c hc)
  · intro j hj hj2 hne
    by_cases hlt : j < s1.N_
    · have := h2.others j hlt hne _ (h1.fresh j hj hlt hne)
      rw [h2.C_eq]; exact this
    · exact h2.fresh j (by omega) hj2 hne

/-- Identifiers that a step does not touch keep their category. -/
theorem Kept.category_eq {s s' : CRepository T} {myid : Nat} (hm : Kept s s' myid)
    (hb : Bij s) (ht : Tiling s) (hb' : Bij s') (ht' : Tiling s') {j : Nat} (hj : j < s.N_)
    (hne : j ≠ myid) : category s' j = category s j := by
  have h1 := (category_eq_iff hb ht hj (category s j)).mp rfl
  have h2 := hm.others j hj hne _ h1
  exact (category_eq_iff hb' ht' (Nat.lt_of_lt_of_le hj hm.N_le) _).mpr h2

/-- Identifiers that a step does not touch keep their validity. -/
theorem Kept.valid_eq {s s' : CRepository T} {myid : Nat} (hm : Kept s s' myid)
    (h : Inv s) (h' : Inv s') {j : Nat} (hne : j ≠ myid) : valid s' j = valid s j := by
  by_cases hj : j < s.N_
  · have hj' : j < s'.N_ := Nat.lt_of_lt_of_le hj hm.N_le
    have e := hm.category_eq h.bij h.tiling h'.bij h'.tiling hj hne
    have a := h.valid_iff_category hj
    have b := h'.valid_iff_category hj'
    rw [e, hm.C_eq] at b
    have : (valid s' j = true) ↔ (valid s j = true) := b.trans a.symm
    cases h1 : valid s' j <;> cases h2 : valid s j <;> simp_all
  · have n1 : valid s j = false := by
      cases h1 : valid s j
      · rfl
      · exact absurd ((valid_iff s j).mp h1).1 hj
    have n2 : valid s' j = false := by
      cases h1 : valid s' j
      · rfl
      · have hj' := ((valid_iff s' j).mp h1).1
        have hin := hm.fresh j (by omega) hj' hne
        have := (h'.valid_iff_category hj').mp h1
        have := (category_eq_iff h'.bij h'.tiling hj' _).mpr hin
        omega
    rw [n1, n2]

/-! ## `setCategory` -/

theorem setCategory_spec {s : CRepository T} (h : Inv s) {id cat : Nat}
    (hv : valid s id = true) (hcat : cat < s.C_) :
    Inv (setCategory s id cat) ∧ Moved s (setCategory s id cat) id ∧
    category (setCategory s id cat) id = cat ∧ valid (setCategory s id cat) id = true ∧
    (∀ c, rd (setCategory s id cat).count_ c + (if c = category s id then 1 else 0) =
      rd s.count_ c + (if c = cat then 1 else 0)) := by
  have hid := ((valid_iff s id).mp hv).1
  have hn : rd s.nums_ id < s.N_ := (h.bij.nums_ids id hid).1
  have hidn : rd s.ids_ (rd s.nums_ id) = id := (h.bij.nums_ids id hid).2
  have hcls : categoryAt s (rd s.nums_ id) < s.C_ := h.valid_category_lt hv
  have key : ∀ s' : CRepository T, Bij s' → Tiling s' → InCat s' (rd s'.nums_ id) cat →
      Moved s s' id → rd s'.offset_ s.C_ = rd s.offset_ s.C_ →
      Inv s' ∧ Moved s s' id ∧ category s' id = cat ∧ valid s' id = true := by
    intro s' hb' ht' hin hm ho
    have hI : Inv s' := ⟨hb', ht', by rw [hm.nStored_eq, hm.C_eq, ho]; exact h.stored,
      by rw [hm.C_eq]; exact h.cpos⟩
    have hid' : id < s'.N_ := by rw [hm.N_eq]; exact hid
    have hc : category s' id = cat := (category_eq_iff hb' ht' hid' cat).mpr hin
    refine ⟨hI, hm, hc, ?_⟩
    rw [hI.valid_iff_category hid', hc, hm.C_eq]; exact hcat
  unfold setCategory setCategoryAt
  by_cases hlt : categoryAt s (rd s.nums_ id) < cat
  · rw [if_pos hlt]
    obtain ⟨hb', ht', hin, hm, hc, ho⟩ :=
      increaseCat_spec h.bij h.tiling hn (Nat.le_of_lt hcat) (Nat.le_of_lt hlt)
    rw [hidn] at hin hm
    have ho' := ho s.C_
    have : ¬ (categoryAt s (rd s.nums_ id) < s.C_ ∧ s.C_ ≤ cat) := by omega
    rw [if_neg this] at ho'
    obtain ⟨k1, k2, k3, k4⟩ := key _ hb' ht' hin hm ho'
    exact ⟨k1, k2, k3, k4, hc⟩
  · rw [if_neg hlt]
    obtain ⟨hb', ht', hin, hm, hc, ho⟩ :=
      decreaseCat_spec h.bij h.tiling hn (Nat.le_of_not_lt hlt)
    rw [hidn] at hin hm
    have ho' := ho s.C_
    have : ¬ (cat < s.C_ ∧ s.C_ ≤ categoryAt s (rd s.nums_ id)) := by omega
    rw [if_neg this] at ho'
    obtain ⟨k1, k2, k3, k4⟩ := key _ hb' ht' hin hm ho'
    exact ⟨k1, k2, k3, k4, hc⟩

/-! ## `erase` -/

/-- The fields of the state after `erase(address_t n)` other than the identifier
bounds, in terms of the state after the call of `increaseCat`. -/
theorem eraseAt_fields [Inhabited T] (s : CRepository T) (n : Nat) :
    (eraseAt s n).C_ = (increaseCat { s with items_ := s.items_.set (rd s.ids_ n) default } n s.C_).C_ ∧
    (eraseAt s n).N_ = (increaseCat { s with items_ := s.items_.set (rd s.ids_ n) default } n s.C_).N_ ∧
    (eraseAt s n).nStored_ =
      (increaseCat { s with items_ := s.items_.set (rd s.ids_ n) default } n s.C_).nStored_ - 1 ∧
    (eraseAt s n).count_ =
      (increaseCat { s with items_ := s.items_.set (rd s.ids_ n) default } n s.C_).count_ ∧
    (eraseAt s n).offset_ =
      (increaseCat { s with items_ := s.items_.set (rd s.ids_ n) default } n s.C_).offset_ ∧
    (eraseAt s n).nums_ =
      (increaseCat { s with items_ := s.items_.set (rd s.ids_ n) default } n s.C_).nums_ ∧
    (eraseAt s n).ids_ =
      (increaseCat { s with items_ := s.items_.set (rd s.ids_ n) default } n s.C_).ids_ ∧
    (eraseAt s n).items_ =
      (increaseCat { s with items_ := s.items_.set (rd s.ids_ n) default } n s.C_).items_ ∧
    (eraseAt s n).enlargeFactor_ =
      (increaseCat { s with items_ := s.items_.set (rd s.ids_ n) default } n s.C_).enlargeFactor_ := by
  simp only [eraseAt, updateMinID, updateMaxID]
  split_ifs <;> exact ⟨rfl, rfl, rfl, rfl, rfl, rfl, rfl, rfl, rfl⟩

theorem eraseAt_spec [Inhabited T] {s : CRepository T} (h : Inv s) {n : Nat}
    (hn : n < s.nStored_) :
    Inv (eraseAt s n) ∧ Kept s (eraseAt s n) (rd s.ids_ n) ∧
    InCat (eraseAt s n) (rd (eraseAt s n).nums_ (rd s.ids_ n)) s.C_ ∧
    (eraseAt s n).nStored_ + 1 = s.nStored_ ∧
    (eraseAt s n).N_ = s.N_ ∧ (eraseAt s n).enlargeFactor_ = s.enlargeFactor_ ∧
    (eraseAt s n).items_ = s.items_.set (rd s.ids_ n) default ∧
    (∀ c, rd (eraseAt s n).count_ c + (if c = categoryAt s n then 1 else 0) =
      rd s.count_ c + (if c = s.C_ then 1 else 0)) := by
  have hnN : n < s.N_ := Nat.lt_of_lt_of_le hn h.nStored_le
  have hcls : categoryAt s n < s.C_ :=
    ((categoryAt_inCat h.tiling hnN).lt_pool_iff h.tiling).mp (by rw [← h.stored]; exact hn)
  have key : ∀ s1 s2 : CRepository T,
      s1 = { s with items_ := s.items_.set (rd s.ids_ n) default } →
      s2 = increaseCat s1 n s.C_ →
      (eraseAt s n).C_ = s2.C_ ∧ (eraseAt s n).N_ = s2.N_ ∧
      (eraseAt s n).nStored_ = s2.nStored_ - 1 ∧ (eraseAt s n).count_ = s2.count_ ∧
      (eraseAt s n).offset_ = s2.offset_ ∧ (eraseAt s n).nums_ = s2.nums_ ∧
      (eraseAt s n).ids_ = s2.ids_ ∧ (eraseAt s n).items_ = s2.items_ ∧
      (eraseAt s n).enlargeFactor_ = s2.enlargeFactor_ →
      Inv (eraseAt s n) ∧ Kept s (eraseAt s n) (rd s.ids_ n) ∧
      InCat (eraseAt s n) (rd (eraseAt s n).nums_ (rd s.ids_ n)) s.C_ ∧
      (eraseAt s n).nStored_ + 1 = s.nStored_ ∧
      (eraseAt s n).N_ = s.N_ ∧ (eraseAt s n).enlargeFactor_ = s.enlargeFactor_ ∧
      (eraseAt s n).items_ = s.items_.set (rd s.ids_ n) default ∧
      (∀ c, rd (eraseAt s n).count_ c + (if c = categoryAt s n then 1 else 0) =
        rd s.count_ c + (if c = s.C_ then 1 else 0)) := by
    intro s1 s2 hs1 hs2 ⟨fC, fN, fS, fcnt, foff, fnums, fids, fitems, fef⟩
    have e1C : s1.C_ = s.C_ := by rw [hs1]
    have e1N : s1.N_ = s.N_ := by rw [hs1]
    have e1c : s1.count_ = s.count_ := by rw [hs1]
    have e1o : s1.offset_ = s.offset_ := by rw [hs1]
    have e1n : s1.nums_ = s.nums_ := by rw [hs1]
    have e1i : s1.ids_ = s.ids_ := by rw [hs1]
    have e1S : s1.nStored_ = s.nStored_ := by rw [hs1]
    have e1e : s1.enlargeFactor_ = s.enlargeFactor_ := by rw [hs1]
    have e1t : s1.items_ = s.items_.set (rd s.ids_ n) default := by rw [hs1]
    have e1cat : categoryAt s1 n = categoryAt s n := by unfold categoryAt; rw [e1c]
    have hb1 : Bij s1 := h.bij.congr_bij e1N e1i e1n (by rw [e1t]; simp)
    have ht1 : Tiling s1 := h.tiling.congr_tiling e1C e1N e1c e1o
    obtain ⟨hb2, ht2, hin2, hm2, hc2, ho2⟩ :=
      @increaseCat_spec T s1 hb1 ht1 n s.C_ (by rw [e1N]; exact hnN)
        (by rw [e1C]) (by rw [e1cat]; exact Nat.le_of_lt hcls)
    rw [← hs2, e1i] at hin2 hm2
    rw [← hs2] at hb2 ht2 hc2 ho2
    have hoC := ho2 s.C_
    rw [e1cat, if_pos ⟨hcls, Nat.le_refl _⟩, e1o] at hoC
    have hb' : Bij (eraseAt s n) := hb2.congr_bij fN fids fnums (by rw [fitems])
    have ht' : Tiling (eraseAt s n) := ht2.congr_tiling fC fN fcnt foff
    have hC' : (eraseAt s n).C_ = s.C_ := (fC.trans hm2.C_eq).trans e1C
    have hN' : (eraseAt s n).N_ = s.N_ := (fN.trans hm2.N_eq).trans e1N
    have hS' : (eraseAt s n).nStored_ + 1 = s.nStored_ := by
      rw [fS, hm2.nStored_eq, e1S]; omega
    have hI : Inv (eraseAt s n) := by
      refine ⟨hb', ht', ?_, by rw [hC']; exact h.cpos⟩
      rw [hC', foff]
      have := h.stored
      omega
    have hk : Kept s (eraseAt s n) (rd s.ids_ n) :=
      ((Kept.of_eq e1C e1N e1c e1o e1n _).trans_kept hm2.kept).trans_kept
        (Kept.of_eq fC fN fcnt foff fnums _)
    refine ⟨hI, hk, ?_, hS', hN', (fef.trans hm2.ef_eq).trans e1e, ?_, ?_⟩
    · rw [fnums]
      have := hin2.congr_inCat fC fcnt foff
      exact this
    · rw [fitems, hm2.items_eq, e1t]
    · intro c
      have := hc2 c
      rw [e1cat, e1c] at this
      rw [fcnt]; exact this
  exact key _ _ rfl rfl (eraseAt_fields s n)

theorem erase_spec [Inhabited T] {s : CRepository T} (h : Inv s) {id : Nat}
    (hv : valid s id = true) :
    Inv (erase s id) ∧ Kept s (erase s id) id ∧ valid (erase s id) id = false ∧
    (erase s id).nStored_ + 1 = s.nStored_ ∧
    (erase s id).N_ = s.N_ ∧ (erase s id).enlargeFactor_ = s.enlargeFactor_ ∧
    (erase s id).items_ = s.items_.set id default ∧
    (∀ c, rd (erase s id).count_ c + (if c = category s id then 1 else 0) =
      rd s.count_ c + (if c = s.C_ then 1 else 0)) := by
  have hid := ((valid_iff s id).mp hv).1
  have hst := ((valid_iff s id).mp hv).2
  have hidn : rd s.ids_ (rd s.nums_ id) = id := (h.bij.nums_ids id hid).2
  obtain ⟨hI, hk, hin, hS, hN, hef, hit, hc⟩ := eraseAt_spec h hst
  rw [hidn] at hk hin hit
  refine ⟨hI, hk, ?_, hS, hN, hef, hit, hc⟩
  have hid' : id < (erase s id).N_ := by rw [show (erase s id).N_ = s.N_ from hN]; exact hid
  have hcat := (category_eq_iff hI.bij hI.tiling hid' _).mpr hin
  cases hvv : valid (erase s id) id
  · rfl
  · have := (hI.valid_iff_category hid').mp hvv
    have := hk.C_eq
    omega

/-! ## `enlarge` -/

theorem getD_resize_default {α : Type} (v : List α) (n : Nat) (d : α) (j : Nat)
    (h : v.length ≤ n) : (resize v n d).getD j d = v.getD j d := by
  unfold resize
  rw [List.take_of_length_le h]
  by_cases hj : j < v.length
  · exact List.getD_append v _ d j hj
  · rw [List.getD_append_right v _ d j (Nat.le_of_not_lt hj)]
    rw [List.getD_eq_getElem?_getD, List.getD_eq_getElem?_getD, List.getElem?_replicate,
      List.getElem?_eq_none (Nat.le_of_not_lt hj)]
    split <;> rfl

/-- A successful `enlarge` returns the state extended to some larger capacity. -/
theorem enlarge_eq_some [Inhabited T] {E : Env} {s s1 : CRepository T}
    (h : enlarge E s = some s1) :
    ∃ n1, s.N_ < n1 ∧ s1 = { s with
      items_ := resize s.items_ n1 default,
      ids_ := s.ids_ ++ List.range' s.N_ (n1 - s.N_),
      nums_ := s.nums_ ++ List.range' s.N_ (n1 - s.N_),
      count_ := s.count_.set s.C_ (rd s.count_ s.C_ + (n1 - s.N_)),
      N_ := n1 } := by
  unfold enlarge at h
  by_cases hle : enlargedSize E s ≤ s.N_
  · rw [if_pos hle] at h; exact absurd h (by simp)
  · rw [if_neg hle] at h
    exact ⟨_, Nat.lt_of_not_le hle, (Option.some.inj h).symm⟩

theorem enlarge_spec [Inhabited T] {E : Env} {s s1 : CRepository T} (h : Inv s)
    (he : enlarge E s = some s1) (myid : Nat) :
    Inv s1 ∧ Kept s s1 myid ∧ s.N_ < s1.N_ ∧ s1.nStored_ = s.nStored_ ∧
    s1.offset_ = s.offset_ ∧ s1.C_ = s.C_ ∧
    (∀ c, c ≠ s.C_ → rd s1.count_ c = rd s.count_ c) ∧
    (∀ p, s.N_ ≤ p → p < s1.N_ → rd s1.ids_ p = p) ∧
    (∀ p, p < s.N_ → rd s1.ids_ p = rd s.ids_ p) ∧
    (∀ j, item s1 j = item s j) ∧
    s1.minID_ = s.minID_ ∧ s1.maxID_ = s.maxID_ ∧ s1.enlargeFactor_ = s.enlargeFactor_ := by
  obtain ⟨n1, hlt, hs1⟩ := enlarge_eq_some he
  have eC : s1.C_ = s.C_ := by rw [hs1]
  have eN : s1.N_ = n1 := by rw [hs1]
  have eS : s1.nStored_ = s.nStored_ := by rw [hs1]
  have eo : s1.offset_ = s.offset_ := by rw [hs1]
  have ec : s1.count_ = s.count_.set s.C_ (rd s.count_ s.C_ + (n1 - s.N_)) := by rw [hs1]
  have ei : s1.ids_ = s.ids_ ++ List.range' s.N_ (n1 - s.N_) := by rw [hs1]
  have en : s1.nums_ = s.nums_ ++ List.range' s.N_ (n1 - s.N_) := by rw [hs1]
  have et : s1.items_ = resize s.items_ n1 default := by rw [hs1]
  have hids : ∀ p, rd s1.ids_ p = if p < s.N_ then rd s.ids_ p else if p < n1 then p else 0 := by
    intro p
    rw [ei]
    by_cases hp : p < s.N_
    · rw [if_pos hp, rd_append_left _ _ _ (by rw [h.bij.len_ids]; exact hp)]
    · rw [if_neg hp, rd_append_right _ _ _ (by rw [h.bij.len_ids]; omega), h.bij.len_ids]
      by_cases hp2 : p < n1
      · rw [if_pos hp2, rd_range' _ _ _ (by omega)]; omega
      · rw [if_neg hp2, rd_of_le _ _ (by simp; omega)]
  have hnums : ∀ p, rd s1.nums_ p = if p < s.N_ then rd s.nums_ p else if p < n1 then p else 0 := by
    intro p
    rw [en]
    by_cases hp : p < s.N_
    · rw [if_pos hp, rd_append_left _ _ _ (by rw [h.bij.len_nums]; exact hp)]
    · rw [if_neg hp, rd_append_right _ _ _ (by rw [h.bij.len_nums]; omega), h.bij.len_nums]
      by_cases hp2 : p < n1
      · rw [if_pos hp2, rd_range' _ _ _ (by omega)]; omega
      · rw [if_neg hp2, rd_of_le _ _ (by simp; omega)]
  have hcount : ∀ c, rd s1.count_ c =
      if c = s.C_ then rd s.count_ c + (n1 - s.N_) else rd s.count_ c := by
    intro c
    rw [ec, rd_set, h.tiling.len_count]
    by_cases hc : c = s.C_
    · subst hc; simp
    · simp [hc, Ne.symm hc]
  have hb1 : Bij s1 := by
    refine ⟨?_, ?_, ?_, ?_, ?_⟩
    · rw [ei, eN]; simp [h.bij.len_ids]; omega
    · rw [en, eN]; simp [h.bij.len_nums]; omega
    · rw [et, eN]; exact length_resize _ _ _
    · intro p hp
      rw [eN] at hp ⊢
      rw [hids p]
      by_cases hp1 : p < s.N_
      · have := h.bij.ids_nums p hp1
        rw [if_pos hp1, hnums, if_pos this.1]
        exact ⟨by omega, this.2⟩
      · rw [if_neg hp1, if_pos hp, hnums, if_neg hp1, if_pos hp]
        exact ⟨hp, rfl⟩
    · intro p hp
      rw [eN] at hp ⊢
      rw [hnums p]
      by_cases hp1 : p < s.N_
      · have := h.bij.nums_ids p hp1
        rw [if_pos hp1, hids, if_pos this.1]
        exact ⟨by omega, this.2⟩
      · rw [if_neg hp1, if_pos hp, hids, if_neg hp1, if_pos hp]
        exact ⟨hp, rfl⟩
  have ht1 : Tiling s1 := by
    refine ⟨?_, ?_, ?_, ?_, ?_⟩
    · rw [ec, eC]; simp [h.tiling.len_count]
    · rw [eo, eC]; exact h.tiling.len_offset
    · rw [eo]; exact h.tiling.off_zero
    · intro c hc
      rw [eC] at hc
      rw [eo, hcount, if_neg (by omega)]
      exact h.tiling.off_succ c hc
    · rw [eo, eC, eN, hcount, if_pos rfl]
      have := h.tiling.off_last
      omega
  have hk : Kept s s1 myid := by
    refine ⟨eC, by rw [eN]; omega, ?_, ?_⟩
    · intro j hj _ c hc
      rw [hnums, if_pos hj]
      obtain ⟨c1, c2, c3⟩ := hc
      refine ⟨by rw [eC]; exact c1, by rw [eo]; exact c2, ?_⟩
      rw [eo, hcount]
      by_cases e : c = s.C_
      · rw [if_pos e]; omega
      · rw [if_neg e]; exact c3
    · intro j hj hj2 _
      rw [eN] at hj2
      rw [hnums, if_neg (by omega), if_pos hj2, eC]
      have := h.tiling.off_last
      refine ⟨by rw [eC], by rw [eo]; omega, ?_⟩
      rw [eo, hcount, if_pos rfl]; omega
  refine ⟨⟨hb1, ht1, by rw [eS, eo, eC]; exact h.stored, by rw [eC]; exact h.cpos⟩, hk,
    by rw [eN]; exact hlt, eS, eo, eC, ?_, ?_, ?_, ?_, by rw [hs1], by rw [hs1], by rw [hs1]⟩
  · intro c hc; rw [hcount, if_neg hc]
  · intro p hp hp2
    rw [eN] at hp2
    rw [hids, if_neg (by omega), if_pos hp2]
  · intro p hp; rw [hids, if_pos hp]
  · intro j
    unfold item
    rw [et]
    exact getD_resize_default _ _ _ _ (by rw [h.bij.len_items]; omega)

/-! ## `insert` -/

theorem updateMinMaxID_fields (s : CRepository T) (id : Nat) :
    (updateMinMaxID s id).C_ = s.C_ ∧ (updateMinMaxID s id).N_ = s.N_ ∧
    (updateMinMaxID s id).nStored_ = s.nStored_ ∧ (updateMinMaxID s id).count_ = s.count_ ∧
    (updateMinMaxID s id).offset_ = s.offset_ ∧ (updateMinMaxID s id).nums_ = s.nums_ ∧
    (updateMinMaxID s id).ids_ = s.ids_ ∧ (updateMinMaxID s id).items_ = s.items_ ∧
    (updateMinMaxID s id).enlargeFactor_ = s.enlargeFactor_ := by
  simp only [updateMinMaxID]
  split_ifs <;> exact ⟨rfl, rfl, rfl, rfl, rfl, rfl, rfl, rfl, rfl⟩

/-- A successful `insert` is the state after the optional `enlarge`, with the
record stored, the position moved into `cat`, and the stored count incremented. -/
theorem insert_some [Inhabited T] {E : Env} {s s' : CRepository T} {itm : T} {cat id : Nat}
    (h : insert E s itm cat = some (s', id)) :
    ∃ s1 s2 s3, (if rd s.offset_ s.C_ ≥ s.N_ then enlarge E s else some s) = some s1 ∧
      id = rd s1.ids_ (rd s.offset_ s.C_) ∧
      s2 = { s1 with items_ := s1.items_.set id itm } ∧
      s3 = decreaseCat s2 (rd s.offset_ s.C_) cat ∧
      s' = updateMinMaxID { s3 with nStored_ := s3.nStored_ + 1 } id := by
  unfold insert at h
  simp only at h
  cases hE : (if rd s.offset_ s.C_ ≥ s.N_ then enlarge E s else some s) with
  | none => rw [hE] at h; exact absurd h (by simp)
  | some s1 =>
    rw [hE] at h
    simp only [Option.some.injEq, Prod.mk.injEq] at h
    obtain ⟨h1, h2⟩ := h
    subst h2
    exact ⟨s1, _, _, rfl, rfl, rfl, rfl, h1.symm⟩

theorem insert_spec [Inhabited T] {E : Env} {s s' : CRepository T} {itm : T} {cat id : Nat}
    (h : Inv s) (hcat : cat < s.C_) (hins : insert E s itm cat = some (s', id)) :
    Inv s' ∧ Kept s s' id ∧ valid s id = false ∧ valid s' id = true ∧
    category s' id = cat ∧ item s' id = itm ∧ s'.nStored_ = s.nStored_ + 1 ∧
    (∀ j, j ≠ id → item s' j = item s j) ∧
    (∀ c, c < s.C_ → rd s'.count_ c = rd s.count_ c + (if c = cat then 1 else 0)) ∧
    s'.enlargeFactor_ = s.enlargeFactor_ := by
  obtain ⟨s1, s2, s3, hE, hid, hs2, hs3, hs'⟩ := insert_some hins
  -- the state after the optional growth
  have h1 : Inv s1 ∧ Kept s s1 id ∧ s1.nStored_ = s.nStored_ ∧ s1.offset_ = s.offset_ ∧
      s1.C_ = s.C_ ∧ (∀ c, c ≠ s.C_ → rd s1.count_ c = rd s.count_ c) ∧
      (∀ j, item s1 j = item s j) ∧ s1.enlargeFactor_ = s.enlargeFactor_ ∧
      s.nStored_ < s1.N_ ∧ (∀ j, j < s.N_ → rd s1.nums_ j = rd s.nums_ j) := by
    by_cases hfull : rd s.offset_ s.C_ ≥ s.N_
    · rw [if_pos hfull] at hE
      obtain ⟨a1, a2, a3, a4, a5, a6, a7, a8, a9, a10, _, _, a13⟩ := enlarge_spec h hE id
      have := h.nStored_le
      have := h.stored
      refine ⟨a1, a2, a4, a5, a6, a7, a10, a13, by omega, ?_⟩
      intro j hj
      obtain ⟨b1, b2⟩ := h.bij.nums_ids j hj
      have b3 := a9 _ b1
      rw [b2] at b3
      have b4 := (a1.bij.ids_nums _ (by omega : rd s.nums_ j < s1.N_)).2
      rw [b3] at b4
      exact b4
    · rw [if_neg hfull] at hE
      have e := Option.some.inj hE
      subst e
      have := h.stored
      exact ⟨h, Kept.of_eq rfl rfl rfl rfl rfl id, rfl, rfl, rfl, fun _ _ => rfl, fun _ => rfl,
        rfl, by omega, fun _ _ => rfl⟩
  obtain ⟨hI1, hk1, eS1, eo1, eC1, ec1, eit1, eef1, hlt1, hnew⟩ := h1
  have hcur : rd s.offset_ s.C_ = s1.nStored_ := by rw [eS1]; exact h.stored.symm
  rw [hcur] at hid hs3
  have hcurN : s1.nStored_ < s1.N_ := by rw [eS1]; exact hlt1
  have hidN : id < s1.N_ := by rw [hid]; exact (hI1.bij.ids_nums _ hcurN).1
  have hnumid : rd s1.nums_ id = s1.nStored_ := by rw [hid]; exact (hI1.bij.ids_nums _ hcurN).2
  -- the position taken is the first one of the erased pool
  have hpool : InCat s1 s1.nStored_ s1.C_ := by
    have := hI1.tiling.off_last
    have := hI1.stored
    exact ⟨Nat.le_refl _, by omega, by omega⟩
  have hcatAt : categoryAt s1 s1.nStored_ = s1.C_ :=
    (categoryAt_eq_iff hI1.tiling hcurN _).mpr hpool
  have e2C : s2.C_ = s1.C_ := by rw [hs2]
  have e2N : s2.N_ = s1.N_ := by rw [hs2]
  have e2c : s2.count_ = s1.count_ := by rw [hs2]
  have e2o : s2.offset_ = s1.offset_ := by rw [hs2]
  have e2n : s2.nums_ = s1.nums_ := by rw [hs2]
  have e2i : s2.ids_ = s1.ids_ := by rw [hs2]
  have e2S : s2.nStored_ = s1.nStored_ := by rw [hs2]
  have e2e : s2.enlargeFactor_ = s1.enlargeFactor_ := by rw [hs2]
  have e2t : s2.items_ = s1.items_.set id itm := by rw [hs2]
  have e2cat : categoryAt s2 s1.nStored_ = s1.C_ := by
    unfold categoryAt; rw [e2c]; exact hcatAt
  have hb2 : Bij s2 := hI1.bij.congr_bij e2N e2i e2n (by rw [e2t]; simp)
  have ht2 : Tiling s2 := hI1.tiling.congr_tiling e2C e2N e2c e2o
  obtain ⟨hb3, ht3, hin3, hm3, hc3, ho3⟩ :=
    @decreaseCat_spec T s2 hb2 ht2 s1.nStored_ cat (by rw [e2N]; exact hcurN)
      (by rw [e2cat, eC1]; exact Nat.le_of_lt hcat)
  rw [← hs3, e2i, ← hid] at hin3 hm3
  rw [← hs3] at hb3 ht3 hc3 ho3
  obtain ⟨fC, fN, fS, fcnt, foff, fnums, fids, fitems, fef⟩ :=
    updateMinMaxID_fields { s3 with nStored_ := s3.nStored_ + 1 } id
  rw [← hs'] at fC fN fS fcnt foff fnums fids fitems fef
  have gC : s'.C_ = s3.C_ := fC
  have gN : s'.N_ = s3.N_ := fN
  have gS : s'.nStored_ = s3.nStored_ + 1 := fS
  have gcnt : s'.count_ = s3.count_ := fcnt
  have goff : s'.offset_ = s3.offset_ := foff
  have gnums : s'.nums_ = s3.nums_ := fnums
  have gids : s'.ids_ = s3.ids_ := fids
  have gitems : s'.items_ = s3.items_ := fitems
  have gef : s'.enlargeFactor_ = s3.enlargeFactor_ := fef
  have hC' : s'.C_ = s.C_ := ((gC.trans hm3.C_eq).trans e2C).trans eC1
  have hN' : s'.N_ = s1.N_ := (gN.trans hm3.N_eq).trans e2N
  have hS' : s'.nStored_ = s.nStored_ + 1 := by
    rw [gS, hm3.nStored_eq, e2S, eS1]
  have hoC := ho3 s.C_
  rw [e2cat, eC1, if_pos ⟨hcat, Nat.le_refl _⟩, e2o, eo1] at hoC
  have hb' : Bij s' := hb3.congr_bij gN gids gnums (by rw [gitems])
  have ht' : Tiling s' := ht3.congr_tiling gC gN gcnt goff
  have hI' : Inv s' := by
    refine ⟨hb', ht', ?_, by rw [hC']; exact h.cpos⟩
    rw [hS', hC', goff, hoC, h.stored]
  have hk : Kept s s' id :=
    ((hk1.trans_kept (Kept.of_eq e2C e2N e2c e2o e2n _)).trans_kept hm3.kept).trans_kept
      (Kept.of_eq gC gN gcnt goff gnums _)
  have hidN' : id < s'.N_ := by rw [hN']; exact hidN
  have hin' : InCat s' (rd s'.nums_ id) cat := by
    rw [gnums]; exact hin3.congr_inCat gC gcnt goff
  have hcat' : category s' id = cat := (category_eq_iff hb' ht' hidN' cat).mpr hin'
  refine ⟨hI', hk, ?_, ?_, hcat', ?_, hS', ?_, ?_, ?_⟩
  · cases hv : valid s id
    · rfl
    · obtain ⟨v1, v2⟩ := (valid_iff s id).mp hv
      have := hnew id v1
      rw [hnumid, eS1] at this
      omega
  · rw [hI'.valid_iff_category hidN', hcat', hC']; exact hcat
  · unfold item
    rw [gitems, hm3.items_eq, e2t]
    rw [List.getD_eq_getElem?_getD, List.getElem?_set_self (by rw [hI1.bij.len_items]; exact hidN)]
    rfl
  · intro j hj
    rw [← eit1 j]
    unfold item
    rw [gitems, hm3.items_eq, e2t]
    rw [List.getD_eq_getElem?_getD, List.getD_eq_getElem?_getD,
      List.getElem?_set_ne (Ne.symm hj)]
  · intro c hc
    have := hc3 c
    rw [e2cat, eC1, if_neg (by omega : ¬ c = s.C_), e2c, ec1 c (by omega)] at this
    rw [gcnt]; omega
  · exact ((gef.trans hm3.ef_eq).trans e2e).trans eef1

/-! ## `init`, the constructors and `clear` -/

/-- The state after `init()`: identity tables, all positions in the erased pool,
default records, and unchanged `C_`, `N_` and enlarge factor. -/
theorem init_spec [Inhabited T] (s : CRepository T) :
    (init s).C_ = s.C_ ∧ (init s).N_ = s.N_ ∧ (init s).nStored_ = 0 ∧
    (init s).minID_ = 0 ∧ (init s).maxID_ = 0 ∧ (init s).enlargeFactor_ = s.enlargeFactor_ ∧
    (init s).ids_.length = s.N_ ∧ (init s).nums_.length = s.N_ ∧
    (init s).items_.length = s.N_ ∧
    (init s).count_.length = s.C_ + 1 ∧ (init s).offset_.length = s.C_ + 1 ∧
    (∀ i, i < s.N_ → rd (init s).ids_ i = i) ∧ (∀ i, i < s.N_ → rd (init s).nums_ i = i) ∧
    (∀ c, c ≤ s.C_ → rd (init s).offset_ c = 0) ∧
    (∀ c, c < s.C_ → rd (init s).count_ c = 0) ∧ rd (init s).count_ s.C_ = s.N_ := by
  have hi := fillIndices_spec (fun i => i) s.N_ (resize s.ids_ s.N_ 0)
    (by rw [length_resize])
  have hn := fillIndices_spec (fun i => i) s.N_ (resize s.nums_ s.N_ 0)
    (by rw [length_resize])
  have hc := fillIndices_spec (fun _ => 0) s.C_ (resize s.count_ (s.C_ + 1) 0)
    (by rw [length_resize]; omega)
  have ho := fillIndices_spec (fun _ => 0) s.C_ (resize s.offset_ (s.C_ + 1) 0)
    (by rw [length_resize]; omega)
  rw [length_resize] at hi hn hc ho
  refine ⟨rfl, rfl, rfl, rfl, rfl, rfl, hi.1, hn.1, length_resize _ _ _, ?_, ?_, ?_, ?_, ?_, ?_, ?_⟩
  · show ((fillIndices _ _ _).set _ _).length = _
    rw [List.length_set]; exact hc.1
  · show ((fillIndices _ _ _).set _ _).length = _
    rw [List.length_set]; exact ho.1
  · intro i h; rw [show (init s).ids_ = fillIndices _ _ _ from rfl, hi.2, if_pos h]
  · intro i h; rw [show (init s).nums_ = fillIndices _ _ _ from rfl, hn.2, if_pos h]
  · intro c h
    rw [show (init s).offset_ = (fillIndices _ _ _).set _ _ from rfl, rd_set, ho.1]
    by_cases e : s.C_ = c
    · rw [if_pos ⟨e, by omega⟩]
    · rw [if_neg (fun h => e h.1), ho.2, if_pos (by omega)]
  · intro c h
    rw [show (init s).count_ = (fillIndices _ _ _).set _ _ from rfl, rd_set,
      if_neg (fun h => by omega), hc.2, if_pos h]
  · rw [show (init s).count_ = (fillIndices _ _ _).set _ _ from rfl, rd_set, hc.1]
    rw [if_pos ⟨rfl, by omega⟩]

theorem init_inv [Inhabited T] (s : CRepository T) (hC : 0 < s.C_) : Inv (init s) := by
  obtain ⟨eC, eN, eS, _, _, _, li, ln, lt, lc, lo, hi, hn, ho, hc, hcC⟩ := init_spec s
  refine ⟨⟨by rw [li, eN], by rw [ln, eN], by rw [lt, eN], ?_, ?_⟩,
    ⟨by rw [lc, eC], by rw [lo, eC], ho 0 (Nat.zero_le _), ?_, ?_⟩, ?_, by rw [eC]; exact hC⟩
  · intro p hp
    rw [eN] at hp
    rw [hi p hp, hn p hp, eN]; exact ⟨hp, rfl⟩
  · intro p hp
    rw [eN] at hp
    rw [hn p hp, hi p hp, eN]; exact ⟨hp, rfl⟩
  · intro c h
    rw [eC] at h
    rw [ho _ (by omega), ho _ (by omega), hc _ h]
  · rw [eC, eN, ho _ (Nat.le_refl _), hcC]; omega
  · rw [eS, eC, ho _ (Nat.le_refl _)]

theorem construct_inv [Inhabited T] (cat n : Nat) (h : 0 < cat) :
    Inv (construct cat n : CRepository T) := init_inv _ h

theorem construct0_inv [Inhabited T] : Inv (construct0 : CRepository T) :=
  init_inv _ (Nat.lt_succ_self 0)

theorem clear_inv [Inhabited T] (s : CRepository T) (h : 0 < s.C_) : Inv (clear s) :=
  init_inv _ h

theorem setEnlargeFactor_fields (s : CRepository T) (val : Nat) :
    (setEnlargeFactor s val).C_ = s.C_ ∧ (setEnlargeFactor s val).N_ = s.N_ ∧
    (setEnlargeFactor s val).nStored_ = s.nStored_ ∧
    (setEnlargeFactor s val).count_ = s.count_ ∧ (setEnlargeFactor s val).offset_ = s.offset_ ∧
    (setEnlargeFactor s val).nums_ = s.nums_ ∧ (setEnlargeFactor s val).ids_ = s.ids_ ∧
    (setEnlargeFactor s val).items_ = s.items_ ∧ (setEnlargeFactor s val).minID_ = s.minID_ ∧
    (setEnlargeFactor s val).maxID_ = s.maxID_ := by
  unfold setEnlargeFactor
  split <;> exact ⟨rfl, rfl, rfl, rfl, rfl, rfl, rfl, rfl, rfl, rfl⟩

theorem Inv.congr_inv {s s' : CRepository T} (h : Inv s) (hC : s'.C_ = s.C_) (hN : s'.N_ = s.N_)
    (hS : s'.nStored_ = s.nStored_) (hc : s'.count_ = s.count_) (ho : s'.offset_ = s.offset_)
    (hn : s'.nums_ = s.nums_) (hi : s'.ids_ = s.ids_)
    (ht : s'.items_.length = s.items_.length) : Inv s' :=
  ⟨h.bij.congr_bij hN hi hn ht, h.tiling.congr_tiling hC hN hc ho, by rw [hS, ho, hC]; exact h.stored,
   by rw [hC]; exact h.cpos⟩

theorem setEnlargeFactor_inv {s : CRepository T} (h : Inv s) (val : Nat) :
    Inv (setEnlargeFactor s val) := by
  obtain ⟨a1, a2, a3, a4, a5, a6, a7, a8, _, _⟩ := setEnlargeFactor_fields s val
  exact h.congr_inv a1 a2 a3 a4 a5 a6 a7 (by rw [a8])

/-! ## `reorderToMaxCategory` -/

/-- Moving a live item to a category not above its own keeps the invariant. -/
theorem decreaseCat_live {s : CRepository T} (h : Inv s) {j n : Nat} (hj : j < s.N_)
    (hle : n ≤ category s j) (hlive : category s j < s.C_) :
    Inv (decreaseCat s (rd s.nums_ j) n) ∧ Moved s (decreaseCat s (rd s.nums_ j) n) j ∧
    InCat (decreaseCat s (rd s.nums_ j) n) (rd (decreaseCat s (rd s.nums_ j) n).nums_ j) n := by
  have hn : rd s.nums_ j < s.N_ := (h.bij.nums_ids j hj).1
  have hidn : rd s.ids_ (rd s.nums_ j) = j := (h.bij.nums_ids j hj).2
  obtain ⟨hb', ht', hin, hm, _, ho⟩ := decreaseCat_spec h.bij h.tiling hn hle
  rw [hidn] at hin hm
  have ho' := ho s.C_
  have hcond : ¬ (n < s.C_ ∧ s.C_ ≤ categoryAt s (rd s.nums_ j)) := by
    unfold category at hlive; omega
  rw [if_neg hcond] at ho'
  exact ⟨⟨hb', ht', by rw [hm.nStored_eq, hm.C_eq, ho']; exact h.stored,
    by rw [hm.C_eq]; exact h.cpos⟩, hm, hin⟩

/-- The loop of `reorderToMaxCategory`: every identifier in the list ends in
category `n`, every other identifier stays where it was. -/
theorem reorder_fold (n : Nat) :
    ∀ (l : List Nat) (r : CRepository T), Inv r → n < r.C_ →
      (∀ it ∈ l, it < r.N_ ∧ n ≤ category r it ∧ category r it < r.C_) →
      Inv (l.foldl (fun r it => decreaseCat r (rd r.nums_ it) n) r) ∧
      (l.foldl (fun r it => decreaseCat r (rd r.nums_ it) n) r).C_ = r.C_ ∧
      (l.foldl (fun r it => decreaseCat r (rd r.nums_ it) n) r).N_ = r.N_ ∧
      (l.foldl (fun r it => decreaseCat r (rd r.nums_ it) n) r).nStored_ = r.nStored_ ∧
      (l.foldl (fun r it => decreaseCat r (rd r.nums_ it) n) r).items_ = r.items_ ∧
      (l.foldl (fun r it => decreaseCat r (rd r.nums_ it) n) r).minID_ = r.minID_ ∧
      (l.foldl (fun r it => decreaseCat r (rd r.nums_ it) n) r).maxID_ = r.maxID_ ∧
      (l.foldl (fun r it => decreaseCat r (rd r.nums_ it) n) r).enlargeFactor_ =
        r.enlargeFactor_ ∧
      (∀ j, j ∈ l → InCat (l.foldl (fun r it => decreaseCat r (rd r.nums_ it) n) r)
        (rd (l.foldl (fun r it => decreaseCat r (rd r.nums_ it) n) r).nums_ j) n) ∧
      (∀ j, j < r.N_ → j ∉ l → ∀ c, InCat r (rd r.nums_ j) c →
        InCat (l.foldl (fun r it => decreaseCat r (rd r.nums_ it) n) r)
          (rd (l.foldl (fun r it => decreaseCat r (rd r.nums_ it) n) r).nums_ j) c) := by
  intro l
  induction l with
  | nil =>
    intro r hI _ _
    exact ⟨hI, rfl, rfl, rfl, rfl, rfl, rfl, rfl, fun j hj => absurd hj (List.not_mem_nil j),
      fun _ _ _ _ hc => hc⟩
  | cons it l ih =>
    intro r hI hn hl
    obtain ⟨hit, hle, hlive⟩ := hl it (List.mem_cons_self it l)
    obtain ⟨hI1, hm1, hin1⟩ := decreaseCat_live hI hit hle hlive
    have hl1 : ∀ x ∈ l, x < (decreaseCat r (rd r.nums_ it) n).N_ ∧
        n ≤ category (decreaseCat r (rd r.nums_ it) n) x ∧
        category (decreaseCat r (rd r.nums_ it) n) x < (decreaseCat r (rd r.nums_ it) n).C_ := by
      intro x hx
      obtain ⟨x1, x2, x3⟩ := hl x (List.mem_cons_of_mem it hx)
      rw [hm1.N_eq, hm1.C_eq]
      by_cases e : x = it
      · subst e
        have := (category_eq_iff hI1.bij hI1.tiling (by rw [hm1.N_eq]; exact x1) n).mpr hin1
        rw [this]; exact ⟨x1, Nat.le_refl _, hn⟩
      · rw [hm1.cat_eq hI.bij hI.tiling hI1.bij hI1.tiling x1 e]
        exact ⟨x1, x2, x3⟩
    obtain ⟨a1, a2, a3, a4, a5, a6, a7, a8, a9, a10⟩ :=
      ih (decreaseCat r (rd r.nums_ it) n) hI1 (by rw [hm1.C_eq]; exact hn) hl1
    rw [List.foldl_cons]
    refine ⟨a1, a2.trans hm1.C_eq, a3.trans hm1.N_eq, a4.trans hm1.nStored_eq,
      a5.trans hm1.items_eq, a6.trans hm1.minID_eq, a7.trans hm1.maxID_eq,
      a8.trans hm1.ef_eq, ?_, ?_⟩
    · intro j hj
      by_cases hjl : j ∈ l
      · exact a9 j hjl
      · have e : j = it := by
          rcases List.mem_cons.mp hj with e | e
          · exact e
          · exact absurd e hjl
        subst e
        exact a10 j (by rw [hm1.N_eq]; exact hit) hjl n hin1
    · intro j hj hjl c hc
      have hne : j ≠ it := fun e => hjl (e ▸ List.mem_cons_self it l)
      have hjl' : j ∉ l := fun e => hjl (List.mem_cons_of_mem it e)
      exact a10 j (by rw [hm1.N_eq]; exact hj) hjl' c (hm1.others j hj hne c hc)

theorem getElem?_eq_some_rd (v : List Nat) (p : Nat) (h : p < v.length) :
    v[p]? = some (rd v p) := by
  rw [rd_eq_getElem v p h]; exact List.getElem?_eq_getElem h

/-- Membership in the block of identifiers copied by `reorderToMaxCategory`. -/
theorem mem_drop_take (v : List Nat) (a k j : Nat) :
    j ∈ (v.drop a).take k ↔ ∃ i, i < k ∧ a + i < v.length ∧ rd v (a + i) = j := by
  rw [List.mem_iff_getElem?]
  constructor
  · rintro ⟨i, hi⟩
    rw [List.getElem?_take] at hi
    by_cases hik : i < k
    · rw [if_pos hik, List.getElem?_drop] at hi
      have hlen : a + i < v.length := by
        by_contra hc
        rw [List.getElem?_eq_none (Nat.le_of_not_lt hc)] at hi
        exact absurd hi (by simp)
      rw [getElem?_eq_some_rd v _ hlen] at hi
      exact ⟨i, hik, hlen, Option.some.inj hi⟩
    · rw [if_neg hik] at hi; exact absurd hi (by simp)
  · rintro ⟨i, hik, hlen, hj⟩
    refine ⟨i, ?_⟩
    rw [List.getElem?_take, if_pos hik, List.getElem?_drop, getElem?_eq_some_rd v _ hlen, hj]

/-- The identifiers copied by `reorderToMaxCategory(n)` are exactly those of the
live items in categories above `n`. -/
theorem mem_temp_iff {s : CRepository T} (h : Inv s) {n : Nat} (hn : n + 1 ≤ s.C_) (j : Nat) :
    j ∈ (s.ids_.drop (rd s.offset_ (n + 1))).take (rd s.offset_ s.C_ - rd s.offset_ (n + 1)) ↔
      j < s.N_ ∧ n < category s j ∧ category s j < s.C_ := by
  rw [mem_drop_take]
  have hmono := h.tiling.off_mono s.C_ (n + 1) hn (Nat.le_refl _)
  have hCN := h.tiling.off_le_N s.C_ (Nat.le_refl _)
  constructor
  · rintro ⟨i, hi, _, hj⟩
    have hp : rd s.offset_ (n + 1) + i < s.N_ := by omega
    obtain ⟨b1, b2⟩ := h.bij.ids_nums _ hp
    rw [hj] at b1 b2
    have hin := (category_eq_iff h.bij h.tiling b1 (category s j)).mp rfl
    rw [b2] at hin
    have hlive := (hin.lt_pool_iff h.tiling).mp (by omega)
    refine ⟨b1, ?_, hlive⟩
    by_contra hc
    have hle : category s j ≤ n := Nat.le_of_not_lt hc
    have := h.tiling.off_succ _ hlive
    have := h.tiling.off_mono (n + 1) (category s j + 1) (by omega) hn
    have := hin.2.2
    omega
  · rintro ⟨hj, hlt, hlive⟩
    obtain ⟨b1, b2⟩ := h.bij.nums_ids j hj
    have hin := (category_eq_iff h.bij h.tiling hj (category s j)).mp rfl
    have hpool := (hin.lt_pool_iff h.tiling).mpr hlive
    have := h.tiling.off_mono (category s j) (n + 1) (by omega) hin.1
    have := hin.2.1
    refine ⟨rd s.nums_ j - rd s.offset_ (n + 1), by omega, ?_, ?_⟩
    · rw [h.bij.len_ids]; omega
    · have e : rd s.offset_ (n + 1) + (rd s.nums_ j - rd s.offset_ (n + 1)) = rd s.nums_ j := by
        omega
      rw [e]; exact b2

/-- After `reorderToMaxCategory(n)` every live item is in the smaller of its old
category and `n`, pool positions stay in the pool, and nothing else changes. -/
theorem reorderToMaxCategory_spec {s : CRepository T} (h : Inv s) (n : Nat) :
    Inv (reorderToMaxCategory s n) ∧
    (reorderToMaxCategory s n).C_ = s.C_ ∧ (reorderToMaxCategory s n).N_ = s.N_ ∧
    (reorderToMaxCategory s n).nStored_ = s.nStored_ ∧
    (reorderToMaxCategory s n).items_ = s.items_ ∧
    (reorderToMaxCategory s n).minID_ = s.minID_ ∧
    (reorderToMaxCategory s n).maxID_ = s.maxID_ ∧
    (reorderToMaxCategory s n).enlargeFactor_ = s.enlargeFactor_ ∧
    (∀ j, j < s.N_ → ∀ c, InCat s (rd s.nums_ j) c →
      InCat (reorderToMaxCategory s n) (rd (reorderToMaxCategory s n).nums_ j)
        (if c < s.C_ then min c n else c)) := by
  unfold reorderToMaxCategory
  by_cases hge : n ≥ s.C_ - 1
  · rw [if_pos hge]
    refine ⟨h, rfl, rfl, rfl, rfl, rfl, rfl, rfl, ?_⟩
    intro j _ c hc
    by_cases hlt : c < s.C_
    · rw [if_pos hlt, Nat.min_eq_left (by omega)]; exact hc
    · rw [if_neg hlt]; exact hc
  · rw [if_neg hge]
    have hn1 : n + 1 ≤ s.C_ := by omega
    have hmem := mem_temp_iff h hn1
    obtain ⟨a1, a2, a3, a4, a5, a6, a7, a8, a9, a10⟩ := reorder_fold n
      ((s.ids_.drop (rd s.offset_ (n + 1))).take (rd s.offset_ s.C_ - rd s.offset_ (n + 1)))
      s h (by omega) (fun it hit => by
        obtain ⟨b1, b2, b3⟩ := (hmem it).mp hit
        exact ⟨b1, Nat.le_of_lt b2, b3⟩)
    refine ⟨a1, a2, a3, a4, a5, a6, a7, a8, ?_⟩
    intro j hj c hc
    have hcat := (category_eq_iff h.bij h.tiling hj c).mpr hc
    by_cases hlt : c < s.C_
    · rw [if_pos hlt]
      by_cases hcn : c ≤ n
      · rw [Nat.min_eq_left hcn]
        refine a10 j hj ?_ c hc
        intro hm
        have := ((hmem j).mp hm).2.1
        omega
      · rw [Nat.min_eq_right (by omega)]
        exact a9 j ((hmem j).mpr ⟨hj, by omega, by omega⟩)
    · rw [if_neg hlt]
      refine a10 j hj ?_ c hc
      intro hm
      have := ((hmem j).mp hm).2.2
      omega

/-! ## `setNumberOfCategories` -/

/-- Across a run of empty categories the offsets are constant. -/
theorem Tiling.off_const {s : CRepository T} (h : Tiling s) {m : Nat}
    (hz : ∀ c, m ≤ c → c < s.C_ → rd s.count_ c = 0) :
    ∀ k, m + k ≤ s.C_ → rd s.offset_ (m + k) = rd s.offset_ m := by
  intro k
  induction k with
  | zero => intro _; rfl
  | succ k ih =>
    intro hk
    have := h.off_succ (m + k) (by omega)
    have := hz (m + k) (by omega) (by omega)
    have := ih (by omega)
    have e : m + (k + 1) = m + k + 1 := by omega
    rw [e]; omega

/-- The table updates at the end of `setNumberOfCategories(m)`, applied to a
state whose live items are all in categories below `m`. -/
theorem retable_spec {s1 : CRepository T} (h : Inv s1) {m : Nat} (hm : 0 < m)
    (hz : ∀ c, m ≤ c → c < s1.C_ → rd s1.count_ c = 0) (s' : CRepository T)
    (eN : s'.N_ = s1.N_) (eS : s'.nStored_ = s1.nStored_) (en : s'.nums_ = s1.nums_)
    (ei : s'.ids_ = s1.ids_) (et : s'.items_ = s1.items_) (eC : s'.C_ = m)
    (ec : s'.count_ =
      (((resize s1.count_ (m + 1) 0).set s1.C_ 0).set m (rd s1.count_ s1.C_)))
    (eo : s'.offset_ =
      (resize s1.offset_ (m + 1) (rd s1.offset_ s1.C_)).set m (rd s1.offset_ s1.C_)) :
    Inv s' ∧ (∀ p c, InCat s1 p c →
      (c < s1.C_ → c < m → InCat s' p c) ∧ (c = s1.C_ → InCat s' p m)) := by
  have hcm : rd s'.count_ m = rd s1.count_ s1.C_ := by
    rw [ec, rd_set_eq _ _ _ (by rw [List.length_set, length_resize]; omega)]
  have hcl : ∀ c, c < m → rd s'.count_ c = if c < s1.C_ then rd s1.count_ c else 0 := by
    intro c hc
    rw [ec, rd_set_ne _ _ _ _ (by omega : m ≠ c), rd_set, length_resize,
      rd_resize _ _ _ _ (by omega : c < m + 1), h.tiling.len_count]
    by_cases e1 : s1.C_ = c
    · rw [if_pos ⟨e1, by omega⟩, if_neg (by omega)]
    · rw [if_neg (fun hh => e1 hh.1)]
      by_cases e2 : c < s1.C_
      · rw [if_pos (by omega), if_pos e2]
      · rw [if_neg (by omega), if_neg e2]
  have hom : rd s'.offset_ m = rd s1.offset_ s1.C_ := by
    rw [eo, rd_set_eq _ _ _ (by rw [length_resize]; omega)]
  have hol : ∀ c, c < m → rd s'.offset_ c =
      if c ≤ s1.C_ then rd s1.offset_ c else rd s1.offset_ s1.C_ := by
    intro c hc
    rw [eo, rd_set_ne _ _ _ _ (by omega : m ≠ c), rd_resize _ _ _ _ (by omega : c < m + 1),
      h.tiling.len_offset]
    by_cases e2 : c ≤ s1.C_
    · rw [if_pos (by omega), if_pos e2]
    · rw [if_neg (by omega), if_neg e2]
  have hconst : m ≤ s1.C_ → rd s1.offset_ s1.C_ = rd s1.offset_ m := by
    intro hle
    have := h.tiling.off_const hz (s1.C_ - m) (by omega)
    have e : m + (s1.C_ - m) = s1.C_ := by omega
    rw [e] at this; exact this
  have ht' : Tiling s' := by
    refine ⟨?_, ?_, ?_, ?_, ?_⟩
    · rw [ec, eC]; simp [length_resize]
    · rw [eo, eC]; simp [length_resize]
    · rw [hol 0 hm, if_pos (Nat.zero_le _)]; exact h.tiling.off_zero
    · intro c hc
      rw [eC] at hc
      rw [hol c hc, hcl c hc]
      have hR : (if c ≤ s1.C_ then rd s1.offset_ c else rd s1.offset_ s1.C_) +
          (if c < s1.C_ then rd s1.count_ c else 0) =
          if c < s1.C_ then rd s1.offset_ (c + 1) else rd s1.offset_ s1.C_ := by
        by_cases e1 : c < s1.C_
        · rw [if_pos (by omega), if_pos e1, if_pos e1]
          exact (h.tiling.off_succ c e1).symm
        · rw [if_neg e1, if_neg e1]
          by_cases e2 : c ≤ s1.C_
          · have : c = s1.C_ := by omega
            rw [if_pos e2, this]; rfl
          · rw [if_neg e2]; rfl
      rw [hR]
      by_cases e3 : c + 1 < m
      · rw [hol (c + 1) e3]
        by_cases e1 : c < s1.C_
        · rw [if_pos (by omega), if_pos e1]
        · rw [if_neg (by omega), if_neg e1]
      · have e4 : c + 1 = m := by omega
        rw [e4, hom]
        by_cases e1 : c < s1.C_
        · rw [if_pos e1, ← e4] 
          have := hconst (by omega)
          rw [← e4] at this
          exact this
        · rw [if_neg e1]
    · rw [eC, eN, hom, hcm]; exact h.tiling.off_last
  have hI' : Inv s' :=
    ⟨h.bij.congr_bij eN ei en (by rw [et]), ht', by rw [eS, eC, hom]; exact h.stored,
      by rw [eC]; exact hm⟩
  refine ⟨hI', ?_⟩
  intro p c hc
  constructor
  · intro h1 h2
    refine ⟨by rw [eC]; omega, ?_, ?_⟩
    · rw [hol c h2, if_pos (by omega)]; exact hc.2.1
    · rw [hol c h2, hcl c h2, if_pos (by omega), if_pos h1]; exact hc.2.2
  · intro h1
    subst h1
    refine ⟨by rw [eC], ?_, ?_⟩
    · rw [hom]; exact hc.2.1
    · rw [hom, hcm]; exact hc.2.2

/-- After `setNumberOfCategories(m)` with `m ≥ 1` there are `m` categories, every
live item is in the smaller of its old category and `m - 1`, and the erased
pool is category `m`. -/
theorem setNumberOfCategories_spec {s : CRepository T} (h : Inv s) {m : Nat} (hm : 0 < m) :
    Inv (setNumberOfCategories s m) ∧ (setNumberOfCategories s m).C_ = m ∧
    (setNumberOfCategories s m).N_ = s.N_ ∧
    (setNumberOfCategories s m).nStored_ = s.nStored_ ∧
    (setNumberOfCategories s m).items_ = s.items_ ∧
    (setNumberOfCategories s m).minID_ = s.minID_ ∧
    (setNumberOfCategories s m).maxID_ = s.maxID_ ∧
    (setNumberOfCategories s m).enlargeFactor_ = s.enlargeFactor_ ∧
    (∀ j, j < s.N_ → ∀ c, InCat s (rd s.nums_ j) c →
      InCat (setNumberOfCategories s m) (rd (setNumberOfCategories s m).nums_ j)
        (if c < s.C_ then min c (m - 1) else m)) := by
  have key : ∀ s1 : CRepository T,
      s1 = (if s.nStored_ > 0 then reorderToMaxCategory s (m - 1) else s) →
      setNumberOfCategories s m = { s1 with
        C_ := m,
        count_ := (((resize s1.count_ (m + 1) 0).set s1.C_ 0).set m (rd s1.count_ s1.C_)),
        offset_ := (resize s1.offset_ (m + 1) (rd s1.offset_ s1.C_)).set m
          (rd s1.offset_ s1.C_) } := by
    intro s1 hs1
    unfold setNumberOfCategories
    rw [if_neg (by omega : ¬ m = 0), ← hs1]
  have hs1 : ∀ s1 : CRepository T,
      s1 = (if s.nStored_ > 0 then reorderToMaxCategory s (m - 1) else s) →
      Inv s1 ∧ s1.C_ = s.C_ ∧ s1.N_ = s.N_ ∧ s1.nStored_ = s.nStored_ ∧ s1.items_ = s.items_ ∧
      s1.minID_ = s.minID_ ∧ s1.maxID_ = s.maxID_ ∧ s1.enlargeFactor_ = s.enlargeFactor_ ∧
      (∀ j, j < s.N_ → ∀ c, InCat s (rd s.nums_ j) c →
        InCat s1 (rd s1.nums_ j) (if c < s.C_ then min c (m - 1) else c)) := by
    intro s1 e
    by_cases hpos : s.nStored_ > 0
    · rw [if_pos hpos] at e
      rw [e]; exact reorderToMaxCategory_spec h (m - 1)
    · rw [if_neg hpos] at e
      rw [e]
      refine ⟨h, rfl, rfl, rfl, rfl, rfl, rfl, rfl, ?_⟩
      intro j _ c hc
      by_cases hlt : c < s.C_
      · have := (hc.lt_pool_iff h.tiling).mpr hlt
        have := h.stored
        omega
      · rw [if_neg hlt]; exact hc
  generalize hg : (if s.nStored_ > 0 then reorderToMaxCategory s (m - 1) else s) = s1
  have k := key s1 hg.symm
  obtain ⟨hI1, eC1, eN1, eS1, et1, emin, emax, eef, hmap⟩ := hs1 s1 hg.symm
  have hz : ∀ c, m ≤ c → c < s1.C_ → rd s1.count_ c = 0 := by
    intro c hc1 hc2
    by_contra hne
    have hin : InCat s1 (rd s1.offset_ c) c := ⟨by omega, Nat.le_refl _, by omega⟩
    have hp := hin.lt_N hI1.tiling
    obtain ⟨b1, b2⟩ := hI1.bij.ids_nums _ hp
    rw [eN1] at b1
    have h0 := (category_eq_iff h.bij h.tiling b1 _).mp rfl
    have h1 := hmap _ b1 _ h0
    rw [b2] at h1
    have := InCat.unique hI1.tiling hin h1
    by_cases hlt : category s (rd s1.ids_ (rd s1.offset_ c)) < s.C_
    · rw [if_pos hlt] at this
      have := Nat.min_le_right (category s (rd s1.ids_ (rd s1.offset_ c))) (m - 1)
      omega
    · rw [if_neg hlt] at this
      omega
  rw [k]
  obtain ⟨hI', hcat⟩ := retable_spec hI1 hm hz
    { s1 with
        C_ := m,
        count_ := (((resize s1.count_ (m + 1) 0).set s1.C_ 0).set m (rd s1.count_ s1.C_)),
        offset_ := (resize s1.offset_ (m + 1) (rd s1.offset_ s1.C_)).set m
          (rd s1.offset_ s1.C_) } rfl rfl rfl rfl rfl rfl rfl rfl
  refine ⟨hI', rfl, eN1, eS1, et1, emin, emax, eef, ?_⟩
  intro j hj c hc
  have h1 := hmap j hj c hc
  by_cases hlt : c < s.C_
  · rw [if_pos hlt] at h1 ⊢
    have a1 := Nat.min_le_left c (m - 1)
    have a2 := Nat.min_le_right c (m - 1)
    exact (hcat _ _ h1).1 (by omega) (by omega)
  · rw [if_neg hlt] at h1 ⊢
    have := hc.1
    exact (hcat _ _ h1).2 (by omega)

/-! ## Every reachable state satisfies the invariant -/

theorem reachable_inv [Inhabited T] {E : Env} {s : CRepository T} (h : Reachable E s) :
    Inv s := by
  induction h with
  | construct0 => exact construct0_inv
  | construct1 cat hc => exact construct_inv cat 100 hc
  | construct cat n hc => exact construct_inv cat n hc
  | insert itm cat id _ hcat hins ih => exact (insert_spec ih hcat hins).1
  | erase id _ hv ih => exact (erase_spec ih hv).1
  | setCategory id cat _ hv hcat ih => exact (setCategory_spec ih hv hcat).1
  | @setNumberOfCategories s n _ ih =>
    by_cases hn : n = 0
    · subst hn
      have : setNumberOfCategories s 0 = s := by unfold setNumberOfCategories; rfl
      rw [this]; exact ih
    · exact (setNumberOfCategories_spec ih (Nat.pos_of_ne_zero hn)).1
  | clear _ ih => exact clear_inv _ ih.cpos
  | setEnlargeFactor val _ ih => exact setEnlargeFactor_inv ih val

theorem full4_reachable : Reachable env64 full4 := by
  have h0 : Reachable env64 (construct 3 4 : CRepository Nat) := Reachable.construct 3 4 (by decide)
  have h1 := Reachable.insert 10 0 0 h0 (by decide) rfl
  have h2 := Reachable.insert 11 1 1 h1 (by decide) rfl
  have h3 := Reachable.insert 12 2 2 h2 (by decide) rfl
  exact Reachable.insert 13 1 3 h3 (by decide) rfl

/-! ## The invariants of the specification -/

/-- C1 (bijection invariant): in every reachable state `ids_` and `nums_` have
`N_` entries and are mutually inverse on `[0, N_)`: `nums_[ids_[p]] = p` for
every position `p < N_` and `ids_[nums_[i]] = i` for every identifier `i < N_`,
all entries lying below `N_`. -/
theorem bijection_invariant [Inhabited T] (E : Env) (s : CRepository T) (h : Reachable E s) :
    s.ids_.length = capacity s ∧ s.nums_.length = capacity s ∧
    (∀ p, p < capacity s → rd s.ids_ p < capacity s ∧ rd s.nums_ (rd s.ids_ p) = p) ∧
    (∀ i, i < capacity s → rd s.nums_ i < capacity s ∧ rd s.ids_ (rd s.nums_ i) = i) :=
  ⟨(reachable_inv h).bij.len_ids, (reachable_inv h).bij.len_nums,
   (reachable_inv h).bij.ids_nums, (reachable_inv h).bij.nums_ids⟩

theorem bijection_invariant_witness :
    full4.ids_.length = capacity full4 ∧ full4.nums_.length = capacity full4 ∧
    (rd full4.ids_ 2 < capacity full4 ∧ rd full4.nums_ (rd full4.ids_ 2) = 2) ∧
    (rd full4.nums_ 3 < capacity full4 ∧ rd full4.ids_ (rd full4.nums_ 3) = 3) :=
  have h := bijection_invariant env64 full4 full4_reachable
  ⟨h.1, h.2.1, h.2.2.1 2 (by decide), h.2.2.2 3 (by decide)⟩

/-- C2 (partition tiling invariant): in every reachable state `offset_[0] = 0`,
`offset_[c+1] = offset_[c] + count_[c]` for every `c < C_`, both tables have
`C_ + 1` entries, and the counts of all `C_ + 1` ranges add up to `N_`. -/
theorem tiling_invariant [Inhabited T] (E : Env) (s : CRepository T) (h : Reachable E s) :
    rd s.offset_ 0 = 0 ∧
    (∀ c, c < numberOfCategories s → rd s.offset_ (c + 1) = rd s.offset_ c + countOf s c) ∧
    s.count_.length = numberOfCategories s + 1 ∧ s.offset_.length = numberOfCategories s + 1 ∧
    s.count_.sum = capacity s :=
  ⟨(reachable_inv h).tiling.off_zero, (reachable_inv h).tiling.off_succ,
   (reachable_inv h).tiling.len_count, (reachable_inv h).tiling.len_offset,
   (reachable_inv h).tiling.sum_count⟩

theorem tiling_invariant_witness :
    rd full4.offset_ 0 = 0 ∧
    rd full4.offset_ (1 + 1) = rd full4.offset_ 1 + countOf full4 1 ∧
    full4.count_.length = numberOfCategories full4 + 1 ∧
    full4.offset_.length = numberOfCategories full4 + 1 ∧
    full4.count_.sum = capacity full4 :=
  have h := tiling_invariant env64 full4 full4_reachable
  ⟨h.1, h.2.1 1 (by decide), h.2.2⟩

/-- C3 (stored-count invariant): in every reachable state `count()` is the sum
of the counts of the live categories and equals `offset_[C_]`, and the erased
pool is the range from `count()` to `N_`. -/
theorem stored_count_invariant [Inhabited T] (E : Env) (s : CRepository T)
    (h : Reachable E s) :
    count s = (s.count_.take (numberOfCategories s)).sum ∧
    count s = rd s.offset_ (numberOfCategories s) ∧
    count s + countOf s (numberOfCategories s) = capacity s := by
  have hI := reachable_inv h
  refine ⟨?_, hI.stored, ?_⟩
  · show s.nStored_ = _
    rw [hI.stored]; exact hI.tiling.off_sum_take s.C_ (Nat.le_refl _)
  · show s.nStored_ + rd s.count_ s.C_ = s.N_
    rw [hI.stored]; exact hI.tiling.off_last

theorem stored_count_invariant_witness :
    count full4 = (full4.count_.take (numberOfCategories full4)).sum ∧
    count full4 = rd full4.offset_ (numberOfCategories full4) ∧
    count full4 + countOf full4 (numberOfCategories full4) = capacity full4 :=
  stored_count_invariant env64 full4 full4_reachable

/-! ## Operations -/

/-- C4 (insert round-trip): when `insert(v, c)` with `c < C_` succeeds on a
reachable state and returns `id`, then in the new state `valid(id)` holds,
`category(id) = c` and `item(id) = v`; the statement covers the insert that
reuses a pool position and the one that first grows the store. -/
theorem insert_roundtrip [Inhabited T] (E : Env) (s s' : CRepository T) (v : T) (c id : Nat)
    (h : Reachable E s) (hc : c < numberOfCategories s)
    (hins : insert E s v c = some (s', id)) :
    valid s' id = true ∧ category s' id = c ∧ item s' id = v := by
  obtain ⟨_, _, _, h4, h5, h6, _⟩ := insert_spec (reachable_inv h) hc hins
  exact ⟨h4, h5, h6⟩

/-- C5 (erase-then-invalid): after `erase(id)` of a valid identifier of a
reachable state, `valid(id)` is false, `count()` is one less, and the count of
the category `id` was in is one less. -/
theorem erase_then_invalid [Inhabited T] (E : Env) (s : CRepository T) (id : Nat)
    (h : Reachable E s) (hv : valid s id = true) :
    valid (erase s id) id = false ∧ count (erase s id) + 1 = count s ∧
    countOf (erase s id) (category s id) + 1 = countOf s (category s id) := by
  have hI := reachable_inv h
  obtain ⟨_, _, h3, h4, _, _, _, h8⟩ := erase_spec hI hv
  refine ⟨h3, h4, ?_⟩
  have := h8 (category s id)
  have hlt := hI.valid_category_lt hv
  rw [if_pos rfl, if_neg (by omega)] at this
  exact this

/-- C6 (`setCategory` postcondition): after `setCategory(id, cat)` on a valid
identifier of a reachable state with `cat < C_`, `category(id) = cat`, `id` is
valid, `count()`, the capacity and the number of categories are unchanged,
every other identifier keeps its validity and, when valid, its category, the
records are unchanged, and when the old category differs from `cat` its count
drops by one and the count of `cat` rises by one. -/
theorem setCategory_post [Inhabited T] (E : Env) (s : CRepository T) (id cat : Nat)
    (h : Reachable E s) (hv : valid s id = true) (hcat : cat < numberOfCategories s) :
    category (setCategory s id cat) id = cat ∧ valid (setCategory s id cat) id = true ∧
    count (setCategory s id cat) = count s ∧
    capacity (setCategory s id cat) = capacity s ∧
    numberOfCategories (setCategory s id cat) = numberOfCategories s ∧
    (∀ j, j ≠ id → valid (setCategory s id cat) j = valid s j) ∧
    (∀ j, j ≠ id → valid s j = true → category (setCategory s id cat) j = category s j) ∧
    (setCategory s id cat).items_ = s.items_ ∧
    (category s id ≠ cat →
      countOf (setCategory s id cat) (category s id) + 1 = countOf s (category s id) ∧
      countOf (setCategory s id cat) cat = countOf s cat + 1) := by
  have hI := reachable_inv h
  obtain ⟨hI', hm, h3, h4, h5⟩ := setCategory_spec hI hv hcat
  refine ⟨h3, h4, hm.nStored_eq, hm.N_eq, hm.C_eq, ?_, ?_, hm.items_eq, ?_⟩
  · intro j hj; exact hm.kept.valid_eq hI hI' hj
  · intro j hj hvj
    exact hm.cat_eq hI.bij hI.tiling hI'.bij hI'.tiling ((valid_iff s j).mp hvj).1 hj
  · intro hne
    constructor
    · have := h5 (category s id)
      rw [if_pos rfl, if_neg hne] at this
      exact this
    · have := h5 cat
      rw [if_neg (Ne.symm hne), if_pos rfl] at this
      exact this

/-- C7 (reassignment idempotence): on a reachable state, for a valid `id` and
`c < C_`, calling `setCategory(id, c)` twice gives the same complete state as
calling it once. -/
theorem setCategory_idempotent [Inhabited T] (E : Env) (s : CRepository T) (id c : Nat)
    (h : Reachable E s) (hv : valid s id = true) (hc : c < numberOfCategories s) :
    setCategory (setCategory s id c) id c = setCategory s id c := by
  obtain ⟨_, _, h3, _, _⟩ := setCategory_spec (reachable_inv h) hv hc
  have e : categoryAt (setCategory s id c) (rd (setCategory s id c).nums_ id) = c := h3
  have : setCategory (setCategory s id c) id c =
      decreaseCat (setCategory s id c) (rd (setCategory s id c).nums_ id) c := by
    show setCategoryAt (setCategory s id c) (rd (setCategory s id c).nums_ id) c = _
    unfold setCategoryAt
    rw [if_neg (by rw [e]; exact Nat.lt_irrefl c)]
  rw [this]
  have k := decreaseCat_same (setCategory s id c) (rd (setCategory s id c).nums_ id)
  rw [e] at k
  exact k

/-- C8 (growth preserves data): when a reachable state is full and `insert(v, c)`
with `c < C_` succeeds, the capacity has grown and every identifier that was
valid before is still valid, with the same category and the same record. -/
theorem growth_preserves_data [Inhabited T] (E : Env) (s s' : CRepository T) (v : T)
    (c id : Nat) (h : Reachable E s) (hfull : count s = capacity s)
    (hc : c < numberOfCategories s) (hins : insert E s v c = some (s', id)) :
    capacity s < capacity s' ∧
    ∀ j, valid s j = true →
      valid s' j = true ∧ category s' j = category s j ∧ item s' j = item s j := by
  have hI := reachable_inv h
  obtain ⟨hI', hk, h3, _, _, _, h7, h8, _, _⟩ := insert_spec hI hc hins
  constructor
  · have := hI'.nStored_le
    show s.N_ < s'.N_
    have e : s.nStored_ = s.N_ := hfull
    omega
  · intro j hj
    have hne : j ≠ id := by
      intro e; rw [e, h3] at hj; exact absurd hj (by simp)
    refine ⟨by rw [hk.valid_eq hI hI' hne]; exact hj, ?_, h8 j hne⟩
    exact hk.category_eq hI.bij hI.tiling hI'.bij hI'.tiling ((valid_iff s j).mp hj).1 hne

/-- C9 (category-count change): after `setNumberOfCategories(n)` with `n ≥ 1` on
a reachable state there are `n` categories, `count()` and the capacity are
unchanged, and every identifier that was valid is still valid with the same
record and with category `min(oldCategory, n - 1)`. -/
theorem setNumberOfCategories_post [Inhabited T] (E : Env) (s : CRepository T) (n : Nat)
    (h : Reachable E s) (hn : 1 ≤ n) :
    numberOfCategories (setNumberOfCategories s n) = n ∧
    count (setNumberOfCategories s n) = count s ∧
    capacity (setNumberOfCategories s n) = capacity s ∧
    ∀ j, valid s j = true →
      valid (setNumberOfCategories s n) j = true ∧
      item (setNumberOfCategories s n) j = item s j ∧
      category (setNumberOfCategories s n) j = min (category s j) (n - 1) := by
  have hI := reachable_inv h
  obtain ⟨hI', eC, eN, eS, et, _, _, _, hmap⟩ := setNumberOfCategories_spec hI hn
  refine ⟨eC, eS, eN, ?_⟩
  intro j hj
  have hjN := ((valid_iff s j).mp hj).1
  have hlive := hI.valid_category_lt hj
  have hin := (category_eq_iff hI.bij hI.tiling hjN _).mp rfl
  have hin' := hmap j hjN _ hin
  rw [if_pos hlive] at hin'
  have hjN' : j < (setNumberOfCategories s n).N_ := by rw [eN]; exact hjN
  have hcat := (category_eq_iff hI'.bij hI'.tiling hjN' _).mpr hin'
  refine ⟨?_, item_eq_of_items et j, hcat⟩
  rw [hI'.valid_iff_category hjN', hcat, eC]
  have := Nat.min_le_right (category s j) (n - 1)
  omega

/-! ## Sample runs of the operations -/

theorem one10_reachable : Reachable env64 one10 :=
  Reachable.insert 5 3 0 (Reachable.construct 4 10 (by decide)) (by decide) rfl

theorem reinserted_reachable : Reachable env64 reinserted := by
  have h0 : Reachable env64 (construct 1 4 : CRepository Nat) := Reachable.construct 1 4 (by decide)
  have h1 := Reachable.insert 7 0 0 h0 (by decide) rfl
  have h2 := Reachable.insert 8 0 1 h1 (by decide) rfl
  have h3 := Reachable.erase 0 h2 (by decide)
  have h4 := Reachable.erase 1 h3 (by decide)
  exact Reachable.insert 9 0 1 h4 (by decide) rfl

theorem insert_roundtrip_witness :
    insert env64 full4 14 2 = some (grown8, 4) ∧
    valid grown8 4 = true ∧ category grown8 4 = 2 ∧ item grown8 4 = 14 :=
  ⟨rfl, insert_roundtrip env64 full4 grown8 14 2 4 full4_reachable (by decide) rfl⟩

theorem erase_then_invalid_witness :
    valid full4 1 = true ∧ valid (erase full4 1) 1 = false ∧
    count (erase full4 1) + 1 = count full4 ∧
    countOf (erase full4 1) (category full4 1) + 1 = countOf full4 (category full4 1) :=
  ⟨by decide, erase_then_invalid env64 full4 1 full4_reachable (by decide)⟩

theorem setCategory_post_witness :
    category (setCategory full4 0 2) 0 = 2 ∧ valid (setCategory full4 0 2) 0 = true ∧
    count (setCategory full4 0 2) = count full4 ∧
    (setCategory full4 0 2).items_ = full4.items_ ∧
    countOf (setCategory full4 0 2) 0 + 1 = countOf full4 0 ∧
    countOf (setCategory full4 0 2) 2 = countOf full4 2 + 1 :=
  have h := setCategory_post env64 full4 0 2 full4_reachable (by decide) (by decide)
  ⟨h.1, h.2.1, h.2.2.1, h.2.2.2.2.2.2.2.1, h.2.2.2.2.2.2.2.2 (by decide)⟩

theorem setCategory_idempotent_witness :
    setCategory (setCategory full4 3 0) 3 0 = setCategory full4 3 0 :=
  setCategory_idempotent env64 full4 3 0 full4_reachable (by decide) (by decide)

theorem growth_preserves_data_witness :
    count full4 = capacity full4 ∧ capacity full4 < capacity grown8 ∧
    valid grown8 3 = true ∧ category grown8 3 = category full4 3 ∧
    item grown8 3 = item full4 3 :=
  have h := growth_preserves_data env64 full4 grown8 14 2 4 full4_reachable rfl (by decide) rfl
  ⟨rfl, h.1, h.2 3 (by decide)⟩

theorem setNumberOfCategories_post_witness :
    category one10 0 = 3 ∧ numberOfCategories (setNumberOfCategories one10 2) = 2 ∧
    valid (setNumberOfCategories one10 2) 0 = true ∧
    category (setNumberOfCategories one10 2) 0 = 1 :=
  have h := setNumberOfCategories_post env64 one10 2 one10_reachable (by decide)
  ⟨by decide, h.1, (h.2.2.2 0 (by decide)).1, (h.2.2.2 0 (by decide)).2.2⟩

/-- C10 (identifier-range invariant), failing run: after `construct(1, 4)`,
`insert(7)`, `insert(8)`, `erase(0)`, `erase(1)` and `insert(9)` the store holds
one item, whose identifier is `1`, while `minID()` is `0`, an identifier that is
not valid: `updateMinMaxID` only lowers `minID_`, and it was reset to `0` when
the store became empty. -/
theorem minID_stale_after_reinsert :
    Reachable env64 reinserted ∧ count reinserted = 1 ∧ valid reinserted 1 = true ∧
    minID reinserted = 0 ∧ valid reinserted (minID reinserted) = false ∧
    maxID reinserted = 1 :=
  ⟨reinserted_reachable, rfl, by decide, rfl, by decide, rfl⟩

/-! ## The identifier bounds -/

/-- The forward scan of `updateMinID` stops at the smallest valid identifier. -/
theorem minIDLoop_spec (s : CRepository T) (hex : ∃ i, valid s i = true) :
    ∀ k m, (∀ i, i < m → valid s i = false) → s.N_ ≤ m + k →
      valid s (minIDLoop s k m) = true ∧ ∀ i, valid s i = true → minIDLoop s k m ≤ i := by
  intro k
  induction k with
  | zero =>
    intro m hm hN
    obtain ⟨i, hi⟩ := hex
    have h1 := ((valid_iff s i).mp hi).1
    have h2 := hm i (by omega)
    rw [hi] at h2; exact absurd h2 (by simp)
  | succ k ih =>
    intro m hm hN
    unfold minIDLoop
    by_cases hv : valid s m = true
    · rw [hv]
      simp only [Bool.not_true, Bool.false_and, Bool.false_eq_true, if_false]
      refine ⟨hv, ?_⟩
      intro i hi
      by_contra hlt
      have := hm i (by omega)
      rw [hi] at this; exact absurd this (by simp)
    · have hvf : valid s m = false := by
        cases h : valid s m
        · rfl
        · exact absurd h hv
      obtain ⟨i, hi⟩ := hex
      have h1 := ((valid_iff s i).mp hi).1
      have hmi : m ≤ i := by
        by_contra hlt
        have := hm i (by omega)
        rw [hi] at this; exact absurd this (by simp)
      have hne : m ≠ i := by
        intro e; rw [← e, hvf] at hi; exact absurd hi (by simp)
      have hmN : m < s.N_ := by omega
      rw [hvf]
      simp only [Bool.not_false, Bool.true_and, decide_eq_true_eq, hmN, if_true]
      apply ih (m + 1)
      · intro j hj
        by_cases e : j = m
        · rw [e]; exact hvf
        · exact hm j (by omega)
      · omega

/-- The backward scan of `updateMaxID` stops at the largest valid identifier. -/
theorem maxIDLoop_spec (s : CRepository T) :
    ∀ m, (∃ i, i ≤ m ∧ valid s i = true) →
      valid s (maxIDLoop s m) = true ∧ ∀ i, i ≤ m → valid s i = true → i ≤ maxIDLoop s m := by
  intro m
  induction m with
  | zero =>
    rintro ⟨i, hi, hv⟩
    have : i = 0 := by omega
    subst this
    exact ⟨hv, fun j hj _ => hj⟩
  | succ m ih =>
    rintro ⟨i, hi, hv⟩
    unfold maxIDLoop
    by_cases hm : valid s (m + 1) = true
    · rw [hm]
      simp only [Bool.not_true, Bool.false_eq_true, if_false]
      exact ⟨hm, fun j hj _ => hj⟩
    · have hmf : valid s (m + 1) = false := by
        cases h : valid s (m + 1)
        · rfl
        · exact absurd h hm
      rw [hmf]
      simp only [Bool.not_false, if_true]
      have hne : i ≠ m + 1 := by
        intro e; rw [e, hmf] at hv; exact absurd hv (by simp)
      obtain ⟨a1, a2⟩ := ih ⟨i, by omega, hv⟩
      refine ⟨a1, ?_⟩
      intro j hj hvj
      have : j ≠ m + 1 := by
        intro e; rw [e, hmf] at hvj; exact absurd hvj (by simp)
      exact a2 j (by omega) hvj

/-- A non-empty store has a valid identifier. -/
theorem Inv.exists_valid {s : CRepository T} (h : Inv s) (hpos : 0 < s.nStored_) :
    ∃ i, valid s i = true := by
  have hN : 0 < s.N_ := Nat.lt_of_lt_of_le hpos h.nStored_le
  obtain ⟨b1, b2⟩ := h.bij.ids_nums 0 hN
  exact ⟨rd s.ids_ 0, (valid_iff s _).mpr ⟨b1, by rw [b2]; exact hpos⟩⟩

theorem valid_congr {s s' : CRepository T} (hN : s'.N_ = s.N_) (hS : s'.nStored_ = s.nStored_)
    (hn : s'.nums_ = s.nums_) (i : Nat) : valid s' i = valid s i := by
  unfold valid; rw [hN, hS, hn]

theorem RangeInv.congr_range {s s' : CRepository T} (h : RangeInv s)
    (hv : ∀ i, valid s' i = valid s i) (hS : s'.nStored_ = s.nStored_)
    (hmin : s'.minID_ = s.minID_) (hmax : s'.maxID_ = s.maxID_) : RangeInv s' := by
  refine ⟨?_, ?_, ?_⟩
  · rw [hmin]
    rcases h.min_ok with h0 | ⟨h1, h2⟩
    · exact Or.inl h0
    · exact Or.inr ⟨by rw [hv]; exact h1, fun i hi => h2 i (by rw [← hv]; exact hi)⟩
  · rw [hS, hmax]; exact h.max_empty
  · rw [hS, hmax]
    intro hpos
    obtain ⟨h1, h2⟩ := h.max_ok hpos
    exact ⟨by rw [hv]; exact h1, fun i hi => h2 i (by rw [← hv]; exact hi)⟩

/-- An empty store has no valid identifier. -/
theorem not_valid_of_empty {s : CRepository T} (h : s.nStored_ = 0) (i : Nat) :
    valid s i = false := by
  cases hv : valid s i
  · rfl
  · have := ((valid_iff s i).mp hv).2
    omega

theorem init_range [Inhabited T] (s : CRepository T) : RangeInv (init s) := by
  obtain ⟨_, _, eS, emin, emax, _⟩ := init_spec s
  exact ⟨Or.inl emin, fun _ => emax, fun hpos => by rw [eS] at hpos; omega⟩

theorem minIDLoop_congr {s s' : CRepository T} (hN : s'.N_ = s.N_)
    (hv : ∀ i, valid s' i = valid s i) : ∀ k m, minIDLoop s' k m = minIDLoop s k m := by
  intro k
  induction k with
  | zero => intro m; rfl
  | succ k ih =>
    intro m
    unfold minIDLoop
    rw [hv m, hN, ih (m + 1)]

theorem maxIDLoop_congr {s s' : CRepository T} (hv : ∀ i, valid s' i = valid s i) :
    ∀ m, maxIDLoop s' m = maxIDLoop s m := by
  intro m
  induction m with
  | zero => rfl
  | succ m ih =>
    unfold maxIDLoop
    rw [hv (m + 1), ih]

theorem increaseStep_bounds (s : CRepository T) (mynum myid cls : Nat) :
    (increaseStep s mynum myid cls).1.minID_ = s.minID_ ∧
    (increaseStep s mynum myid cls).1.maxID_ = s.maxID_ := by
  obtain ⟨_, _, _, _, _, _, fmin, fmax, _⟩ :=
    swapIf_fields s mynum (rd s.offset_ cls + rd s.count_ cls - 1) myid
  exact ⟨fmin, fmax⟩

theorem decreaseStep_bounds (s : CRepository T) (mynum myid cls : Nat) :
    (decreaseStep s mynum myid cls).1.minID_ = s.minID_ ∧
    (decreaseStep s mynum myid cls).1.maxID_ = s.maxID_ := by
  obtain ⟨_, _, _, _, _, _, fmin, fmax, _⟩ := swapIf_fields s mynum (rd s.offset_ cls) myid
  exact ⟨fmin, fmax⟩

theorem increaseLoop_bounds (myid : Nat) : ∀ (k : Nat) (s : CRepository T) (mynum cls : Nat),
    (increaseLoop k s mynum myid cls).minID_ = s.minID_ ∧
    (increaseLoop k s mynum myid cls).maxID_ = s.maxID_ := by
  intro k
  induction k with
  | zero => intro s _ _; exact ⟨rfl, rfl⟩
  | succ k ih =>
    intro s mynum cls
    rw [increaseLoop_succ]
    obtain ⟨a1, a2⟩ := ih (increaseStep s mynum myid cls).1 (increaseStep s mynum myid cls).2
      (cls + 1)
    obtain ⟨b1, b2⟩ := increaseStep_bounds s mynum myid cls
    exact ⟨a1.trans b1, a2.trans b2⟩

theorem decreaseLoop_bounds (myid : Nat) : ∀ (k : Nat) (s : CRepository T) (mynum cls : Nat),
    (decreaseLoop k s mynum myid cls).minID_ = s.minID_ ∧
    (decreaseLoop k s mynum myid cls).maxID_ = s.maxID_ := by
  intro k
  induction k with
  | zero => intro s _ _; exact ⟨rfl, rfl⟩
  | succ k ih =>
    intro s mynum cls
    rw [decreaseLoop_succ]
    obtain ⟨a1, a2⟩ := ih (decreaseStep s mynum myid cls).1 (decreaseStep s mynum myid cls).2
      (cls - 1)
    obtain ⟨b1, b2⟩ := decreaseStep_bounds s mynum myid cls
    exact ⟨a1.trans b1, a2.trans b2⟩

/-- The identifier bounds after a successful `insert`: each bound moves to the
new identifier only when that extends the range. -/
theorem insert_bounds [Inhabited T] {E : Env} {s s' : CRepository T} {itm : T} {cat id : Nat}
    (hins : insert E s itm cat = some (s', id)) :
    s'.minID_ = (if id < s.minID_ then id else s.minID_) ∧
    s'.maxID_ = (if id > s.maxID_ then id else s.maxID_) := by
  obtain ⟨s1, s2, s3, hE, _, hs2, hs3, hs'⟩ := insert_some hins
  have h1 : s1.minID_ = s.minID_ ∧ s1.maxID_ = s.maxID_ := by
    by_cases hfull : rd s.offset_ s.C_ ≥ s.N_
    · rw [if_pos hfull] at hE
      obtain ⟨n1, _, e⟩ := enlarge_eq_some hE
      rw [e]; exact ⟨rfl, rfl⟩
    · rw [if_neg hfull] at hE
      rw [← Option.some.inj hE]; exact ⟨rfl, rfl⟩
  have h2 : s2.minID_ = s1.minID_ ∧ s2.maxID_ = s1.maxID_ := by rw [hs2]; exact ⟨rfl, rfl⟩
  have h3 : s3.minID_ = s2.minID_ ∧ s3.maxID_ = s2.maxID_ := by
    rw [hs3]; exact decreaseLoop_bounds _ _ _ _ _
  have hmin : s3.minID_ = s.minID_ := (h3.1.trans h2.1).trans h1.1
  have hmax : s3.maxID_ = s.maxID_ := (h3.2.trans h2.2).trans h1.2
  rw [hs']
  unfold updateMinMaxID
  simp only [gt_iff_lt, Nat.succ_pos, if_true]
  by_cases c1 : id < s.minID_
  · by_cases c2 : s.maxID_ < id
    · simp [hmin, hmax, c1, c2]
    · simp [hmin, hmax, c1, c2]
  · by_cases c2 : s.maxID_ < id
    · simp [hmin, hmax, c1, c2]
    · simp [hmin, hmax, c1, c2]

/-- The identifier bounds after `erase(address_t n)`: a bound equal to the erased
identifier is recomputed by its scan (or reset to `0` in an empty store), the
other is kept. -/
theorem eraseAt_bounds [Inhabited T] (s : CRepository T) (n : Nat) :
    (eraseAt s n).minID_ =
      (if rd s.ids_ n = s.minID_ then
        (if (eraseAt s n).nStored_ > 0 then minIDLoop (eraseAt s n) (eraseAt s n).N_ 0 else 0)
       else s.minID_) ∧
    (eraseAt s n).maxID_ =
      (if rd s.ids_ n = s.maxID_ then
        (if (eraseAt s n).nStored_ > 0 then maxIDLoop (eraseAt s n) ((eraseAt s n).N_ - 1) else 0)
       else s.maxID_) := by
  obtain ⟨_, fN, fS, _, _, fnums, _, _, _⟩ := eraseAt_fields s n
  have key : ∀ s3 : CRepository T,
      s3 = { (increaseCat { s with items_ := s.items_.set (rd s.ids_ n) default } n s.C_) with
        nStored_ := (increaseCat { s with items_ := s.items_.set (rd s.ids_ n) default }
          n s.C_).nStored_ - 1 } →
      (eraseAt s n).minID_ =
        (if rd s.ids_ n = s.minID_ then (if s3.nStored_ > 0 then minIDLoop s3 s3.N_ 0 else 0)
         else s.minID_) ∧
      (eraseAt s n).maxID_ =
        (if rd s.ids_ n = s.maxID_ then
          (if s3.nStored_ > 0 then maxIDLoop s3 (s3.N_ - 1) else 0)
         else s.maxID_) ∧
      s3.N_ = (eraseAt s n).N_ ∧ s3.nStored_ = (eraseAt s n).nStored_ ∧
      s3.nums_ = (eraseAt s n).nums_ := by
    intro s3 hs3
    have b := increaseLoop_bounds (rd s.ids_ n)
      (s.C_ - categoryAt { s with items_ := s.items_.set (rd s.ids_ n) default } n)
      { s with items_ := s.items_.set (rd s.ids_ n) default } n
      (categoryAt { s with items_ := s.items_.set (rd s.ids_ n) default } n)
    have bmin : s3.minID_ = s.minID_ := by rw [hs3]; exact b.1
    have bmax : s3.maxID_ = s.maxID_ := by rw [hs3]; exact b.2
    have e : eraseAt s n =
        (if rd s.ids_ n = (if rd s.ids_ n = s3.minID_ then updateMinID s3 else s3).maxID_ then
          updateMaxID (if rd s.ids_ n = s3.minID_ then updateMinID s3 else s3)
         else (if rd s.ids_ n = s3.minID_ then updateMinID s3 else s3)) := by
      rw [hs3]; rfl
    have hm4 : (if rd s.ids_ n = s3.minID_ then updateMinID s3 else s3).maxID_ = s3.maxID_ := by
      unfold updateMinID; split_ifs <;> rfl
    rw [hm4] at e
    rw [bmin, bmax] at e
    refine ⟨?_, ?_, by rw [fN, hs3], by rw [fS, hs3], by rw [fnums, hs3]⟩
    · rw [e]
      unfold updateMinID updateMaxID
      split_ifs <;> first | rfl | exact bmin
    · rw [e]
      by_cases c1 : rd s.ids_ n = s.minID_
      · by_cases c2 : rd s.ids_ n = s.maxID_
        · rw [if_pos c1, if_pos c2, if_pos c2]
          unfold updateMinID updateMaxID
          by_cases c3 : s3.nStored_ > 0
          · rw [if_pos c3, if_pos c3, if_pos c3]
            exact @maxIDLoop_congr T s3 { s3 with minID_ := minIDLoop s3 s3.N_ 0 }
              (fun _ => rfl) (s3.N_ - 1)
          · rw [if_neg c3, if_neg c3, if_neg c3]
        · rw [if_pos c1, if_neg c2, if_neg c2]
          unfold updateMinID
          split_ifs <;> exact bmax
      · by_cases c2 : rd s.ids_ n = s.maxID_
        · rw [if_neg c1, if_pos c2, if_pos c2]
          unfold updateMaxID
          split_ifs <;> rfl
        · rw [if_neg c1, if_neg c2, if_neg c2]
          exact bmax
  obtain ⟨k1, k2, kN, kS, kn⟩ := key _ rfl
  have hv : ∀ i, valid (eraseAt s n) i = valid _ i := fun i =>
    valid_congr kN.symm kS.symm kn.symm i
  rw [minIDLoop_congr kN.symm hv, maxIDLoop_congr hv, ← kN, ← kS]
  exact ⟨k1, k2⟩

theorem valid_false_of_ne_true {s : CRepository T} {i : Nat} (h : ¬ valid s i = true) :
    valid s i = false := by
  cases hv : valid s i
  · rfl
  · exact absurd hv h

theorem insert_range [Inhabited T] {E : Env} {s s' : CRepository T} {itm : T} {cat id : Nat}
    (h : Inv s) (hr : RangeInv s) (hcat : cat < s.C_)
    (hins : insert E s itm cat = some (s', id)) : RangeInv s' := by
  obtain ⟨hI', hk, hvid, hvid', _, _, hS, _⟩ := insert_spec h hcat hins
  obtain ⟨bmin, bmax⟩ := insert_bounds hins
  have hveq : ∀ j, j ≠ id → valid s' j = valid s j := fun j hj => hk.valid_eq h hI' hj
  have hold : ∀ i, valid s' i = true → i ≠ id → valid s i = true := by
    intro i hi hne; rw [← hveq i hne]; exact hi
  refine ⟨?_, ?_, ?_⟩
  · rw [bmin]
    by_cases c1 : id < s.minID_
    · rw [if_pos c1]
      refine Or.inr ⟨hvid', ?_⟩
      intro i hi
      by_cases e : i = id
      · omega
      · rcases hr.min_ok with h0 | ⟨_, h2⟩
        · omega
        · have := h2 i (hold i hi e); omega
    · rw [if_neg c1]
      rcases hr.min_ok with h0 | ⟨h1, h2⟩
      · exact Or.inl h0
      · have hne : s.minID_ ≠ id := by
          intro e; rw [e, hvid] at h1; exact absurd h1 (by simp)
        refine Or.inr ⟨by rw [hveq _ hne]; exact h1, ?_⟩
        intro i hi
        by_cases e : i = id
        · omega
        · exact h2 i (hold i hi e)
  · intro h0; omega
  · intro _
    rw [bmax]
    by_cases hz : s.nStored_ = 0
    · have hmax := hr.max_empty hz
      have hid : (if id > s.maxID_ then id else s.maxID_) = id := by
        by_cases c : id > s.maxID_
        · rw [if_pos c]
        · rw [if_neg c]; omega
      rw [hid]
      refine ⟨hvid', ?_⟩
      intro i hi
      by_cases e : i = id
      · omega
      · have := hold i hi e
        rw [not_valid_of_empty hz i] at this
        exact absurd this (by simp)
    · obtain ⟨h1, h2⟩ := hr.max_ok (Nat.pos_of_ne_zero hz)
      have hne : s.maxID_ ≠ id := by
        intro e; rw [e, hvid] at h1; exact absurd h1 (by simp)
      by_cases c : id > s.maxID_
      · rw [if_pos c]
        refine ⟨hvid', ?_⟩
        intro i hi
        by_cases e : i = id
        · omega
        · have := h2 i (hold i hi e); omega
      · rw [if_neg c]
        refine ⟨by rw [hveq _ hne]; exact h1, ?_⟩
        intro i hi
        by_cases e : i = id
        · omega
        · exact h2 i (hold i hi e)

theorem erase_range [Inhabited T] {s : CRepository T} (h : Inv s) (hr : RangeInv s) {id : Nat}
    (hv : valid s id = true) : RangeInv (erase s id) := by
  obtain ⟨hI', hk, hvid', hS, hN, _⟩ := erase_spec h hv
  have hidN := ((valid_iff s id).mp hv).1
  have hidn : rd s.ids_ (rd s.nums_ id) = id := (h.bij.nums_ids id hidN).2
  have hb := eraseAt_bounds s (rd s.nums_ id)
  rw [hidn] at hb
  have he : eraseAt s (rd s.nums_ id) = erase s id := rfl
  rw [he] at hb
  obtain ⟨bmin, bmax⟩ := hb
  have hveq : ∀ j, j ≠ id → valid (erase s id) j = valid s j := fun j hj => hk.valid_eq h hI' hj
  have hold : ∀ i, valid (erase s id) i = true → valid s i = true := by
    intro i hi
    have hne : i ≠ id := by
      intro e; rw [e, hvid'] at hi; exact absurd hi (by simp)
    rw [← hveq i hne]; exact hi
  have hltN : ∀ i, valid (erase s id) i = true → i < (erase s id).N_ :=
    fun i hi => ((valid_iff _ i).mp hi).1
  refine ⟨?_, ?_, ?_⟩
  · rw [bmin]
    by_cases c : id = s.minID_
    · rw [if_pos c]
      by_cases hp : (erase s id).nStored_ > 0
      · rw [if_pos hp]
        exact Or.inr (minIDLoop_spec (erase s id) (hI'.exists_valid hp) _ 0
          (fun i hi => absurd hi (Nat.not_lt_zero i)) (by omega))
      · rw [if_neg hp]; exact Or.inl rfl
    · rw [if_neg c]
      rcases hr.min_ok with h0 | ⟨h1, h2⟩
      · exact Or.inl h0
      · refine Or.inr ⟨?_, fun i hi => h2 i (hold i hi)⟩
        have := hveq s.minID_ (Ne.symm c)
        rw [h1] at this; exact this
  · intro hz
    rw [bmax]
    by_cases c : id = s.maxID_
    · rw [if_pos c, if_neg (by omega)]
    · rw [if_neg c]
      obtain ⟨h1, _⟩ := hr.max_ok (by omega)
      have := hveq s.maxID_ (Ne.symm c)
      rw [h1, not_valid_of_empty hz] at this
      exact absurd this (by simp)
  · intro hp
    rw [bmax]
    by_cases c : id = s.maxID_
    · rw [if_pos c, if_pos hp]
      obtain ⟨i0, hi0⟩ := hI'.exists_valid hp
      have hN0 := hltN i0 hi0
      obtain ⟨a1, a2⟩ := maxIDLoop_spec (erase s id) ((erase s id).N_ - 1)
        ⟨i0, by omega, hi0⟩
      refine ⟨a1, ?_⟩
      intro i hi
      have := hltN i hi
      exact a2 i (by omega) hi
    · rw [if_neg c]
      obtain ⟨h1, h2⟩ := hr.max_ok (by omega)
      refine ⟨?_, fun i hi => h2 i (hold i hi)⟩
      have := hveq s.maxID_ (Ne.symm c)
      rw [h1] at this; exact this

theorem setCategory_range {s : CRepository T} (h : Inv s) (hr : RangeInv s) {id cat : Nat}
    (hv : valid s id = true) (hcat : cat < s.C_) : RangeInv (setCategory s id cat) := by
  obtain ⟨hI', hm, _, hv', _⟩ := setCategory_spec h hv hcat
  refine hr.congr_range ?_ hm.nStored_eq hm.minID_eq hm.maxID_eq
  intro i
  by_cases e : i = id
  · rw [e, hv, hv']
  · exact hm.kept.valid_eq h hI' e

/-- The operation `setNumberOfCategories` keeps the set of valid identifiers. -/
theorem setNumberOfCategories_valid {s : CRepository T} (h : Inv s) {m : Nat} (hm : 0 < m)
    (i : Nat) : valid (setNumberOfCategories s m) i = valid s i := by
  obtain ⟨hI', eC, eN, _, _, _, _, _, hmap⟩ := setNumberOfCategories_spec h hm
  by_cases hi : i < s.N_
  · have hi' : i < (setNumberOfCategories s m).N_ := by rw [eN]; exact hi
    have hin := (category_eq_iff h.bij h.tiling hi _).mp rfl
    have hin' := hmap i hi _ hin
    have hcat := (category_eq_iff hI'.bij hI'.tiling hi' _).mpr hin'
    have a := h.valid_iff_category hi
    have b := hI'.valid_iff_category hi'
    rw [hcat, eC] at b
    by_cases hlive : category s i < s.C_
    · rw [if_pos hlive] at b
      have := Nat.min_le_right (category s i) (m - 1)
      rw [a.mpr hlive, b.mpr (by omega)]
    · rw [if_neg hlive] at b
      rw [valid_false_of_ne_true (fun hh => hlive (a.mp hh)),
        valid_false_of_ne_true (fun hh => absurd (b.mp hh) (Nat.lt_irrefl m))]
  · rw [valid_false_of_ne_true (fun hh => hi ((valid_iff s i).mp hh).1),
      valid_false_of_ne_true (fun hh => hi (by
        have := ((valid_iff _ i).mp hh).1
        rw [eN] at this; exact this))]

theorem setNumberOfCategories_range {s : CRepository T} (h : Inv s) (hr : RangeInv s) (n : Nat) :
    RangeInv (setNumberOfCategories s n) := by
  by_cases hn : n = 0
  · subst hn
    have : setNumberOfCategories s 0 = s := by unfold setNumberOfCategories; rfl
    rw [this]; exact hr
  · have hm := Nat.pos_of_ne_zero hn
    obtain ⟨_, _, _, eS, _, emin, emax, _, _⟩ := setNumberOfCategories_spec h hm
    exact hr.congr_range (setNumberOfCategories_valid h hm) eS emin emax

theorem setEnlargeFactor_range {s : CRepository T} (hr : RangeInv s) (val : Nat) :
    RangeInv (setEnlargeFactor s val) := by
  obtain ⟨_, a2, a3, _, _, a6, _, _, a9, a10⟩ := setEnlargeFactor_fields s val
  exact hr.congr_range (valid_congr a2 a3 a6) a3 a9 a10

/-- In every reachable state `minID_` is `0` or the smallest valid identifier,
and `maxID_` is `0` in an empty store and the largest valid identifier
otherwise. -/
theorem reachable_range [Inhabited T] {E : Env} {s : CRepository T} (h : Reachable E s) :
    RangeInv s := by
  induction h with
  | construct0 => exact init_range _
  | construct1 cat _ => exact init_range _
  | construct cat n _ => exact init_range _
  | insert itm cat id hs hcat hins ih => exact insert_range (reachable_inv hs) ih hcat hins
  | erase id hs hv ih => exact erase_range (reachable_inv hs) ih hv
  | setCategory id cat hs hv hcat ih => exact setCategory_range (reachable_inv hs) ih hv hcat
  | setNumberOfCategories n hs ih => exact setNumberOfCategories_range (reachable_inv hs) ih n
  | clear _ _ => exact init_range _
  | setEnlargeFactor val _ ih => exact setEnlargeFactor_range ih val

/-! ## Positional access within a category -/

theorem emptied_reachable : Reachable env64 emptied := by
  have h0 : Reachable env64 (construct 1 4 : CRepository Nat) := Reachable.construct 1 4 (by decide)
  have h1 := Reachable.insert 7 0 0 h0 (by decide) rfl
  have h2 := Reachable.insert 8 0 1 h1 (by decide) rfl
  have h3 := Reachable.erase 0 h2 (by decide)
  exact Reachable.erase 1 h3 (by decide)

theorem refilled4_reachable : Reachable env64 refilled4 :=
  Reachable.insert 14 0 1 (Reachable.erase 1 full4_reachable (by decide)) (by decide) rfl

theorem full3_reachable : Reachable env4 full3 := by
  have h0 : Reachable env4 (construct 1 2 : CRepository Nat) := Reachable.construct 1 2 (by decide)
  have h1 := Reachable.insert 1 0 0 h0 (by decide) rfl
  have h2 := Reachable.insert 2 0 1 h1 (by decide) rfl
  exact Reachable.insert 3 0 2 h2 (by decide) rfl

/-- The identifier at the `n`-th position of a live category is valid, is in
that category, and sits at that position. -/
theorem idIn_spec {s : CRepository T} (h : Inv s) {cat n : Nat} (hcat : cat < s.C_)
    (hn : n < rd s.count_ cat) :
    idIn s cat n < s.N_ ∧ rd s.nums_ (idIn s cat n) = rd s.offset_ cat + n ∧
    valid s (idIn s cat n) = true ∧ category s (idIn s cat n) = cat := by
  have hin : InCat s (rd s.offset_ cat + n) cat := ⟨Nat.le_of_lt hcat, by omega, by omega⟩
  have hp := hin.lt_N h.tiling
  obtain ⟨b1, b2⟩ := h.bij.ids_nums _ hp
  have hc : category s (idIn s cat n) = cat := by
    apply (category_eq_iff h.bij h.tiling b1 cat).mpr
    show InCat s (rd s.nums_ (rd s.ids_ (rd s.offset_ cat + n))) cat
    rw [b2]; exact hin
  refine ⟨b1, b2, (h.valid_iff_category b1).mpr ?_, hc⟩
  show category s (idIn s cat n) < s.C_
  rw [hc]; exact hcat

/-- C11 (per-category positional access): in every reachable state and for every
category `cat < C_`, the map `n ↦ id(cat, n)` on `n < count(cat)` is injective,
every `id(cat, n)` is a valid identifier of category `cat`, every valid
identifier of category `cat` is `id(cat, n)` for some `n < count(cat)`, and
`item(cat, n)` is the record of the valid identifier `id(cat, n)`. -/
theorem category_access [Inhabited T] (E : Env) (s : CRepository T) (cat : Nat)
    (h : Reachable E s) (hcat : cat < numberOfCategories s) :
    (∀ n m, n < countOf s cat → m < countOf s cat → idIn s cat n = idIn s cat m → n = m) ∧
    (∀ n, n < countOf s cat →
      valid s (idIn s cat n) = true ∧ category s (idIn s cat n) = cat ∧
      itemIn s cat n = item s (idIn s cat n)) ∧
    (∀ i, valid s i = true → category s i = cat → ∃ n, n < countOf s cat ∧ idIn s cat n = i) := by
  have hI := reachable_inv h
  refine ⟨?_, ?_, ?_⟩
  · intro n m hn hm e
    have a := (idIn_spec hI hcat hn).2.1
    have b := (idIn_spec hI hcat hm).2.1
    rw [e, b] at a
    omega
  · intro n hn
    obtain ⟨_, _, h3, h4⟩ := idIn_spec hI hcat hn
    exact ⟨h3, h4, rfl⟩
  · intro i hv hc
    have hi := ((valid_iff s i).mp hv).1
    have hin := (category_eq_iff hI.bij hI.tiling hi cat).mp hc
    obtain ⟨_, b2⟩ := hI.bij.nums_ids i hi
    refine ⟨rd s.nums_ i - rd s.offset_ cat, ?_, ?_⟩
    · have := hin.2.1; have := hin.2.2
      show rd s.nums_ i - rd s.offset_ cat < rd s.count_ cat
      omega
    · show rd s.ids_ (rd s.offset_ cat + (rd s.nums_ i - rd s.offset_ cat)) = i
      have e : rd s.offset_ cat + (rd s.nums_ i - rd s.offset_ cat) = rd s.nums_ i := by
        have := hin.2.1; omega
      rw [e]; exact b2

theorem category_access_witness :
    (idIn full4 1 0 = idIn full4 1 1 → 0 = 1) ∧
    (valid full4 (idIn full4 1 1) = true ∧ category full4 (idIn full4 1 1) = 1 ∧
      itemIn full4 1 1 = item full4 (idIn full4 1 1)) ∧
    (∃ n, n < countOf full4 1 ∧ idIn full4 1 n = 3) :=
  have h := category_access env64 full4 1 full4_reachable (by decide)
  ⟨h.1 0 1 (by decide) (by decide), h.2.1 1 (by decide), h.2.2 3 (by decide) (by decide)⟩

/-! ## Growth and its failure -/

/-- A successful `enlarge` returns the state extended to the computed size. -/
theorem enlarge_eq_some_size [Inhabited T] {E : Env} {s s1 : CRepository T}
    (h : enlarge E s = some s1) :
    s.N_ < enlargedSize E s ∧ s1 = { s with
      items_ := resize s.items_ (enlargedSize E s) default,
      ids_ := s.ids_ ++ List.range' s.N_ (enlargedSize E s - s.N_),
      nums_ := s.nums_ ++ List.range' s.N_ (enlargedSize E s - s.N_),
      count_ := s.count_.set s.C_ (rd s.count_ s.C_ + (enlargedSize E s - s.N_)),
      N_ := enlargedSize E s } := by
  unfold enlarge at h
  by_cases hle : enlargedSize E s ≤ s.N_
  · rw [if_pos hle] at h; exact absurd h (by simp)
  · rw [if_neg hle] at h
    exact ⟨Nat.lt_of_not_le hle, (Option.some.inj h).symm⟩

/-- Without wrap-around the size computed by `enlarge` is the capacity (at least
one) times the enlarge factor, capped at `maxSize()`. -/
theorem enlargedSize_eq_min (E : Env) (s : CRepository T)
    (hno : max s.N_ 1 * s.enlargeFactor_ < 2 ^ E.bits) :
    enlargedSize E s = min (max s.N_ 1 * s.enlargeFactor_) (maxSize E) := by
  unfold enlargedSize
  by_cases hN : s.N_ > 0
  · have e : max s.N_ 1 = s.N_ := Nat.max_eq_left hN
    rw [e] at hno ⊢
    simp only [hN, if_true, Nat.mod_eq_of_lt hno]
    by_cases c : s.N_ * s.enlargeFactor_ > maxSize E
    · rw [if_pos c, Nat.min_eq_right (Nat.le_of_lt c)]
    · rw [if_neg c, Nat.min_eq_left (Nat.le_of_not_lt c)]
  · have e0 : s.N_ = 0 := by omega
    have e : max s.N_ 1 = 1 := by rw [e0]; rfl
    rw [e, Nat.one_mul]
    simp only [hN, if_false]
    by_cases c : s.enlargeFactor_ > maxSize E
    · rw [if_pos c, Nat.min_eq_right (Nat.le_of_lt c)]
    · rw [if_neg c, Nat.min_eq_left (Nat.le_of_not_lt c)]

/-- C12 (growth postcondition): when `enlarge()` succeeds on a reachable state of
capacity `N` and `max(N, 1) * enlargeFactor` does not wrap, the new capacity is
`min(max(N, 1) * enlargeFactor, maxSize)`, `ids_` and `nums_` have the new
capacity as length and are the identity on `[N, newN)`, `count_[C_]` has grown
by `newN - N`, and the old entries of `ids_` and `nums_`, the counts of the live
categories, all offsets, `nStored_`, `minID_`, `maxID_`, the number of
categories, the enlarge factor and the records are unchanged. -/
theorem enlarge_post [Inhabited T] (E : Env) (s s1 : CRepository T) (h : Reachable E s)
    (he : enlarge E s = some s1)
    (hno : max (capacity s) 1 * s.enlargeFactor_ < 2 ^ E.bits) :
    capacity s1 = min (max (capacity s) 1 * s.enlargeFactor_) (maxSize E) ∧
    capacity s < capacity s1 ∧
    s1.ids_.length = capacity s1 ∧ s1.nums_.length = capacity s1 ∧
    (∀ p, capacity s ≤ p → p < capacity s1 → rd s1.ids_ p = p ∧ rd s1.nums_ p = p) ∧
    countOf s1 (numberOfCategories s) =
      countOf s (numberOfCategories s) + (capacity s1 - capacity s) ∧
    (∀ p, p < capacity s → rd s1.ids_ p = rd s.ids_ p ∧ rd s1.nums_ p = rd s.nums_ p) ∧
    (∀ c, c < numberOfCategories s → countOf s1 c = countOf s c) ∧
    s1.offset_ = s.offset_ ∧ count s1 = count s ∧ minID s1 = minID s ∧ maxID s1 = maxID s ∧
    numberOfCategories s1 = numberOfCategories s ∧ s1.enlargeFactor_ = s.enlargeFactor_ ∧
    (∀ j, item s1 j = item s j) := by
  have hI := reachable_inv h
  obtain ⟨hlt, hs1⟩ := enlarge_eq_some_size he
  have hsize := enlargedSize_eq_min E s hno
  have eN : s1.N_ = enlargedSize E s := by rw [hs1]
  have ei : s1.ids_ = s.ids_ ++ List.range' s.N_ (enlargedSize E s - s.N_) := by rw [hs1]
  have en : s1.nums_ = s.nums_ ++ List.range' s.N_ (enlargedSize E s - s.N_) := by rw [hs1]
  have ec : s1.count_ = s.count_.set s.C_ (rd s.count_ s.C_ + (enlargedSize E s - s.N_)) := by
    rw [hs1]
  obtain ⟨_, _, _, _, _, _, _, _, _, hitem, _, _, _⟩ := enlarge_spec hI he 0
  refine ⟨by show s1.N_ = _; rw [eN]; exact hsize, by show s.N_ < s1.N_; rw [eN]; exact hlt,
    ?_, ?_, ?_, ?_, ?_, ?_, by rw [hs1], by rw [hs1]; rfl, by rw [hs1]; rfl, by rw [hs1]; rfl,
    by rw [hs1]; rfl, by rw [hs1], hitem⟩
  · show s1.ids_.length = s1.N_
    rw [ei, eN]; simp [hI.bij.len_ids]; omega
  · show s1.nums_.length = s1.N_
    rw [en, eN]; simp [hI.bij.len_nums]; omega
  · intro p hp hp2
    have hp' : s.N_ ≤ p := hp
    have hp2' : p < enlargedSize E s := by rw [← eN]; exact hp2
    constructor
    · rw [ei, rd_append_right _ _ _ (by rw [hI.bij.len_ids]; exact hp'), hI.bij.len_ids,
        rd_range' _ _ _ (by omega)]
      omega
    · rw [en, rd_append_right _ _ _ (by rw [hI.bij.len_nums]; exact hp'), hI.bij.len_nums,
        rd_range' _ _ _ (by omega)]
      omega
  · show rd s1.count_ s.C_ = rd s.count_ s.C_ + (s1.N_ - s.N_)
    rw [ec, eN, rd_set_eq _ _ _ (by rw [hI.tiling.len_count]; omega)]
  · intro p hp
    have hp' : p < s.N_ := hp
    constructor
    · rw [ei, rd_append_left _ _ _ (by rw [hI.bij.len_ids]; exact hp')]
    · rw [en, rd_append_left _ _ _ (by rw [hI.bij.len_nums]; exact hp')]
  · intro c hc
    have hc' : c < s.C_ := hc
    show rd s1.count_ c = rd s.count_ c
    rw [ec, rd_set_ne _ _ _ _ (by omega)]

theorem enlarge_post_witness :
    enlarge env64 full4 = some enlarged8 ∧
    capacity enlarged8 = min (max (capacity full4) 1 * full4.enlargeFactor_) (maxSize env64) ∧
    (rd enlarged8.ids_ 5 = 5 ∧ rd enlarged8.nums_ 5 = 5) ∧
    countOf enlarged8 3 = countOf full4 3 + (capacity enlarged8 - capacity full4) ∧
    (rd enlarged8.ids_ 2 = rd full4.ids_ 2 ∧ rd enlarged8.nums_ 2 = rd full4.nums_ 2) ∧
    enlarged8.offset_ = full4.offset_ ∧ count enlarged8 = count full4 :=
  have h := enlarge_post env64 full4 enlarged8 full4_reachable rfl (by decide)
  ⟨rfl, h.1, h.2.2.2.2.1 5 (by decide) (by decide), h.2.2.2.2.2.1,
    h.2.2.2.2.2.2.1 2 (by decide), h.2.2.2.2.2.2.2.2.1, h.2.2.2.2.2.2.2.2.2.1⟩

/-- The version of `enlarge` that keeps the state at the throw agrees with `enlarge`. -/
theorem enlargeOutcome_toOption [Inhabited T] (E : Env) (s : CRepository T) :
    (enlargeOutcome E s).toOption.map Prod.fst = enlarge E s := by
  unfold enlargeOutcome enlarge
  by_cases hle : enlargedSize E s ≤ s.N_
  · rw [if_pos hle, if_pos hle]; rfl
  · rw [if_neg hle, if_neg hle]; rfl

/-- The version of `insert` that keeps the state at the throw agrees with `insert`. -/
theorem insertOutcome_toOption [Inhabited T] (E : Env) (s : CRepository T) (itm : T)
    (cat : Nat) : (insertOutcome E s itm cat).toOption = insert E s itm cat := by
  unfold insertOutcome insert enlargeOutcome enlarge
  by_cases hfull : rd s.offset_ s.C_ ≥ s.N_
  · by_cases hle : enlargedSize E s ≤ s.N_
    · simp only [hfull, hle, if_true]; rfl
    · simp only [hfull, hle, if_true, if_false]; rfl
  · simp only [hfull, if_false]; rfl

theorem enlargeOutcome_thrown_iff [Inhabited T] (E : Env) (s s' : CRepository T) :
    enlargeOutcome E s = Outcome.thrown s' ↔ enlargedSize E s ≤ s.N_ ∧ s' = s := by
  unfold enlargeOutcome
  by_cases hle : enlargedSize E s ≤ s.N_
  · rw [if_pos hle]
    constructor
    · intro h; exact ⟨hle, (Outcome.thrown.inj h).symm⟩
    · rintro ⟨_, e⟩; rw [e]
  · rw [if_neg hle]
    constructor
    · intro h; exact absurd h (by simp)
    · rintro ⟨h, _⟩; exact absurd h hle

theorem insertOutcome_thrown_iff [Inhabited T] (E : Env) (s s' : CRepository T) (itm : T)
    (cat : Nat) :
    insertOutcome E s itm cat = Outcome.thrown s' ↔
      rd s.offset_ s.C_ ≥ s.N_ ∧ enlargedSize E s ≤ s.N_ ∧ s' = s := by
  unfold insertOutcome enlargeOutcome
  by_cases hfull : rd s.offset_ s.C_ ≥ s.N_
  · by_cases hle : enlargedSize E s ≤ s.N_
    · simp only [hfull, hle, if_true, true_and]
      constructor
      · intro h; exact (Outcome.thrown.inj h).symm
      · intro e; rw [e]
    · simp only [hfull, hle, if_true, if_false, true_and, false_and]
      constructor
      · intro h; exact absurd h (by simp)
      · intro h; exact absurd h (by simp)
  · simp only [hfull, if_false, false_and]
    constructor
    · intro h; exact absurd h (by simp)
    · intro h; exact absurd h (by simp)

theorem enlarge_eq_none_iff [Inhabited T] (E : Env) (s : CRepository T) :
    enlarge E s = none ↔ enlargedSize E s ≤ s.N_ := by
  unfold enlarge
  by_cases hle : enlargedSize E s ≤ s.N_
  · rw [if_pos hle]; exact ⟨fun _ => hle, fun _ => rfl⟩
  · rw [if_neg hle]; exact ⟨fun h => absurd h (by simp), fun h => absurd h hle⟩

theorem insert_eq_none_iff [Inhabited T] (E : Env) (s : CRepository T) (itm : T) (cat : Nat) :
    insert E s itm cat = none ↔ rd s.offset_ s.C_ ≥ s.N_ ∧ enlargedSize E s ≤ s.N_ := by
  unfold insert enlarge
  by_cases hfull : rd s.offset_ s.C_ ≥ s.N_
  · by_cases hle : enlargedSize E s ≤ s.N_
    · simp only [hfull, hle, if_true, true_and]
    · simp only [hfull, hle, if_true, if_false, true_and, false_and]
      exact ⟨fun h => absurd h (by simp), fun h => absurd h (by simp)⟩
  · simp only [hfull, if_false, false_and]
    exact ⟨fun h => absurd h (by simp), fun h => absurd h (by simp)⟩

/-- In a reachable state the guard `offset_[C_] >= N_` of `insert` holds exactly
when the store is full. -/
theorem Inv.guard_iff_full {s : CRepository T} (h : Inv s) :
    rd s.offset_ s.C_ ≥ s.N_ ↔ s.nStored_ = s.N_ := by
  have := h.stored
  have := h.nStored_le
  constructor <;> intro _ <;> omega

/-- C13 (capacity failure is exact and atomic): `enlarge()` throws exactly when
the computed size, capped at `maxSize()`, is not greater than `N_`, and the
state at the throw is the state before the call; `insert` on a reachable state
throws exactly when the store is full and that condition holds, again with the
state unchanged. -/
theorem capacity_failure_atomic [Inhabited T] (E : Env) (s : CRepository T) (itm : T)
    (cat : Nat) (h : Reachable E s) :
    ((∃ s', enlargeOutcome E s = Outcome.thrown s') ↔ enlargedSize E s ≤ capacity s) ∧
    (∀ s', enlargeOutcome E s = Outcome.thrown s' → s' = s) ∧
    (enlarge E s = none ↔ enlargedSize E s ≤ capacity s) ∧
    ((∃ s', insertOutcome E s itm cat = Outcome.thrown s') ↔
      count s = capacity s ∧ enlargedSize E s ≤ capacity s) ∧
    (∀ s', insertOutcome E s itm cat = Outcome.thrown s' → s' = s) ∧
    (insert E s itm cat = none ↔ count s = capacity s ∧ enlargedSize E s ≤ capacity s) ∧
    (insertOutcome E s itm cat).toOption = insert E s itm cat ∧
    (enlargeOutcome E s).toOption.map Prod.fst = enlarge E s := by
  have hg := (reachable_inv h).guard_iff_full
  refine ⟨?_, ?_, enlarge_eq_none_iff E s, ?_, ?_, ?_, insertOutcome_toOption E s itm cat,
    enlargeOutcome_toOption E s⟩
  · constructor
    · rintro ⟨s', hs'⟩; exact ((enlargeOutcome_thrown_iff E s s').mp hs').1
    · intro hle; exact ⟨s, (enlargeOutcome_thrown_iff E s s).mpr ⟨hle, rfl⟩⟩
  · intro s' hs'; exact ((enlargeOutcome_thrown_iff E s s').mp hs').2
  · constructor
    · rintro ⟨s', hs'⟩
      obtain ⟨a, b, _⟩ := (insertOutcome_thrown_iff E s s' itm cat).mp hs'
      exact ⟨hg.mp a, b⟩
    · rintro ⟨a, b⟩
      exact ⟨s, (insertOutcome_thrown_iff E s s itm cat).mpr ⟨hg.mpr a, b, rfl⟩⟩
  · intro s' hs'; exact ((insertOutcome_thrown_iff E s s' itm cat).mp hs').2.2
  · rw [insert_eq_none_iff]
    constructor
    · rintro ⟨a, b⟩; exact ⟨hg.mp a, b⟩
    · rintro ⟨a, b⟩; exact ⟨hg.mpr a, b⟩

theorem capacity_failure_atomic_witness :
    count full3 = capacity full3 ∧ enlargedSize env4 full3 = 3 ∧
    insertOutcome env4 full3 4 0 = Outcome.thrown full3 ∧
    insert env4 full3 4 0 = none ∧ enlarge env4 full3 = none :=
  have h := capacity_failure_atomic env4 full3 4 0 full3_reachable
  ⟨rfl, rfl, rfl, h.2.2.2.2.2.1.mpr ⟨rfl, by decide⟩, h.2.2.1.mpr (by decide)⟩

/-! ## `clear` and the empty store -/

/-- Two index vectors of equal length with equal entries are equal. -/
theorem list_eq_of_rd {v w : List Nat} (hl : v.length = w.length)
    (h : ∀ i, i < v.length → rd v i = rd w i) : v = w := by
  apply List.ext_getElem hl
  intro n h1 h2
  have := h n h1
  rw [rd_eq_getElem v n h1, rd_eq_getElem w n h2] at this
  exact this

theorem rd_range (n i : Nat) (h : i < n) : rd (List.range n) i = i := by
  unfold rd
  rw [List.getD_eq_getElem?_getD, List.getElem?_range h]; rfl

/-- The tables written by `init()`: identity `ids_` and `nums_`, zero counts and
offsets except `count_[C_] = N_`. -/
theorem init_tables [Inhabited T] (s : CRepository T) :
    (init s).ids_ = List.range s.N_ ∧ (init s).nums_ = List.range s.N_ ∧
    (init s).count_ = List.replicate s.C_ 0 ++ [s.N_] ∧
    (init s).offset_ = List.replicate (s.C_ + 1) 0 ∧
    (init s).items_ = resize s.items_ s.N_ default := by
  obtain ⟨_, _, _, _, _, _, li, ln, _, lc, lo, hi, hn, ho, hc, hcC⟩ := init_spec s
  refine ⟨?_, ?_, ?_, ?_, rfl⟩
  · apply list_eq_of_rd (by rw [li, List.length_range])
    intro i h
    rw [li] at h
    rw [hi i h, rd_range _ _ h]
  · apply list_eq_of_rd (by rw [ln, List.length_range])
    intro i h
    rw [ln] at h
    rw [hn i h, rd_range _ _ h]
  · apply list_eq_of_rd (by rw [lc]; simp)
    intro i h
    rw [lc] at h
    by_cases e : i < s.C_
    · rw [hc i e, rd_append_left _ _ _ (by simp; exact e), rd_replicate _ _ _ e]
    · have e2 : i = s.C_ := by omega
      rw [e2, hcC, rd_append_right _ _ _ (by simp)]
      simp [rd]
  · apply list_eq_of_rd (by rw [lo]; simp)
    intro i h
    rw [lo] at h
    rw [ho i (by omega), rd_replicate _ _ _ h]

theorem resize_nil {α : Type} (n : Nat) (d : α) : resize ([] : List α) n d = List.replicate n d := by
  simp [resize]

theorem resize_replicate {α : Type} (n : Nat) (d : α) :
    resize (List.replicate n d) n d = List.replicate n d := by
  simp [resize]

theorem getD_replicate_default {α : Type} (n i : Nat) (d : α) :
    (List.replicate n d).getD i d = d := by
  rw [List.getD_eq_getElem?_getD, List.getElem?_replicate]
  split <;> rfl

/-- C15 (`clear` resets to the empty state): after `clear()` the store holds no
item, every live category is empty, the number of categories, the capacity and
the enlarge factor are unchanged, no identifier is valid, both identifier
bounds are `0`, `ids_` and `nums_` are the identity, every record is the
default value, and the whole state is that of `construct(C_, N_)` with the
enlarge factor of the cleared store. -/
theorem clear_resets [Inhabited T] (s : CRepository T) :
    count (clear s) = 0 ∧ (∀ c, c < numberOfCategories s → countOf (clear s) c = 0) ∧
    numberOfCategories (clear s) = numberOfCategories s ∧ capacity (clear s) = capacity s ∧
    (∀ i, valid (clear s) i = false) ∧ minID (clear s) = 0 ∧ maxID (clear s) = 0 ∧
    (clear s).ids_ = List.range (capacity s) ∧ (clear s).nums_ = List.range (capacity s) ∧
    (clear s).items_ = List.replicate (capacity s) default ∧
    (∀ i, item (clear s) i = default) ∧
    clear s = { (construct s.C_ s.N_ : CRepository T) with enlargeFactor_ := s.enlargeFactor_ } := by
  obtain ⟨a1, a2, a3, a4, a5⟩ := init_tables ({ s with items_ := [] } : CRepository T)
  obtain ⟨b1, b2, b3, b4, b5⟩ := init_tables
    ({ C_ := s.C_, N_ := s.N_, nStored_ := 0,
       count_ := List.replicate (s.C_ + 1) 0, offset_ := List.replicate (s.C_ + 1) 0,
       nums_ := List.replicate s.N_ 0, ids_ := List.replicate s.N_ 0,
       items_ := List.replicate s.N_ default, minID_ := 0, maxID_ := 0,
       enlargeFactor_ := 2 } : CRepository T)
  obtain ⟨_, _, eS, _, _, _, _, _, _, _, _, _, _, _, hc, _⟩ := init_spec ({ s with items_ := [] } : CRepository T)
  have hitems : (clear s).items_ = List.replicate s.N_ default := by
    show (init { s with items_ := [] }).items_ = _
    rw [a5]; exact resize_nil _ _
  refine ⟨rfl, hc, rfl, rfl, fun i => not_valid_of_empty eS i, rfl, rfl, a1, a2, hitems, ?_, ?_⟩
  · intro i
    unfold item
    rw [hitems]; exact getD_replicate_default _ _ _
  · have e : ∀ a b : CRepository T, a.C_ = b.C_ → a.N_ = b.N_ → a.nStored_ = b.nStored_ →
        a.count_ = b.count_ → a.offset_ = b.offset_ → a.nums_ = b.nums_ → a.ids_ = b.ids_ →
        a.items_ = b.items_ → a.minID_ = b.minID_ → a.maxID_ = b.maxID_ →
        a.enlargeFactor_ = b.enlargeFactor_ → a = b := by
      intro a b h1 h2 h3 h4 h5 h6 h7 h8 h9 h10 h11
      cases a; cases b
      simp only at h1 h2 h3 h4 h5 h6 h7 h8 h9 h10 h11
      subst h1 h2 h3 h4 h5 h6 h7 h8 h9 h10 h11
      rfl
    apply e
    · rfl
    · rfl
    · rfl
    · exact a3.trans b3.symm
    · exact a4.trans b4.symm
    · exact a2.trans b2.symm
    · exact a1.trans b1.symm
    · rw [hitems]
      show _ = (init _).items_
      rw [b5]; exact (resize_replicate _ _).symm
    · rfl
    · rfl
    · rfl

theorem clear_resets_witness :
    count (clear full4) = 0 ∧ countOf (clear full4) 1 = 0 ∧
    capacity (clear full4) = 4 ∧ valid (clear full4) 2 = false ∧
    (clear full4).ids_ = [0, 1, 2, 3] ∧ item (clear full4) 3 = 0 ∧
    clear full4 = construct 3 4 :=
  have h := clear_resets full4
  ⟨h.1, h.2.1 1 (by decide), h.2.2.2.1, h.2.2.2.2.1 2, h.2.2.2.2.2.2.2.1,
    h.2.2.2.2.2.2.2.2.2.2.1 3, h.2.2.2.2.2.2.2.2.2.2.2⟩

/-- C17 (empty container has zero bounds): in every reachable state with
`count() == 0`, `minID()` and `maxID()` are `0`. -/
theorem empty_bounds_zero [Inhabited T] (E : Env) (s : CRepository T) (h : Reachable E s)
    (h0 : count s = 0) : minID s = 0 ∧ maxID s = 0 := by
  have hr := reachable_range h
  refine ⟨?_, hr.max_empty h0⟩
  rcases hr.min_ok with hm | ⟨hv, _⟩
  · exact hm
  · rw [not_valid_of_empty h0] at hv
    exact absurd hv (by simp)

theorem empty_bounds_zero_witness :
    count emptied = 0 ∧ minID emptied = 0 ∧ maxID emptied = 0 :=
  ⟨rfl, empty_bounds_zero env64 emptied emptied_reachable rfl⟩

/-! ## What `insert` allocates -/

theorem decreaseLoop_capacity (myid : Nat) : ∀ (k : Nat) (s : CRepository T) (mynum cls : Nat),
    (decreaseLoop k s mynum myid cls).N_ = s.N_ := by
  intro k
  induction k with
  | zero => intro s _ _; rfl
  | succ k ih =>
    intro s mynum cls
    rw [decreaseLoop_succ, ih]
    exact (swapIf_fields s mynum (rd s.offset_ cls) myid).2.1

/-- The capacity after a successful `insert`: the size computed by `enlarge`
when the guard `offset_[C_] >= N_` held, the old capacity otherwise; and the
identifier returned when the guard did not hold. -/
theorem insert_capacity [Inhabited T] {E : Env} {s s' : CRepository T} {itm : T} {cat id : Nat}
    (hins : insert E s itm cat = some (s', id)) :
    s'.N_ = (if rd s.offset_ s.C_ ≥ s.N_ then enlargedSize E s else s.N_) ∧
    (¬ rd s.offset_ s.C_ ≥ s.N_ → id = rd s.ids_ (rd s.offset_ s.C_)) := by
  obtain ⟨s1, s2, s3, hE, hid, hs2, hs3, hs'⟩ := insert_some hins
  have h3 : s3.N_ = s1.N_ := by
    rw [hs3]
    have := decreaseLoop_capacity (rd s2.ids_ (rd s.offset_ s.C_))
      (categoryAt s2 (rd s.offset_ s.C_) - cat) s2 (rd s.offset_ s.C_)
      (categoryAt s2 (rd s.offset_ s.C_))
    rw [show decreaseCat s2 (rd s.offset_ s.C_) cat = decreaseLoop _ _ _ _ _ from rfl, this, hs2]
  have h' : s'.N_ = s3.N_ := by
    rw [hs']; exact (updateMinMaxID_fields _ id).2.1
  by_cases hfull : rd s.offset_ s.C_ ≥ s.N_
  · rw [if_pos hfull] at hE ⊢
    obtain ⟨_, e⟩ := enlarge_eq_some_size hE
    refine ⟨?_, fun hn => absurd hfull hn⟩
    rw [h', h3, e]
  · rw [if_neg hfull] at hE ⊢
    have e := Option.some.inj hE
    refine ⟨?_, fun _ => ?_⟩
    · rw [h', h3, ← e]
    · rw [hid, ← e]

/-- In a state that is not full, `insert` succeeds without growing and returns
the identifier at the first pool position. -/
theorem insert_not_full [Inhabited T] (E : Env) {s : CRepository T} (hI : Inv s)
    (hlt : s.nStored_ < s.N_) (v : T) (c : Nat) :
    ∃ s', insert E s v c = some (s', rd s.ids_ s.nStored_) ∧ s'.N_ = s.N_ := by
  have hnf : ¬ rd s.offset_ s.C_ ≥ s.N_ := fun hh => by
    have : s.nStored_ = s.N_ := hI.guard_iff_full.mp hh
    omega
  cases hi : insert E s v c with
  | none =>
    have := (insert_eq_none_iff E s v c).mp hi
    exact absurd this.1 hnf
  | some r =>
    obtain ⟨s', id⟩ := r
    obtain ⟨a, b⟩ := insert_capacity hi
    rw [if_neg hnf] at a
    have hid := b hnf
    rw [← hI.stored] at hid
    refine ⟨s', ?_, a⟩
    rw [hid]

/-- C19 (insert grows only when full and takes the left-most pool position): in
a reachable state that is not full, `insert(v, c)` with `c < C_` succeeds,
leaves the capacity unchanged and returns the identifier at position `count()`
(which is `offset_[C_]`) of the pre-state; the guard of the call of `enlarge`
holds exactly when the store is full, a successful insert has grown the
capacity exactly when the store was full, and a failing insert was one on a
full store. -/
theorem insert_reuses_pool [Inhabited T] (E : Env) (s : CRepository T) (v : T) (c : Nat)
    (h : Reachable E s) (hc : c < numberOfCategories s) :
    (count s < capacity s →
      ∃ s', insert E s v c = some (s', idAt s (count s)) ∧ capacity s' = capacity s) ∧
    count s = rd s.offset_ (numberOfCategories s) ∧
    (rd s.offset_ (numberOfCategories s) ≥ capacity s ↔ count s = capacity s) ∧
    (∀ s' id, insert E s v c = some (s', id) →
      (capacity s < capacity s' ↔ count s = capacity s)) ∧
    (insert E s v c = none → count s = capacity s) := by
  have hI := reachable_inv h
  have hg := hI.guard_iff_full
  refine ⟨?_, hI.stored, hg, ?_, ?_⟩
  · intro hlt
    exact insert_not_full E hI hlt v c
  · intro s' id hi
    obtain ⟨a, _⟩ := insert_capacity hi
    obtain ⟨hI', _, _, _, _, _, hS, _⟩ := insert_spec hI hc hi
    have hle := hI'.nStored_le
    show s.N_ < s'.N_ ↔ s.nStored_ = s.N_
    by_cases hfull : rd s.offset_ s.C_ ≥ s.N_
    · have e := hg.mp hfull
      constructor
      · intro _; exact e
      · intro _; omega
    · rw [if_neg hfull] at a
      constructor
      · intro hh; omega
      · intro hh; exact absurd (hg.mpr hh) hfull
  · intro hi
    exact hg.mp ((insert_eq_none_iff E s v c).mp hi).1

theorem insert_reuses_pool_witness :
    count (erase full4 1) < capacity (erase full4 1) ∧
    (∃ s', insert env64 (erase full4 1) 14 0 =
        some (s', idAt (erase full4 1) (count (erase full4 1))) ∧
      capacity s' = capacity (erase full4 1)) ∧
    idAt (erase full4 1) (count (erase full4 1)) = 1 ∧
    insert env64 (erase full4 1) 14 0 = some (refilled4, 1) ∧
    (capacity (erase full4 1) < capacity refilled4 ↔
      count (erase full4 1) = capacity (erase full4 1)) :=
  have h := insert_reuses_pool env64 (erase full4 1) 14 0
    (Reachable.erase 1 full4_reachable (by decide)) (by decide)
  ⟨by decide, h.1 (by decide), rfl, rfl, h.2.2.2.1 refilled4 1 rfl⟩

/-- C20 (insert adds exactly one fresh identifier): after a successful
`insert(v, c)` with `c < C_` on a reachable state, the returned identifier was
not valid before, `count()` has grown by one, an identifier is valid exactly
when it was valid before or is the returned one, and every identifier that was
valid keeps its category and its record. -/
theorem insert_adds_one [Inhabited T] (E : Env) (s s' : CRepository T) (v : T) (c id : Nat)
    (h : Reachable E s) (hc : c < numberOfCategories s)
    (hins : insert E s v c = some (s', id)) :
    valid s id = false ∧ count s' = count s + 1 ∧
    (∀ j, valid s' j = true ↔ (valid s j = true ∨ j = id)) ∧
    (∀ j, valid s j = true → category s' j = category s j ∧ item s' j = item s j) := by
  have hI := reachable_inv h
  obtain ⟨hI', hk, h3, h4, _, _, h7, h8, _, _⟩ := insert_spec hI hc hins
  refine ⟨h3, h7, ?_, ?_⟩
  · intro j
    by_cases e : j = id
    · rw [e]; exact ⟨fun _ => Or.inr rfl, fun _ => h4⟩
    · rw [hk.valid_eq hI hI' e]
      exact ⟨fun hv => Or.inl hv, fun hv => hv.elim (fun hh => hh) (fun hh => absurd hh e)⟩
  · intro j hj
    have hne : j ≠ id := by
      intro e; rw [e, h3] at hj; exact absurd hj (by simp)
    exact ⟨hk.category_eq hI.bij hI.tiling hI'.bij hI'.tiling ((valid_iff s j).mp hj).1 hne,
      h8 j hne⟩

theorem insert_adds_one_witness :
    insert env64 full4 14 2 = some (grown8, 4) ∧
    valid full4 4 = false ∧ count grown8 = count full4 + 1 ∧
    (valid grown8 2 = true ↔ (valid full4 2 = true ∨ 2 = 4)) ∧
    (valid grown8 6 = true ↔ (valid full4 6 = true ∨ 6 = 4)) ∧
    (category grown8 2 = category full4 2 ∧ item grown8 2 = item full4 2) :=
  have h := insert_adds_one env64 full4 grown8 14 2 4 full4_reachable (by decide) rfl
  ⟨rfl, h.1, h.2.1, h.2.2.1 2, h.2.2.1 6, h.2.2.2 2 (by decide)⟩

/-! ## The category scan with checked reads -/

theorem categoryLoop_ge : ∀ (cs : List Nat) (na c0 : Nat), c0 ≤ categoryLoop cs na c0 := by
  intro cs
  induction cs with
  | nil => intro _ c0; exact Nat.le_refl c0
  | cons k ks ih =>
    intro na c0
    unfold categoryLoop
    by_cases hk : na ≥ k
    · rw [if_pos hk]
      exact Nat.le_trans (Nat.le_succ c0) (ih (na - k) (c0 + 1))
    · rw [if_neg hk]

theorem categoryLoop_cons (k : Nat) (ks : List Nat) (na c : Nat) :
    categoryLoop (k :: ks) na c =
      if na ≥ k then categoryLoop ks (na - k) (c + 1) else c := rfl

/-- When the scan of `category` stops inside `count_`, the scan with checked
reads returns the same category: no read is past the end of `count_`. -/
theorem categoryChecked_eq (cnt : List Nat) :
    ∀ (fuel na c : Nat),
      categoryLoop (cnt.drop c) na c - c < (cnt.drop c).length →
      categoryLoop (cnt.drop c) na c - c < fuel →
      categoryChecked cnt fuel na c = some (categoryLoop (cnt.drop c) na c) := by
  intro fuel
  induction fuel with
  | zero => intro na c _ h; exact absurd h (Nat.not_lt_zero _)
  | succ fuel ih =>
    intro na c hlen hfuel
    have hc : c < cnt.length := by
      by_contra hge
      rw [List.drop_of_length_le (Nat.le_of_not_lt hge)] at hlen
      exact absurd hlen (Nat.not_lt_zero _)
    have hd : cnt.drop c = cnt[c] :: cnt.drop (c + 1) := List.drop_eq_getElem_cons hc
    unfold categoryChecked
    rw [List.getElem?_eq_getElem hc]
    simp only
    rw [hd, categoryLoop_cons] at hlen hfuel ⊢
    by_cases hk : na ≥ cnt[c]
    · rw [if_pos hk] at hlen hfuel
      rw [if_pos hk, if_pos hk]
      have hge := categoryLoop_ge (cnt.drop (c + 1)) (na - cnt[c]) (c + 1)
      simp only [List.length_cons] at hlen
      exact ih (na - cnt[c]) (c + 1) (by omega) (by omega)
    · rw [if_neg hk, if_neg hk]

/-- The scan of `category(p)`: under the tiling invariant and for a position
below the capacity it reads `count_` only at indices up to `C_` and returns a
category whose range holds `p`. -/
theorem categoryChecked_spec {s : CRepository T} (ht : Tiling s) {p : Nat} (hp : p < s.N_) :
    categoryChecked s.count_ (s.count_.length + 1) p 0 = some (categoryAt s p) := by
  have hs := categoryLoop_spec s.count_ p 0 (by rw [ht.sum_count]; exact hp)
  have h := categoryChecked_eq s.count_ (s.count_.length + 1) p 0
  rw [List.drop_zero] at h
  exact h hs.2.1 (by have := hs.2.1; omega)

/-- Under the tiling invariant, in a state whose stored count is `offset_[C_]`,
`category(p)` is a live category exactly when `p` is below the stored count. -/
theorem categoryAt_live_iff {s : CRepository T} (ht : Tiling s)
    (hs : s.nStored_ = rd s.offset_ s.C_) {p : Nat} (hp : p < s.N_) :
    categoryAt s p < s.C_ ↔ p < s.nStored_ := by
  rw [hs]; exact ((categoryAt_inCat ht hp).lt_pool_iff ht).symm

/-- C18 (category lookup by position is correct and total): every reachable
state satisfies the tiling invariant, and for every position `p < N_` the scan
of `category(p)` terminates, reads `count_` only at indices up to `C_`, and
returns the unique `c` in `[0, C_]` with
`offset_[c] <= p < offset_[c] + count_[c]`; it returns a live category
(`c < C_`) exactly when `p < count()`. -/
theorem category_lookup_total [Inhabited T] (E : Env) (s : CRepository T) (p : Nat)
    (h : Reachable E s) (hp : p < capacity s) :
    Tiling s ∧
    categoryChecked s.count_ (s.count_.length + 1) p 0 = some (categoryAt s p) ∧
    categoryAt s p ≤ numberOfCategories s ∧
    (rd s.offset_ (categoryAt s p) ≤ p ∧
      p < rd s.offset_ (categoryAt s p) + countOf s (categoryAt s p)) ∧
    (∀ c, c ≤ numberOfCategories s → rd s.offset_ c ≤ p → p < rd s.offset_ c + countOf s c →
      c = categoryAt s p) ∧
    (categoryAt s p < numberOfCategories s ↔ p < count s) := by
  have hI := reachable_inv h
  have ht := hI.tiling
  have hin := categoryAt_inCat ht hp
  refine ⟨ht, categoryChecked_spec ht hp, hin.1, ⟨hin.2.1, hin.2.2⟩, ?_,
    categoryAt_live_iff ht hI.stored hp⟩
  intro c h1 h2 h3
  exact InCat.unique ht ⟨h1, h2, h3⟩ hin

theorem category_lookup_total_witness :
    (categoryChecked one10.count_ (one10.count_.length + 1) 0 0 = some (categoryAt one10 0) ∧
      categoryAt one10 0 = 3 ∧
      (categoryAt one10 0 < numberOfCategories one10 ↔ 0 < count one10)) ∧
    (categoryChecked one10.count_ (one10.count_.length + 1) 5 0 = some (categoryAt one10 5) ∧
      categoryAt one10 5 = 4 ∧
      (rd one10.offset_ (categoryAt one10 5) ≤ 5 ∧
        5 < rd one10.offset_ (categoryAt one10 5) + countOf one10 (categoryAt one10 5)) ∧
      (categoryAt one10 5 < numberOfCategories one10 ↔ 5 < count one10)) :=
  have h0 := category_lookup_total env64 one10 0 one10_reachable (by decide)
  have h5 := category_lookup_total env64 one10 5 one10_reachable (by decide)
  ⟨⟨h0.2.1, rfl, h0.2.2.2.2.2⟩, ⟨h5.2.1, rfl, h5.2.2.2.1, h5.2.2.2.2.2⟩⟩

/-! ## The scenario of the specification -/

/-- C14 as stated fails: after the four inserts of the scenario (the store is
`full4`) and `erase(id(1, 0))`, the store holds three items in a capacity of
four, and the fifth insert reuses the freed identifier `1`: the capacity is
still `4`, not greater. -/
theorem fifth_insert_keeps_capacity :
    ((insert env64 (construct 3 4) 10 0).bind fun r1 =>
      (insert env64 r1.1 11 1).bind fun r2 =>
        (insert env64 r2.1 12 2).bind fun r3 => insert env64 r3.1 13 1) = some (full4, 3) ∧
    countOf full4 0 = 1 ∧ countOf full4 1 = 2 ∧ countOf full4 2 = 1 ∧
    idIn full4 1 0 = 1 ∧ countOf (erase full4 (idIn full4 1 0)) 1 = 1 ∧
    count (erase full4 (idIn full4 1 0)) = 3 ∧
    insert env64 (erase full4 (idIn full4 1 0)) 14 0 = some (refilled4, 1) ∧
    capacity refilled4 = 4 ∧ ¬ (4 < capacity refilled4) :=
  ⟨rfl, rfl, rfl, rfl, rfl, rfl, rfl, rfl, rfl, by decide⟩

/-- C14 as amended: from `construct(3, 4)`, after inserting four items into the
categories `0, 1, 2, 1` and erasing `id(1, 0)`, a fifth insert (of any value,
into any category) does not grow the store: it succeeds with capacity `4` and
`count() == 4`; the insert after it, made on the full store, grows the capacity
to `8` and brings `count()` to `5`. -/
theorem scenario_growth_on_sixth (v v' : Nat) (c c' : Nat) (hc : c < 3) (hc' : c' < 3) :
    ∃ s5 id5, insert env64 (erase full4 (idIn full4 1 0)) v c = some (s5, id5) ∧
      capacity s5 = 4 ∧ count s5 = 4 ∧
      ∃ s6 id6, insert env64 s5 v' c' = some (s6, id6) ∧ capacity s6 = 8 ∧ count s6 = 5 := by
  have he : Reachable env64 (erase full4 (idIn full4 1 0)) :=
    Reachable.erase 1 full4_reachable (by decide)
  have hI := reachable_inv he
  obtain ⟨s5, h5, hN5⟩ := insert_not_full env64 hI (by decide) v c
  obtain ⟨_, hk, _, _, _, _, hS, _, _, hef⟩ := insert_spec hI hc h5
  have hr5 : Reachable env64 s5 := Reachable.insert v c _ he hc h5
  have hI5 := reachable_inv hr5
  have eN : s5.N_ = 4 := hN5
  have eS : s5.nStored_ = 4 := hS
  have eef : s5.enlargeFactor_ = 2 := hef
  have hsize : enlargedSize env64 s5 = 8 := by
    unfold enlargedSize
    rw [eN, eef]
    decide
  have hfull : rd s5.offset_ s5.C_ ≥ s5.N_ := hI5.guard_iff_full.mpr (by rw [eN, eS])
  refine ⟨s5, _, h5, hN5, hS, ?_⟩
  cases h6 : insert env64 s5 v' c' with
  | none =>
    have := ((insert_eq_none_iff env64 s5 v' c').mp h6).2
    rw [hsize, eN] at this
    exact absurd this (by decide)
  | some r =>
    obtain ⟨s6, id6⟩ := r
    have hC5 : c' < s5.C_ := by
      have e : s5.C_ = 3 := hk.C_eq
      rw [e]; exact hc'
    obtain ⟨_, _, _, _, _, _, hS6, _⟩ := insert_spec hI5 hC5 h6
    refine ⟨s6, id6, rfl, ?_, by show s6.nStored_ = 5; rw [hS6, eS]⟩
    have := (insert_capacity h6).1
    rw [if_pos hfull, hsize] at this
    exact this

theorem scenario_growth_on_sixth_witness :
    ∃ s5 id5, insert env64 (erase full4 (idIn full4 1 0)) 14 0 = some (s5, id5) ∧
      capacity s5 = 4 ∧ count s5 = 4 ∧
      ∃ s6 id6, insert env64 s5 15 2 = some (s6, id6) ∧ capacity s6 = 8 ∧ count s6 = 5 :=
  scenario_growth_on_sixth 14 15 0 2 (by decide) (by decide)

/-! ## The identifier bounds after an insert into an empty store -/

/-- C16 (range tracker on insert), failing run: the reachable store `emptied`
is empty, `insert(9, 0)` on it returns identifier `1`, and afterwards `maxID()`
is `1` but `minID()` is `0`, not the returned identifier. -/
theorem minID_not_set_on_first_insert :
    Reachable env64 emptied ∧ count emptied = 0 ∧
    insert env64 emptied 9 0 = some (reinserted, 1) ∧
    minID reinserted = 0 ∧ maxID reinserted = 1 ∧ valid reinserted 0 = false :=
  ⟨emptied_reachable, rfl, rfl, rfl, rfl, by decide⟩

/-! ## What `erase` leaves alone -/

/-- C21 (erase disturbs no other item): after `erase(id)` of a valid identifier
of a reachable state, every other identifier has the validity it had (so the
valid ones stay valid and no invalid one becomes valid), every other valid
identifier has the same category and the same record, the capacity and the
number of categories are unchanged, and the storage cell of `id` holds the
default value. -/
theorem erase_frame [Inhabited T] (E : Env) (s : CRepository T) (id : Nat)
    (h : Reachable E s) (hv : valid s id = true) :
    (∀ j, j ≠ id → valid (erase s id) j = valid s j) ∧
    (∀ j, j ≠ id → valid s j = true →
      valid (erase s id) j = true ∧ category (erase s id) j = category s j ∧
      item (erase s id) j = item s j) ∧
    (∀ j, valid s j = false → valid (erase s id) j = false) ∧
    capacity (erase s id) = capacity s ∧
    numberOfCategories (erase s id) = numberOfCategories s ∧
    (erase s id).items_[id]? = some default ∧ item (erase s id) id = default := by
  have hI := reachable_inv h
  obtain ⟨hI', hk, hvid, _, hN, _, hit, _⟩ := erase_spec hI hv
  have hidN := ((valid_iff s id).mp hv).1
  have hlen : id < s.items_.length := by rw [hI.bij.len_items]; exact hidN
  have hcell : (erase s id).items_[id]? = some default := by
    rw [hit, List.getElem?_set_self hlen]
  refine ⟨fun j hj => hk.valid_eq hI hI' hj, ?_, ?_, hN, hk.C_eq, hcell, ?_⟩
  · intro j hj hvj
    refine ⟨by rw [hk.valid_eq hI hI' hj]; exact hvj,
      hk.category_eq hI.bij hI.tiling hI'.bij hI'.tiling ((valid_iff s j).mp hvj).1 hj, ?_⟩
    unfold item
    rw [hit, List.getD_eq_getElem?_getD, List.getD_eq_getElem?_getD,
      List.getElem?_set_ne (Ne.symm hj)]
  · intro j hvj
    by_cases e : j = id
    · rw [e]; exact hvid
    · rw [hk.valid_eq hI hI' e]; exact hvj
  · unfold item
    rw [List.getD_eq_getElem?_getD, hcell]; rfl

theorem erase_frame_witness :
    valid full4 1 = true ∧ valid (erase full4 1) 3 = valid full4 3 ∧
    (valid (erase full4 1) 2 = true ∧ category (erase full4 1) 2 = category full4 2 ∧
      item (erase full4 1) 2 = item full4 2) ∧
    capacity (erase full4 1) = capacity full4 ∧
    numberOfCategories (erase full4 1) = numberOfCategories full4 ∧
    (erase full4 1).items_[1]? = some 0 :=
  have h := erase_frame env64 full4 1 full4_reachable (by decide)
  ⟨by decide, h.1 3 (by decide), h.2.1 2 (by decide) (by decide), h.2.2.2.1, h.2.2.2.2.1,
    h.2.2.2.2.2.1⟩

/-! ## The range scanned by the iterators -/

/-- C22 (iteration bounds are sound): in every reachable state every valid
identifier `i` satisfies `minID() <= i <= maxID()`, so it lies in the range from
`begin()` up to, not including, `end()`; and when `count() > 0`, `maxID()` is
itself valid and is the largest valid identifier. -/
theorem iteration_bounds_sound [Inhabited T] (E : Env) (s : CRepository T)
    (h : Reachable E s) :
    (∀ i, valid s i = true → minID s ≤ i ∧ i ≤ maxID s ∧ beginID s ≤ i ∧ i < endID s) ∧
    (0 < count s → valid s (maxID s) = true ∧ ∀ i, valid s i = true → i ≤ maxID s) := by
  have hr := reachable_range h
  refine ⟨?_, hr.max_ok⟩
  intro i hi
  have hpos : 0 < s.nStored_ := by
    have := ((valid_iff s i).mp hi).2
    omega
  have hmin : s.minID_ ≤ i := by
    rcases hr.min_ok with h0 | ⟨_, h2⟩
    · rw [h0]; exact Nat.zero_le i
    · exact h2 i hi
  have hmax : i ≤ s.maxID_ := (hr.max_ok hpos).2 i hi
  refine ⟨hmin, hmax, hmin, ?_⟩
  unfold endID
  rw [if_pos hpos]
  exact Nat.lt_succ_of_le hmax

theorem iteration_bounds_sound_witness :
    (minID reinserted ≤ 1 ∧ 1 ≤ maxID reinserted ∧ beginID reinserted ≤ 1 ∧
      1 < endID reinserted) ∧
    valid reinserted (maxID reinserted) = true :=
  have h := iteration_bounds_sound env64 reinserted reinserted_reachable
  ⟨h.1 1 (by decide), (h.2 (by decide)).1⟩

/-! ## Checked table accesses of the category-count change -/

/-- The two reads of `offset_` in `reorderToMaxCategory` are in range whenever the
partition tables have `C_ + 1` entries. -/
theorem reorderToMaxCategoryChecked_eq {s : CRepository T} (h : Tiling s) (n : Nat) :
    reorderToMaxCategoryChecked s n = some (reorderToMaxCategory s n) := by
  unfold reorderToMaxCategoryChecked reorderToMaxCategory
  by_cases hge : n ≥ s.C_ - 1
  · rw [if_pos hge, if_pos hge]
  · rw [if_neg hge, if_neg hge,
      getElem?_eq_some_rd s.offset_ s.C_ (by rw [h.len_offset]; omega),
      getElem?_eq_some_rd s.offset_ (n + 1) (by rw [h.len_offset]; omega)]

/-- The state in which `setNumberOfCategories(n)` reaches its table accesses. -/
theorem setNumberOfCategoriesChecked_unfold {s : CRepository T} (h : Inv s) {n : Nat}
    (hn : 0 < n) :
    ∃ s1 : CRepository T,
      s1 = (if s.nStored_ > 0 then reorderToMaxCategory s (n - 1) else s) ∧
      Inv s1 ∧ s1.C_ = s.C_ ∧
      setNumberOfCategoriesChecked s n =
        (match setChecked (resize s1.count_ (n + 1) 0) s1.C_ 0 with
         | none => none
         | some count2 =>
           match setChecked count2 n (rd s1.count_ s1.C_),
             setChecked (resize s1.offset_ (n + 1) (rd s1.offset_ s1.C_)) n
               (rd s1.offset_ s1.C_) with
           | some count3, some offset2 =>
             some { s1 with C_ := n, count_ := count3, offset_ := offset2 }
           | _, _ => none) := by
  refine ⟨_, rfl, ?_, ?_, ?_⟩
  · by_cases hp : s.nStored_ > 0
    · rw [if_pos hp]; exact (reorderToMaxCategory_spec h (n - 1)).1
    · rw [if_neg hp]; exact h
  · by_cases hp : s.nStored_ > 0
    · rw [if_pos hp]; exact (reorderToMaxCategory_spec h (n - 1)).2.1
    · rw [if_neg hp]
  · have key : ∀ s1 : CRepository T,
        s1 = (if s.nStored_ > 0 then reorderToMaxCategory s (n - 1) else s) → Inv s1 →
        setNumberOfCategoriesChecked s n =
          (match setChecked (resize s1.count_ (n + 1) 0) s1.C_ 0 with
           | none => none
           | some count2 =>
             match setChecked count2 n (rd s1.count_ s1.C_),
               setChecked (resize s1.offset_ (n + 1) (rd s1.offset_ s1.C_)) n
                 (rd s1.offset_ s1.C_) with
             | some count3, some offset2 =>
               some { s1 with C_ := n, count_ := count3, offset_ := offset2 }
             | _, _ => none) := by
      intro s1 hs1 hI1
      have e : (if s.nStored_ > 0 then reorderToMaxCategoryChecked s (n - 1) else some s) =
          some s1 := by
        rw [hs1]
        by_cases hp : s.nStored_ > 0
        · rw [if_pos hp, if_pos hp]; exact reorderToMaxCategoryChecked_eq h.tiling (n - 1)
        · rw [if_neg hp, if_neg hp]
      unfold setNumberOfCategoriesChecked
      rw [if_neg (by omega : ¬ n = 0), e]
      simp only []
      rw [getElem?_eq_some_rd s1.count_ s1.C_ (by rw [hI1.tiling.len_count]; omega),
        getElem?_eq_some_rd s1.offset_ s1.C_ (by rw [hI1.tiling.len_offset]; omega)]
    apply key _ rfl
    by_cases hp : s.nStored_ > 0
    · rw [if_pos hp]; exact (reorderToMaxCategory_spec h (n - 1)).1
    · rw [if_neg hp]; exact h

/-- For `n ≥ 1` in a state satisfying the invariant, some table access of
`setNumberOfCategories(n)` is out of range exactly when `n` is below the current
number of categories: the write `count_[oldC] = 0` follows the resize of
`count_` to `n + 1` entries. -/
theorem setNumberOfCategoriesChecked_eq_none_iff {s : CRepository T} (h : Inv s) {n : Nat}
    (hn : 0 < n) : setNumberOfCategoriesChecked s n = none ↔ n < s.C_ := by
  obtain ⟨s1, _, _, hC, e⟩ := setNumberOfCategoriesChecked_unfold h hn
  rw [e, hC]
  unfold setChecked
  rw [length_resize, length_resize]
  by_cases hlt : s.C_ < n + 1
  · rw [if_pos hlt]
    simp only [List.length_set, length_resize, Nat.lt_add_one, if_true]
    constructor
    · intro hx; exact absurd hx (by simp)
    · intro hx; omega
  · rw [if_neg hlt]
    constructor
    · intro _; omega
    · intro _; rfl

/-- When the number of categories grows or stays the same, every table access of
`setNumberOfCategories(n)` is in range and the result is that of the unchecked
embedding. -/
theorem setNumberOfCategoriesChecked_eq_some {s : CRepository T} (h : Inv s) {n : Nat}
    (hn : s.C_ ≤ n) : setNumberOfCategoriesChecked s n = some (setNumberOfCategories s n) := by
  have hpos : 0 < n := Nat.lt_of_lt_of_le h.cpos hn
  obtain ⟨s1, hs1, _, hC, e⟩ := setNumberOfCategoriesChecked_unfold h hpos
  rw [e]
  unfold setChecked
  rw [length_resize, length_resize, if_pos (by omega : s1.C_ < n + 1)]
  simp only [List.length_set, length_resize, Nat.lt_add_one, if_true]
  unfold setNumberOfCategories
  rw [if_neg (by omega : ¬ n = 0), ← hs1]

/-- C23 (index safety of the category-count change) fails when the number of
categories shrinks.  After `construct(4, 10); insert(5, 3)` the call
`setNumberOfCategories(2)` passes the reads in `reorderToMaxCategory(1)` and the
reads of `count_[4]` and `offset_[4]`, resizes `count_` to 3 entries, and then
writes `count_[oldC]` with `oldC = 4`: index 4 is not below the length 3, so the
checked embedding returns `none`.  Growing to 5 and keeping 4 categories pass
every check. -/
theorem setNumberOfCategories_shrink_index_out_of_range :
    Reachable env64 one10 ∧
    reorderToMaxCategoryChecked one10 1 = some (reorderToMaxCategory one10 1) ∧
    (reorderToMaxCategory one10 1).C_ = 4 ∧
    (reorderToMaxCategory one10 1).count_.length = 5 ∧
    (resize (reorderToMaxCategory one10 1).count_ (2 + 1) 0).length = 3 ∧
    setChecked (resize (reorderToMaxCategory one10 1).count_ (2 + 1) 0)
      (reorderToMaxCategory one10 1).C_ 0 = none ∧
    setNumberOfCategoriesChecked one10 2 = none ∧
    setNumberOfCategoriesChecked one10 5 = some (setNumberOfCategories one10 5) ∧
    setNumberOfCategoriesChecked one10 4 = some (setNumberOfCategories one10 4) :=
  ⟨one10_reachable, rfl, rfl, rfl, rfl, rfl, rfl, rfl, rfl⟩

end repo
